import Mathlib

/-!
Verification of the Fourier–Motzkin decision core of `reftype::fm`
(`src/types/include/reftype/fm/{types,rounding,eliminate,disjunction,parser,solver}.hpp`).

Shallow-embedding conventions, kept uniform through the file:

* C++ `double` is modelled as `ℚ`.  All coefficient/constant arithmetic in the
  source is exact on the values exercised here; the `check_ll_range` guards in
  `rounding.hpp` only protect the `long long` cast of the `double`
  implementation of floor/ceil and have no counterpart over `ℚ`.  The
  truncate-then-adjust loops of `ceil_val`/`floor_val` compute exactly the
  mathematical ceiling/floor, which is how they are rendered below.
* The fixed-capacity arrays (`MaxVars`, `MaxIneqs`, `MaxClauses`,
  `MaxTermsPerIneq`) are modelled as unbounded lists and the corresponding
  capacity-overflow `throw`s are omitted; the spec's claims quantify "within
  capacity limits", and §6 of the spec explicitly allows growable containers.
* `consteval` functions that `throw` domain errors that the claims talk about
  (the parser's non-linear/division errors, `clause_implies`' registry guard,
  `has_contradiction`'s termful-system guard) are modelled in
  `Except String`.  The `eliminate_variable` var-id range guard is omitted:
  its only caller (`fm_is_unsat`) provably passes in-range ids.
-/

set_option maxHeartbeats 1000000

-- The Batteries implementations of rational arithmetic are marked
-- irreducible, which blocks `decide` on concrete `ℚ` computations; the
-- definitions are perfectly well-founded, so re-enable unfolding.
attribute [local semireducible] Rat.add Rat.mul Rat.inv Rat.sub

deriving instance DecidableEq for Except

/-- A single term in a linear expression: `coeff * var`
(`LinearTerm` in `fm/types.hpp`; `var_id` is non-negative in every use, so it
is a `Nat` here). -/
structure LinearTerm where
  var_id : Nat
  coeff : ℚ
deriving DecidableEq, Repr

/-- A linear inequality `sum(terms) + constant OP 0`, `OP ∈ {≥, >}`
(`LinearInequality` in `fm/types.hpp`; the `terms` array plus `term_count`
becomes a list). -/
structure LinearInequality where
  terms : List LinearTerm
  constant : ℚ
  strict : Bool
deriving DecidableEq, Repr

/-- Variable metadata: ordered `(name, is_integer)` registry
(`VarInfo` in `fm/types.hpp`; the parallel `names`/`is_integer` arrays become
one list of pairs). -/
structure VarInfo where
  entries : List (String × Bool)
deriving DecidableEq, Repr

namespace VarInfo

/-- Number of registered variables (`VarInfo::count`). -/
def count (v : VarInfo) : Nat := v.entries.length

/-- `VarInfo::find`: index of the first entry with the given name. -/
def find (v : VarInfo) (name : String) : Option Nat :=
  v.entries.findIdx? (fun e => e.1 = name)

/-- `VarInfo::find_or_add`: return the id of an existing entry, else append a
new `(name, integer)` entry and return its id.  The source mutates in place
and returns the id; here the updated registry is returned alongside. -/
def find_or_add (v : VarInfo) (name : String) (integer : Bool := true) :
    Nat × VarInfo :=
  match v.find name with
  | some i => (i, v)
  | none => (v.entries.length, ⟨v.entries ++ [(name, integer)]⟩)

/-- Integer/real domain flag of variable `i` (`is_integer[var_id]`; reads are
always guarded by a range check in the source, so the out-of-range default is
irrelevant). -/
def intFlag (v : VarInfo) (i : Nat) : Bool :=
  match v.entries.get? i with
  | some e => e.2
  | none => false

end VarInfo

/-- A conjunction of linear inequalities plus its shared registry
(`InequalitySystem` in `fm/types.hpp`). -/
structure InequalitySystem where
  ineqs : List LinearInequality
  vars : VarInfo
deriving DecidableEq, Repr

/-- `InequalitySystem::add`: copy-on-write append of one inequality. -/
def InequalitySystem.add (s : InequalitySystem) (i : LinearInequality) :
    InequalitySystem :=
  { s with ineqs := s.ineqs ++ [i] }

/-! ## Rounding (`fm/rounding.hpp`) -/

/-- `ceil_val`: the truncate-and-adjust loop on doubles computes the exact
ceiling, rendered directly over `ℚ`. -/
def ceil_val (x : ℚ) : ℚ := (⌈x⌉ : ℚ)

/-- `floor_val`: exact floor, as computed by the source's truncation. -/
def floor_val (x : ℚ) : ℚ := (⌊x⌋ : ℚ)

/-- `is_integer_val`: whether the value is an integer (`x == trunc x`). -/
def is_integer_val (x : ℚ) : Bool := decide ((⌊x⌋ : ℚ) = x)

/-- `round_integer_bound` from `fm/rounding.hpp`: tighten a bound inequality's
constant for an integer variable.  Multi-variable inequalities with any
non-integer coefficient are returned unchanged; otherwise the constant is
normalized by `target_coeff` (single-variable) or `1` (multi-variable),
rounded up (lower bound) or down (upper bound), and the result is made
non-strict. -/
def round_integer_bound (ineq : LinearInequality) (is_lower : Bool)
    (target_coeff : ℚ) : LinearInequality :=
  if ineq.terms.length > 1 ∧ ineq.terms.any (fun t => !is_integer_val t.coeff)
  then ineq
  else
    let coeff : ℚ := if ineq.terms.length = 1 then target_coeff else 1
    if is_lower then
      let bound := -ineq.constant / coeff
      if ineq.strict ∧ is_integer_val bound then
        { ineq with constant := -(bound + 1) * coeff, strict := false }
      else
        { ineq with constant := -(ceil_val bound) * coeff, strict := false }
    else
      let bound := ineq.constant / coeff
      if ineq.strict ∧ is_integer_val bound then
        { ineq with constant := (bound - 1) * coeff, strict := false }
      else
        { ineq with constant := (floor_val bound) * coeff, strict := false }

/-! ## Eliminate (`fm/eliminate.hpp`) -/

/-- Coefficient of variable `x` in an inequality: the source scans for the
first term with `var_id == x` and takes its coefficient, else `0`. -/
def coeffOf (i : LinearInequality) (x : Nat) : ℚ :=
  match i.terms.find? (fun t => t.var_id = x) with
  | some t => t.coeff
  | none => 0

/-- The add-or-merge step of `combine_bounds`'s term accumulation: find the
first term with the same `var_id` and add the scaled coefficient into it,
else append a fresh term (the source's inner `found` loop). -/
def addScaledTerm : List LinearTerm → Nat → ℚ → List LinearTerm
  | [], v, c => [⟨v, c⟩]
  | t :: ts, v, c =>
      if t.var_id = v then { t with coeff := t.coeff + c } :: ts
      else t :: addScaledTerm ts v c

/-- `combine_bounds` from `fm/eliminate.hpp`: scale the lower bound by the
upper's absolute coefficient and vice versa, merge the non-eliminated terms,
add the scaled constants, OR the strictness flags, and prune
zero-coefficient terms. -/
def combine_bounds (lower : LinearInequality) (lower_coeff : ℚ)
    (upper : LinearInequality) (upper_abs_coeff : ℚ) (var_id : Nat) :
    LinearInequality :=
  let t1 := (lower.terms.filter (fun t => t.var_id ≠ var_id)).foldl
    (fun acc t => addScaledTerm acc t.var_id (t.coeff * upper_abs_coeff)) []
  let t2 := (upper.terms.filter (fun t => t.var_id ≠ var_id)).foldl
    (fun acc t => addScaledTerm acc t.var_id (t.coeff * lower_coeff)) t1
  { terms := t2.filter (fun t => t.coeff ≠ 0)
    constant := lower.constant * upper_abs_coeff + upper.constant * lower_coeff
    strict := lower.strict || upper.strict }

/-- The lower-bound partition (`lower_idx`/`lower_coeff` in the source's
partition loop): inequalities with a strictly positive coefficient on the
target variable, in scan order, paired with that coefficient. -/
def fmLowers (sys : InequalitySystem) (x : Nat) :
    List (LinearInequality × ℚ) :=
  sys.ineqs.filterMap (fun i =>
    let c := coeffOf i x
    if 0 < c then some (i, c) else none)

/-- The upper-bound partition (`upper_idx`/`upper_abs_coeff`): strictly
negative coefficient, paired with its absolute value. -/
def fmUppers (sys : InequalitySystem) (x : Nat) :
    List (LinearInequality × ℚ) :=
  sys.ineqs.filterMap (fun i =>
    let c := coeffOf i x
    if c < 0 then some (i, -c) else none)

/-- The lower bounds after the in-place integer tightening step. -/
def roundedLowers (sys : InequalitySystem) (x : Nat) :
    List (LinearInequality × ℚ) :=
  if sys.vars.intFlag x then
    (fmLowers sys x).map (fun p => (round_integer_bound p.1 true p.2, p.2))
  else fmLowers sys x

/-- The upper bounds after the in-place integer tightening step. -/
def roundedUppers (sys : InequalitySystem) (x : Nat) :
    List (LinearInequality × ℚ) :=
  if sys.vars.intFlag x then
    (fmUppers sys x).map (fun p => (round_integer_bound p.1 false p.2, p.2))
  else fmUppers sys x

/-- `eliminate_variable` from `fm/eliminate.hpp`: partition into lower
bounds, upper bounds and unrelated inequalities; tighten the bounds via
`round_integer_bound` when the variable is integer-domain; keep the
unrelated inequalities (in scan order) followed by every (lower, upper)
combination (lower-major order).  The source's var-id range guard is
omitted; `fm_is_unsat` only passes ids below `vars.count`. -/
def eliminate_variable (sys : InequalitySystem) (x : Nat) : InequalitySystem :=
  { ineqs := sys.ineqs.filter (fun i => coeffOf i x = 0) ++
      (roundedLowers sys x).flatMap (fun l =>
        (roundedUppers sys x).map (fun u =>
          combine_bounds l.1 l.2 u.1 u.2 x))
    vars := sys.vars }

/-- Whether a constant inequality is contradictory (`strict && c ≤ 0`, or
`!strict && c < 0`). -/
def contradictoryConst (i : LinearInequality) : Bool :=
  (i.strict && decide (i.constant ≤ 0)) || (!i.strict && decide (i.constant < 0))

/-- `has_contradiction` from `fm/eliminate.hpp`: scan a constant-only system
for a contradictory constant; a remaining variable term is a caller error
(`throw`, modelled as `Except.error`). -/
def has_contradiction : List LinearInequality → Except String Bool
  | [] => .ok false
  | i :: rest =>
      if i.terms ≠ [] then
        .error "has_contradiction: system still has variable terms"
      else if contradictoryConst i then .ok true
      else has_contradiction rest

/-- The elimination loop of `fm_is_unsat`, unrolled: `elimUpTo sys n` has
eliminated variables `0, 1, …, n-1` in that order. -/
def elimUpTo (sys : InequalitySystem) : Nat → InequalitySystem
  | 0 => sys
  | n + 1 => eliminate_variable (elimUpTo sys n) n

/-- `fm_is_unsat` from `fm/eliminate.hpp`: eliminate every registered variable
in id order, then check the resulting constant system for a contradiction. -/
def fm_is_unsat (sys : InequalitySystem) : Except String Bool :=
  has_contradiction (elimUpTo sys sys.vars.count).ineqs

/-! ## Disjunction (`fm/disjunction.hpp`) -/

/-- `negate_inequality`: flip every coefficient, the constant, and the
strictness. -/
def negate_inequality (ineq : LinearInequality) : LinearInequality :=
  { terms := ineq.terms.map (fun t => { t with coeff := -t.coeff })
    constant := -ineq.constant
    strict := !ineq.strict }

/-- The error raised by `clause_implies` on mismatched registries. -/
def clauseImpliesGuardMsg : String :=
  "clause_implies: incompatible variable orderings"

/-- The smaller of the two registries compared by `clause_implies`
(ties resolved to A's, as in the source's `<=` conditional). -/
def smallerVars (a b : InequalitySystem) : VarInfo :=
  if a.vars.count ≤ b.vars.count then a.vars else b.vars

/-- The larger of the two registries compared by `clause_implies`. -/
def largerVars (a b : InequalitySystem) : VarInfo :=
  if a.vars.count ≤ b.vars.count then b.vars else a.vars

/-- The registry-compatibility guard of `clause_implies`: every entry of the
smaller registry must be found at the identical position in the larger one. -/
def varRegistryCompatible (a b : InequalitySystem) : Bool :=
  (smallerVars a b).entries.enum.all
    (fun p => (largerVars a b).find p.2.1 == some p.1)

/-- The per-inequality test loop of `clause_implies`: for each `b_i` in B,
`A ∧ ¬b_i` must be UNSAT. -/
def clauseImpliesLoop (a : InequalitySystem) :
    List LinearInequality → Except String Bool
  | [] => .ok true
  | bi :: rest => do
      let u ← fm_is_unsat (a.add (negate_inequality bi))
      if u then clauseImpliesLoop a rest else .ok false

/-- `clause_implies` from `fm/disjunction.hpp`: guard that the smaller
registry's names all appear at identical positions in the larger registry
(else `throw`), then test `A ∧ ¬b_i` UNSAT for every `b_i` in B. -/
def clause_implies (a b : InequalitySystem) : Except String Bool :=
  if varRegistryCompatible a b then clauseImpliesLoop a b.ineqs
  else .error clauseImpliesGuardMsg

/-! ## Formula parser (`fm/parser.hpp`)

The predicate-tree input (`refmacro::Expression`/`NodeView`, declared out of
scope by the spec: the core only consumes such a tree) is embedded as an
inductive type with exactly the node vocabulary of spec §6; the parser
dispatches on it the way the source dispatches on node tags.  Node kinds that
the source rejects with "unsupported node" cannot be represented, which loses
only those error paths. -/

/-- The input predicate tree: spec §6's fixed node vocabulary. -/
inductive Expr where
  | lit (v : ℚ)
  | var (name : String)
  | add (a b : Expr)
  | sub (a b : Expr)
  | neg (a : Expr)
  | mul (a b : Expr)
  | div (a b : Expr)
  | eq (a b : Expr)
  | lt (a b : Expr)
  | gt (a b : Expr)
  | le (a b : Expr)
  | ge (a b : Expr)
  | land (a b : Expr)
  | lor (a b : Expr)
  | lnot (a : Expr)
deriving DecidableEq, Repr

/-- Intermediate coefficient vector (`LinearExpr` in `fm/parser.hpp`): the
fixed `coeffs[MaxVars]` array becomes a list indexed by variable id, absent
tail entries read as `0`. -/
structure LinearExpr where
  coeffs : List ℚ
  constant : ℚ
deriving DecidableEq, Repr

/-- Pointwise sum of two coefficient arrays (`add_expr`'s loop), keeping the
longer tail. -/
def addCoeffs : List ℚ → List ℚ → List ℚ
  | [], ys => ys
  | x :: xs, [] => x :: xs
  | x :: xs, y :: ys => (x + y) :: addCoeffs xs ys

/-- `add_expr` from `fm/parser.hpp`. -/
def add_expr (a b : LinearExpr) : LinearExpr :=
  { coeffs := addCoeffs a.coeffs b.coeffs, constant := a.constant + b.constant }

/-- `negate_expr` from `fm/parser.hpp`. -/
def negate_expr (a : LinearExpr) : LinearExpr :=
  { coeffs := a.coeffs.map (fun c => -c), constant := -a.constant }

/-- `sub_expr` from `fm/parser.hpp`. -/
def sub_expr (a b : LinearExpr) : LinearExpr := add_expr a (negate_expr b)

/-- `scale_expr` from `fm/parser.hpp`. -/
def scale_expr (a : LinearExpr) (factor : ℚ) : LinearExpr :=
  { coeffs := a.coeffs.map (fun c => c * factor), constant := a.constant * factor }

/-- `is_constant_expr` from `fm/parser.hpp`: no nonzero coefficient. -/
def is_constant_expr (a : LinearExpr) : Bool := a.coeffs.all (fun c => c = 0)

/-- A DNF of `InequalitySystem` clauses (`ParseResult` in `fm/parser.hpp`). -/
structure ParseResult where
  clauses : List InequalitySystem
deriving DecidableEq, Repr

/-- `single_clause` from `fm/parser.hpp`. -/
def single_clause (sys : InequalitySystem) : ParseResult := ⟨[sys]⟩

/-- `merge_systems` from `fm/parser.hpp`: concatenate the inequality lists,
taking whichever `VarInfo` has more entries. -/
def merge_systems (a b : InequalitySystem) : InequalitySystem :=
  { ineqs := a.ineqs ++ b.ineqs
    vars := if b.vars.count > a.vars.count then b.vars else a.vars }

/-- `conjoin` from `fm/parser.hpp`: cross-product DNF distribution
(left-clause-major order, as in the source's nested loops). -/
def conjoin (left right : ParseResult) : ParseResult :=
  ⟨left.clauses.flatMap (fun a => right.clauses.map (fun b => merge_systems a b))⟩

/-- `disjoin` from `fm/parser.hpp`: concatenate clause lists. -/
def disjoin (left right : ParseResult) : ParseResult :=
  ⟨left.clauses ++ right.clauses⟩

/-- The term-emission loop of `to_inequality`: walk the coefficient array in
ascending index order, emitting a term for every nonzero coefficient. -/
def coeffsToTerms : List ℚ → Nat → List LinearTerm
  | [], _ => []
  | c :: rest, k =>
      if c ≠ 0 then ⟨k, c⟩ :: coeffsToTerms rest (k + 1)
      else coeffsToTerms rest (k + 1)

/-- `to_inequality` from `fm/parser.hpp`: `(lhs - rhs) OP 0`. -/
def to_inequality (lhs rhs : LinearExpr) (strict : Bool) : LinearInequality :=
  let diff := sub_expr lhs rhs
  { terms := coeffsToTerms diff.coeffs 0, constant := diff.constant, strict }

/-- `parse_arith` from `fm/parser.hpp`: linearize an arithmetic subtree,
registering variables in `vars` (state passed explicitly, default domain
integer), and failing on the source's non-linear/division errors. -/
def parse_arith : Expr → VarInfo → Except String (LinearExpr × VarInfo)
  | .lit v, vars => .ok ({ coeffs := [], constant := v }, vars)
  | .var n, vars =>
      let r := vars.find_or_add n
      .ok ({ coeffs := List.replicate r.1 0 ++ [1], constant := 0 }, r.2)
  | .add a b, vars => do
      let (la, v1) ← parse_arith a vars
      let (lb, v2) ← parse_arith b v1
      .ok (add_expr la lb, v2)
  | .sub a b, vars => do
      let (la, v1) ← parse_arith a vars
      let (lb, v2) ← parse_arith b v1
      .ok (sub_expr la lb, v2)
  | .neg a, vars => do
      let (la, v1) ← parse_arith a vars
      .ok (negate_expr la, v1)
  | .mul a b, vars => do
      let (la, v1) ← parse_arith a vars
      let (lb, v2) ← parse_arith b v1
      if is_constant_expr la then .ok (scale_expr lb la.constant, v2)
      else if is_constant_expr lb then .ok (scale_expr la lb.constant, v2)
      else .error "non-linear: variable * variable"
  | .div a b, vars => do
      let (la, v1) ← parse_arith a vars
      let (lb, v2) ← parse_arith b v1
      if !is_constant_expr lb then .error "non-linear: division by variable"
      else if lb.constant = 0 then .error "division by zero"
      else .ok (scale_expr la (1 / lb.constant), v2)
  | _, _ => .error "unsupported node in arithmetic expression"

/-- The comparison tags handled by `parse_comparison`. -/
inductive CmpKind where
  | ceq | clt | cgt | cle | cge
deriving DecidableEq, Repr

/-- The comparison tag of a comparison node, if any. -/
def cmpKindOf : Expr → Option (CmpKind × Expr × Expr)
  | .eq a b => some (.ceq, a, b)
  | .lt a b => some (.clt, a, b)
  | .gt a b => some (.cgt, a, b)
  | .le a b => some (.cle, a, b)
  | .ge a b => some (.cge, a, b)
  | _ => none

/-- `parse_comparison` from `fm/parser.hpp`: parse both operands, then emit
the normalized inequality/ies for the (possibly negated) comparison.
Non-negated equality yields one clause with two inequalities, negated
equality two strict clauses, every other case one single-inequality
clause. -/
def parse_comparison (t : CmpKind) (l r : Expr) (vars : VarInfo)
    (negate : Bool) : Except String (ParseResult × VarInfo) := do
  let (lhs, v1) ← parse_arith l vars
  let (rhs, v2) ← parse_arith r v1
  if t = .ceq ∧ !negate then
    let ineq1 := to_inequality lhs rhs false
    let ineq2 := to_inequality rhs lhs false
    .ok (single_clause ⟨[ineq1, ineq2], v2⟩, v2)
  else if t = .ceq ∧ negate then
    let ineq_lt := to_inequality rhs lhs true
    let ineq_gt := to_inequality lhs rhs true
    .ok (⟨[⟨[ineq_lt], v2⟩, ⟨[ineq_gt], v2⟩]⟩, v2)
  else
    let ineq :=
      if (t = .cgt ∧ !negate) ∨ (t = .cle ∧ negate) then
        to_inequality lhs rhs true
      else if (t = .cge ∧ !negate) ∨ (t = .clt ∧ negate) then
        to_inequality lhs rhs false
      else if (t = .clt ∧ !negate) ∨ (t = .cge ∧ negate) then
        to_inequality rhs lhs true
      else
        to_inequality rhs lhs false
    .ok (single_clause ⟨[ineq], v2⟩, v2)

mutual

/-- `parse_formula` from `fm/parser.hpp`: dispatch on comparison / `land` /
`lor` / `lnot`; any other node kind is unsupported. -/
def parse_formula : Expr → VarInfo → Except String (ParseResult × VarInfo)
  | .eq a b, vars => parse_comparison .ceq a b vars false
  | .lt a b, vars => parse_comparison .clt a b vars false
  | .gt a b, vars => parse_comparison .cgt a b vars false
  | .le a b, vars => parse_comparison .cle a b vars false
  | .ge a b, vars => parse_comparison .cge a b vars false
  | .land a b, vars => do
      let (l, v1) ← parse_formula a vars
      let (r, v2) ← parse_formula b v1
      .ok (conjoin l r, v2)
  | .lor a b, vars => do
      let (l, v1) ← parse_formula a vars
      let (r, v2) ← parse_formula b v1
      .ok (disjoin l r, v2)
  | .lnot a, vars => parse_negated a vars
  | _, _ => .error "unsupported node in refinement predicate"

/-- `parse_negated` from `fm/parser.hpp`: the De Morgan dual of
`parse_formula`. -/
def parse_negated : Expr → VarInfo → Except String (ParseResult × VarInfo)
  | .eq a b, vars => parse_comparison .ceq a b vars true
  | .lt a b, vars => parse_comparison .clt a b vars true
  | .gt a b, vars => parse_comparison .cgt a b vars true
  | .le a b, vars => parse_comparison .cle a b vars true
  | .ge a b, vars => parse_comparison .cge a b vars true
  | .land a b, vars => do
      let (l, v1) ← parse_negated a vars
      let (r, v2) ← parse_negated b v1
      .ok (disjoin l r, v2)
  | .lor a b, vars => do
      let (l, v1) ← parse_negated a vars
      let (r, v2) ← parse_negated b v1
      .ok (conjoin l r, v2)
  | .lnot a, vars => parse_formula a vars
  | _, _ => .error "unsupported node in negated formula"

end

/-- `parse_to_system(formula)` from `fm/parser.hpp` (the source overload that
starts from a fresh registry): run `parse_formula`, then back-propagate the
final `VarInfo` onto every clause. -/
def parse_to_system (e : Expr) : Except String ParseResult := do
  let (r, vfin) ← parse_formula e ⟨[]⟩
  .ok ⟨r.clauses.map (fun c => { c with vars := vfin })⟩

/-- Modelled from the spec: the `parse_to_system(formula, vars)` overload
taken by `solver.hpp` (its definition is not among the sources; only its
callers are).  Per spec §4.1 and §4.5 it behaves like `parse_to_system` but
starts from, and mutates, the caller-supplied registry (so real-domain
variables can be pre-registered), back-propagating the final registry onto
every clause; the mutated registry is returned alongside. -/
def parse_to_system_vars (e : Expr) (vars : VarInfo) :
    Except String (ParseResult × VarInfo) := do
  let (r, vfin) ← parse_formula e vars
  .ok (⟨r.clauses.map (fun c => { c with vars := vfin })⟩, vfin)

/-! ## Solver (`fm/solver.hpp`) -/

/-- `is_unsat(system)` from `fm/solver.hpp`: thin wrapper over
`fm_is_unsat`. -/
def is_unsat_sys (sys : InequalitySystem) : Except String Bool :=
  fm_is_unsat sys

/-- `is_unsat(dnf)` from `fm/solver.hpp`: scan the clauses, returning `false`
at the first satisfiable clause, `true` when every clause is UNSAT (so an
empty clause list gives `true`). -/
def is_unsat_dnf : List InequalitySystem → Except String Bool
  | [] => .ok true
  | c :: rest => do
      let u ← fm_is_unsat c
      if u then is_unsat_dnf rest else .ok false

/-- The premise-clause loop of `is_valid_implication_impl`: every premise
clause must `clause_implies` the single conclusion clause. -/
def impliesAllLoop (q : InequalitySystem) :
    List InequalitySystem → Except String Bool
  | [] => .ok true
  | c :: rest => do
      let b ← clause_implies c q
      if b then impliesAllLoop q rest else .ok false

/-- `detail::is_valid_implication_impl` from `fm/solver.hpp`: parse both
formulas with one accumulating registry, back-propagate the final registry
onto the premise clauses, then either clause-check against a conjunctive
conclusion or fall back to `premise ∧ ¬conclusion` UNSAT. -/
def is_valid_implication_impl (premise conclusion : Expr) (vars : VarInfo) :
    Except String Bool := do
  let (p_dnf, v1) ← parse_to_system_vars premise vars
  let (q_dnf, v2) ← parse_to_system_vars conclusion v1
  let pcs := p_dnf.clauses.map (fun c => { c with vars := v2 })
  match q_dnf.clauses with
  | [qs] => impliesAllLoop qs pcs
  | _ => do
      let (r, _) ← parse_to_system_vars (.land premise (.lnot conclusion)) v2
      is_unsat_dnf r.clauses

/-- `is_valid_implication(premise, conclusion)` from `fm/solver.hpp`
(default-registry overload: all variables integer). -/
def is_valid_implication (premise conclusion : Expr) : Except String Bool :=
  is_valid_implication_impl premise conclusion ⟨[]⟩

/-- `is_valid_implication(premise, conclusion, vars)` from `fm/solver.hpp`
(caller-supplied registry overload). -/
def is_valid_implication_vars (premise conclusion : Expr) (vars : VarInfo) :
    Except String Bool :=
  is_valid_implication_impl premise conclusion vars

/-! ## Specification-side semantics

Reference semantics over `ℚ` assignments (by variable id), used to state and
prove the algebraic claims about the embedded code. -/

/-- Value of a term list under an assignment of rationals to variable ids. -/
def evalTerms (ts : List LinearTerm) (ρ : Nat → ℚ) : ℚ :=
  (ts.map (fun t => t.coeff * ρ t.var_id)).sum

/-- Left-hand side value of an inequality: `Σ terms + constant`. -/
def evalIneq (ρ : Nat → ℚ) (i : LinearInequality) : ℚ :=
  evalTerms i.terms ρ + i.constant

/-- Truth of one normalized inequality under an assignment. -/
def holds (ρ : Nat → ℚ) (i : LinearInequality) : Prop :=
  if i.strict then 0 < evalIneq ρ i else 0 ≤ evalIneq ρ i

/-- Truth of a conjunction of inequalities. -/
def satList (ρ : Nat → ℚ) (l : List LinearInequality) : Prop :=
  ∀ i ∈ l, holds ρ i

/-- Satisfiability (over `ℚ`) of a conjunction of inequalities. -/
def SatL (l : List LinearInequality) : Prop := ∃ ρ, satList ρ l

/-- The `x`-free part of an inequality's value: all terms other than `x`'s,
plus the constant. -/
def xfree (i : LinearInequality) (x : Nat) (ρ : Nat → ℚ) : ℚ :=
  evalTerms (i.terms.filter (fun t => t.var_id ≠ x)) ρ + i.constant

/-- `coeffOf` at the term-list level (first matching term's coefficient). -/
def coeffOfT (ts : List LinearTerm) (x : Nat) : ℚ :=
  match ts.find? (fun t => t.var_id = x) with
  | some t => t.coeff
  | none => 0

/-- Well-formedness of an inequality relative to a registry of `n` variables:
distinct term ids, ids in range, and no explicit zero coefficients.  Every
inequality the parser emits satisfies this, and elimination preserves it. -/
def wfIneq (n : Nat) (i : LinearInequality) : Prop :=
  (i.terms.map (fun t => t.var_id)).Nodup ∧
    ∀ t ∈ i.terms, t.var_id < n ∧ t.coeff ≠ 0

/-- Value of a `LinearExpr` coefficient vector under an assignment by id
(the `i`-th coefficient times the value of variable `i`). -/
def coeffSum : List ℚ → (Nat → ℚ) → ℚ
  | [], _ => 0
  | c :: rest, ρ => c * ρ 0 + coeffSum rest (fun i => ρ (i + 1))

/-- Value of a `LinearExpr` under an assignment by id. -/
def evalLE (le : LinearExpr) (ρ : Nat → ℚ) : ℚ :=
  coeffSum le.coeffs ρ + le.constant

/-- No name is registered twice.  `find_or_add` (the only way the source ever
populates a `VarInfo`) preserves this. -/
def nodupNames (v : VarInfo) : Prop := (v.entries.map Prod.fst).Nodup

/-- Registry extension: `w` is `v` with zero or more entries appended.
`find_or_add` only ever appends, so every parsing step extends the registry
in this sense, and ids assigned earlier stay stable. -/
def VExt (v w : VarInfo) : Prop := ∃ t, w.entries = v.entries ++ t

/-- Well-formedness of a whole system (every inequality well-formed for the
system's registry). -/
def wfSys (s : InequalitySystem) : Prop :=
  ∀ i ∈ s.ineqs, wfIneq s.vars.count i

/-- The inequality lists of a DNF's clauses, forgetting the per-clause
registry snapshots (used to compare the results of re-parsing a formula
under an extended registry). -/
def clauseShapes (r : ParseResult) : List (List LinearInequality) :=
  r.clauses.map (fun c => c.ineqs)

/-- All variable names occurring in a predicate tree. -/
def exprVars : Expr → List String
  | .lit _ => []
  | .var n => [n]
  | .add a b | .sub a b | .mul a b | .div a b => exprVars a ++ exprVars b
  | .eq a b | .lt a b | .gt a b | .le a b | .ge a b => exprVars a ++ exprVars b
  | .land a b | .lor a b => exprVars a ++ exprVars b
  | .neg a | .lnot a => exprVars a

/-- Reference value of an arithmetic subtree relative to a registry (ids are
resolved through `find`; boolean nodes have no arithmetic value).  Division
is `ℚ` division; the parser rejects the only case (`/0`) where this could
disagree with the source semantics. -/
def aval : Expr → VarInfo → (Nat → ℚ) → ℚ
  | .lit v, _, _ => v
  | .var n, vi, ρ => match vi.find n with | some i => ρ i | none => 0
  | .add a b, vi, ρ => aval a vi ρ + aval b vi ρ
  | .sub a b, vi, ρ => aval a vi ρ - aval b vi ρ
  | .neg a, vi, ρ => -aval a vi ρ
  | .mul a b, vi, ρ => aval a vi ρ * aval b vi ρ
  | .div a b, vi, ρ => aval a vi ρ / aval b vi ρ
  | _, _, _ => 0

/-- Reference truth of a predicate tree relative to a registry. -/
def semF : Expr → VarInfo → (Nat → ℚ) → Prop
  | .eq a b, vi, ρ => aval a vi ρ = aval b vi ρ
  | .lt a b, vi, ρ => aval a vi ρ < aval b vi ρ
  | .gt a b, vi, ρ => aval b vi ρ < aval a vi ρ
  | .le a b, vi, ρ => aval a vi ρ ≤ aval b vi ρ
  | .ge a b, vi, ρ => aval b vi ρ ≤ aval a vi ρ
  | .land a b, vi, ρ => semF a vi ρ ∧ semF b vi ρ
  | .lor a b, vi, ρ => semF a vi ρ ∨ semF b vi ρ
  | .lnot a, vi, ρ => ¬semF a vi ρ
  | _, _, _ => False

/-- The parser invariants, packaged for one parsing function: the registry
only grows (ids stay stable), name-uniqueness is preserved, all the given
names end up registered, the produced inequalities are well-formed for the
final registry, at least one clause is produced, and re-parsing under any
extension of the final registry succeeds with the same clause shapes and no
further registry growth. -/
def ParseInv (f : VarInfo → Except String (ParseResult × VarInfo))
    (names : List String) : Prop :=
  ∀ v r v', f v = Except.ok (r, v') →
    VExt v v' ∧ (nodupNames v → nodupNames v') ∧
    (∀ n ∈ names, ∃ i, v'.find n = some i) ∧
    (∀ C ∈ r.clauses, ∀ iq ∈ C.ineqs, wfIneq v'.count iq) ∧
    r.clauses ≠ [] ∧
    (∀ w, VExt v' w → ∃ r2, f w = Except.ok (r2, w) ∧
      clauseShapes r2 = clauseShapes r)

/-! # Theorems -/

/-! ## Error-kind bookkeeping -/

theorem ebind_ok {α β : Type} (a : α) (f : α → Except String β) :
    (Except.ok a >>= f) = f a := rfl

theorem ebind_error {α β : Type} (e : String) (f : α → Except String β) :
    ((Except.error e : Except String α) >>= f) = Except.error e := rfl

theorem has_contradiction_error {l : List LinearInequality} {s : String}
    (h : has_contradiction l = .error s) :
    s = "has_contradiction: system still has variable terms" := by
  induction l with
  | nil => simp [has_contradiction] at h
  | cons i rest ih =>
    rw [has_contradiction] at h
    split at h
    · injection h with h'
      exact h'.symm
    · split at h
      · simp at h
      · exact ih h

theorem fm_is_unsat_error {sys : InequalitySystem} {s : String}
    (h : fm_is_unsat sys = .error s) :
    s = "has_contradiction: system still has variable terms" :=
  has_contradiction_error h

theorem clauseImpliesLoop_ne_guard (a : InequalitySystem)
    (l : List LinearInequality) :
    clauseImpliesLoop a l ≠ .error clauseImpliesGuardMsg := by
  induction l with
  | nil => simp [clauseImpliesLoop]
  | cons bi rest ih =>
    rw [clauseImpliesLoop]
    intro h
    cases hu : fm_is_unsat (a.add (negate_inequality bi)) with
    | error e =>
      rw [hu, ebind_error] at h
      injection h with h'
      have he := fm_is_unsat_error hu
      rw [he] at h'
      exact absurd h' (by decide)
    | ok u =>
      rw [hu, ebind_ok] at h
      cases u with
      | true => exact ih (by simpa using h)
      | false => simp at h

/-! ## C10: repeated registration in `VarInfo.find_or_add` -/

/-- C10: for every `VarInfo` state and every name already registered in it
(`find` returns its id, which for a registry built by `find_or_add` is the id
the first registration assigned), a second `find_or_add` call with that name
returns that id and leaves the registry — its count and its stored
integer/real flags — completely unchanged, even when the new call passes a
different flag value. -/
theorem find_or_add_already_registered (v : VarInfo) (n : String) (b : Bool)
    (i : Nat) (h : v.find n = some i) :
    v.find_or_add n b = (i, v) := by
  rw [VarInfo.find_or_add, h]

theorem find_or_add_already_registered_witness :
    VarInfo.find ⟨[("x", true)]⟩ "x" = some 0 ∧
      VarInfo.find_or_add ⟨[("x", true)]⟩ "x" false = (0, ⟨[("x", true)]⟩) :=
  ⟨by decide, find_or_add_already_registered ⟨[("x", true)]⟩ "x" false 0 (by decide)⟩

/-! ## C9: negation round-trip -/

/-- C9: `negate_inequality` is an involution — applying it twice restores the
coefficients, the constant and the strictness flag of any inequality. -/
theorem negate_inequality_involutive (i : LinearInequality) :
    negate_inequality (negate_inequality i) = i := by
  cases i with
  | mk ts c s =>
    have h : ∀ ts' : List LinearTerm,
        (ts'.map (fun t => { t with coeff := -t.coeff })).map
          (fun t => { t with coeff := -t.coeff }) = ts' := by
      intro ts'
      induction ts' with
      | nil => rfl
      | cons t rest ih => cases t; simp [ih]
    simp [negate_inequality, h ts]

/-! ## C3: strictness of `round_integer_bound` -/

/-- C3 counterexample: a two-term inequality with a non-integer coefficient is
returned unchanged by `round_integer_bound`, so a strict input stays strict —
refuting "the result always has `strict = false` for every inequality". -/
theorem round_integer_bound_keeps_strict_counterexample :
    (round_integer_bound ⟨[⟨0, (1:ℚ)/2⟩, ⟨1, 1⟩], 0, true⟩ true ((1:ℚ)/2)).strict
      = true := by decide

/-- C3 (amended): whenever `round_integer_bound` actually tightens — that is,
unless the inequality has more than one term and some non-integer
coefficient, in which case it is returned unchanged — the result has
`strict = false`, for every `is_lower` flag and every target coefficient. -/
theorem round_integer_bound_strict_false (i : LinearInequality)
    (is_lower : Bool) (tc : ℚ)
    (h : i.terms.length ≤ 1 ∨ ∀ t ∈ i.terms, is_integer_val t.coeff = true) :
    (round_integer_bound i is_lower tc).strict = false := by
  have hcond : ¬(i.terms.length > 1 ∧
      i.terms.any (fun t => !is_integer_val t.coeff) = true) := by
    rcases h with h1 | h2
    · intro hc; omega
    · intro hc
      rcases List.any_eq_true.mp hc.2 with ⟨t, ht, hne⟩
      rw [h2 t ht] at hne
      simp at hne
  rw [round_integer_bound, if_neg hcond]
  split <;> split <;> (dsimp only; split <;> rfl)

theorem round_integer_bound_strict_false_witness :
    ((⟨[⟨0, (1:ℚ)⟩], -2, true⟩ : LinearInequality).terms.length ≤ 1 ∨
      ∀ t ∈ (⟨[⟨0, (1:ℚ)⟩], -2, true⟩ : LinearInequality).terms,
        is_integer_val t.coeff = true) ∧
    (round_integer_bound ⟨[⟨0, (1:ℚ)⟩], -2, true⟩ true 1).strict = false :=
  ⟨Or.inl (by decide),
    round_integer_bound_strict_false ⟨[⟨0, (1:ℚ)⟩], -2, true⟩ true 1
      (Or.inl (by decide))⟩

/-! ## C2: integer tightening scenario -/

/-- C2: the conjunctive system `x > 2 ∧ x < 3` (normalized `x - 2 > 0` and
`-x + 3 > 0`) is reported UNSAT by `fm_is_unsat` when `x` is registered
integer-domain, and SAT when `x` is registered real-domain via an explicit
caller-supplied `VarInfo`. -/
theorem integer_tightening_scenario :
    fm_is_unsat
      ((InequalitySystem.add
        (InequalitySystem.add ⟨[], ((⟨[]⟩ : VarInfo).find_or_add "x" true).2⟩
          ⟨[⟨0, 1⟩], -2, true⟩)
        ⟨[⟨0, -1⟩], 3, true⟩)) = .ok true ∧
    fm_is_unsat
      ((InequalitySystem.add
        (InequalitySystem.add ⟨[], ((⟨[]⟩ : VarInfo).find_or_add "x" false).2⟩
          ⟨[⟨0, 1⟩], -2, true⟩)
        ⟨[⟨0, -1⟩], 3, true⟩)) = .ok false := by
  constructor <;> decide

/-! ## C4: multi-variable rounding soundness scenario -/

/-- C4: the conjunctive system `0.5·x + y − 0.3 ≥ 0 ∧ −0.5·x − y + 0.8 ≥ 0`
with both `x` and `y` registered integer-domain is reported SAT by
`fm_is_unsat` (the non-integer coefficients disable the multi-variable
rounding, so the system is not over-tightened). -/
theorem multi_variable_rounding_scenario :
    fm_is_unsat
      ((InequalitySystem.add
        (InequalitySystem.add
          ⟨[], ((((⟨[]⟩ : VarInfo).find_or_add "x" true).2).find_or_add "y" true).2⟩
          ⟨[⟨0, (1:ℚ)/2⟩, ⟨1, 1⟩], -(3/10), false⟩)
        ⟨[⟨0, -((1:ℚ)/2)⟩, ⟨1, -1⟩], 4/5, false⟩)) = .ok false := by
  decide

/-! ## C6: DNF-level UNSAT -/

theorem is_unsat_dnf_eq_ok_true {l : List InequalitySystem} :
    is_unsat_dnf l = .ok true ↔ ∀ c ∈ l, fm_is_unsat c = .ok true := by
  induction l with
  | nil => simp [is_unsat_dnf]
  | cons c rest ih =>
    rw [is_unsat_dnf]
    cases hc : fm_is_unsat c with
    | error e =>
      rw [ebind_error]
      constructor
      · intro h; simp at h
      · intro h
        have := h c (by simp)
        rw [hc] at this
        simp at this
    | ok u =>
      rw [ebind_ok]
      cases u with
      | false =>
        simp only [Bool.false_eq_true, if_false]
        constructor
        · intro h; simp at h
        · intro h
          have := h c (by simp)
          rw [hc] at this
          simp at this
      | true =>
        simp only [if_true]
        rw [ih]
        constructor
        · intro h d hd
          rcases List.mem_cons.mp hd with h1 | h2
          · rw [h1]; exact hc
          · exact h d h2
        · intro h d hd
          exact h d (List.mem_cons_of_mem _ hd)

/-- C6: a DNF is reported UNSAT by `is_unsat_dnf` iff `fm_is_unsat` reports
UNSAT on every one of its clauses; in particular, a DNF with an empty clause
list is reported UNSAT. -/
theorem is_unsat_dnf_iff_all_clauses (r : ParseResult) :
    (is_unsat_dnf r.clauses = .ok true ↔
      ∀ c ∈ r.clauses, fm_is_unsat c = .ok true) ∧
    is_unsat_dnf ([] : List InequalitySystem) = .ok true :=
  ⟨is_unsat_dnf_eq_ok_true, rfl⟩

/-! ## C8: the registry guard of `clause_implies` -/

/-- C8: `clause_implies` aborts with its registry-mismatch error exactly when
some entry of the smaller registry is absent from the larger registry or
found there at a different position; when every entry of the smaller
registry sits at the identical position in the larger one, this error is
never raised (the loop below the guard can only return a verdict or the
distinct `has_contradiction` precondition error). -/
theorem clause_implies_guard_error_iff (a b : InequalitySystem) :
    clause_implies a b = .error clauseImpliesGuardMsg ↔
      ∃ i e, (smallerVars a b).entries[i]? = some e ∧
        (largerVars a b).find e.1 ≠ some i := by
  rw [clause_implies]
  by_cases hc : varRegistryCompatible a b = true
  · rw [if_pos hc]
    constructor
    · intro h
      exact absurd h (clauseImpliesLoop_ne_guard a b.ineqs)
    · rintro ⟨i, e, hget, hfind⟩
      exfalso
      rw [varRegistryCompatible] at hc
      have hmem : (i, e) ∈ (smallerVars a b).entries.enum :=
        List.mem_enum_iff_getElem?.mpr hget
      have := List.all_eq_true.mp hc (i, e) hmem
      exact hfind (by simpa using this)
  · rw [if_neg hc]
    constructor
    · intro _
      have hfalse : varRegistryCompatible a b = false := by
        simpa using hc
      rw [varRegistryCompatible] at hfalse
      have : ¬∀ p ∈ (smallerVars a b).entries.enum,
          ((largerVars a b).find p.2.1 == some p.1) = true := by
        intro hall
        rw [List.all_eq_true.mpr hall] at hfalse
        exact absurd hfalse (by decide)
      push_neg at this
      obtain ⟨p, hp, hnp⟩ := this
      refine ⟨p.1, p.2, List.mem_enum_iff_getElem?.mp hp, ?_⟩
      intro heq
      exact hnp (by simpa using heq)
    · intro _
      rfl

/-! ## Registry lemmas -/

theorem VExt_refl (v : VarInfo) : VExt v v := ⟨[], (List.append_nil _).symm⟩

theorem VExt_trans {u v w : VarInfo} (h1 : VExt u v) (h2 : VExt v w) :
    VExt u w := by
  obtain ⟨t1, ht1⟩ := h1
  obtain ⟨t2, ht2⟩ := h2
  exact ⟨t1 ++ t2, by rw [ht2, ht1, List.append_assoc]⟩

theorem VExt_count {v w : VarInfo} (h : VExt v w) : v.count ≤ w.count := by
  obtain ⟨t, ht⟩ := h
  simp [VarInfo.count, ht]

theorem find_lt_count {v : VarInfo} {n : String} {i : Nat}
    (h : v.find n = some i) : i < v.count := by
  rw [VarInfo.find] at h
  exact (List.findIdx?_eq_some_iff_findIdx_eq.mp h).1

theorem find_mono {v w : VarInfo} {n : String} {i : Nat} (h : VExt v w)
    (hf : v.find n = some i) : w.find n = some i := by
  obtain ⟨t, ht⟩ := h
  rw [VarInfo.find] at hf ⊢
  rw [ht, List.findIdx?_append, hf]
  rfl

theorem find_or_add_ext (v : VarInfo) (n : String) (b : Bool) :
    VExt v (v.find_or_add n b).2 := by
  rw [VarInfo.find_or_add]
  cases hf : v.find n with
  | none => exact ⟨[(n, b)], rfl⟩
  | some i => exact VExt_refl v

theorem find_or_add_find (v : VarInfo) (n : String) (b : Bool) :
    (v.find_or_add n b).2.find n = some (v.find_or_add n b).1 := by
  rw [VarInfo.find_or_add]
  cases hf : v.find n with
  | some i => simpa using hf
  | none =>
    show VarInfo.find ⟨v.entries ++ [(n, b)]⟩ n = some v.entries.length
    rw [VarInfo.find] at hf ⊢
    simp [List.findIdx?_append, hf, List.findIdx?_cons]

theorem find_or_add_lt (v : VarInfo) (n : String) (b : Bool) :
    (v.find_or_add n b).1 < (v.find_or_add n b).2.count :=
  find_lt_count (find_or_add_find v n b)

theorem find_or_add_nodup {v : VarInfo} (n : String) (b : Bool)
    (h : nodupNames v) : nodupNames (v.find_or_add n b).2 := by
  rw [VarInfo.find_or_add]
  cases hf : v.find n with
  | some i => exact h
  | none =>
    rw [nodupNames] at h ⊢
    rw [VarInfo.find, List.findIdx?_eq_none_iff] at hf
    simp only [List.map_append, List.map_cons, List.map_nil]
    refine List.Nodup.append h (List.nodup_singleton n) ?_
    intro m hm hm'
    simp only [List.mem_singleton] at hm'
    obtain ⟨e, he, hme⟩ := List.mem_map.mp hm
    have := hf e he
    rw [hm', ← hme] at *
    simp_all

theorem findIdx_names_self {l : List (String × Bool)}
    (h : (l.map Prod.fst).Nodup) {i : Nat} {e : String × Bool}
    (hget : l[i]? = some e) :
    l.findIdx (fun x => x.1 = e.1) = i := by
  induction l generalizing i with
  | nil => simp at hget
  | cons x rest ih =>
    cases i with
    | zero =>
      simp only [List.getElem?_cons_zero, Option.some.injEq] at hget
      subst hget
      simp [List.findIdx_cons]
    | succ j =>
      simp only [List.getElem?_cons_succ] at hget
      simp only [List.map_cons, List.nodup_cons] at h
      have hmem : e.1 ∈ rest.map Prod.fst :=
        List.mem_map.mpr ⟨e, List.getElem?_mem hget, rfl⟩
      have hxe : x.1 ≠ e.1 := fun hx => h.1 (hx ▸ hmem)
      rw [List.findIdx_cons]
      simp [hxe, ih h.2 hget]

theorem find_names_self {v : VarInfo} (h : nodupNames v) {i : Nat}
    {e : String × Bool} (hget : v.entries[i]? = some e) :
    v.find e.1 = some i := by
  rw [VarInfo.find]
  rw [List.findIdx?_eq_some_iff_findIdx_eq]
  exact ⟨(List.getElem?_eq_some.mp hget).1, findIdx_names_self h hget⟩

/-! ## Parser state lemmas -/

theorem addCoeffs_length (xs ys : List ℚ) :
    (addCoeffs xs ys).length = max xs.length ys.length := by
  induction xs generalizing ys with
  | nil => cases ys <;> simp [addCoeffs]
  | cons x xs ih =>
    cases ys with
    | nil => simp [addCoeffs]
    | cons y ys => simp [addCoeffs, ih, Nat.succ_max_succ]

theorem parse_arith_inv {e : Expr} {v : VarInfo} {le : LinearExpr}
    {v' : VarInfo} (h : parse_arith e v = .ok (le, v')) :
    VExt v v' ∧
    (nodupNames v → nodupNames v') ∧
    (∀ n ∈ exprVars e, ∃ i, v'.find n = some i) ∧
    le.coeffs.length ≤ v'.count ∧
    (∀ w, VExt v' w → parse_arith e w = .ok (le, w)) := by
  induction e generalizing v le v' with
  | lit c =>
    simp only [parse_arith, Except.ok.injEq, Prod.mk.injEq] at h
    obtain ⟨hle, hv⟩ := h
    subst hle hv
    refine ⟨VExt_refl v, fun hn => hn, by simp [exprVars], by simp, ?_⟩
    intro w _
    simp [parse_arith]
  | var n =>
    simp only [parse_arith, Except.ok.injEq, Prod.mk.injEq] at h
    obtain ⟨hle, hv⟩ := h
    subst hle hv
    refine ⟨find_or_add_ext v n true, find_or_add_nodup n true, ?_, ?_, ?_⟩
    · intro m hm
      simp only [exprVars, List.mem_singleton] at hm
      subst hm
      exact ⟨(v.find_or_add m true).1, find_or_add_find v m true⟩
    · simp only [List.length_append, List.length_replicate, List.length_cons,
        List.length_nil]
      have := find_or_add_lt v n true
      omega
    · intro w hw
      have hf : w.find n = some (v.find_or_add n true).1 :=
        find_mono hw (find_or_add_find v n true)
      simp only [parse_arith, VarInfo.find_or_add, hf]
  | add a b iha ihb =>
    simp only [parse_arith] at h
    cases ha : parse_arith a v with
    | error e0 => rw [ha, ebind_error] at h; exact absurd h (by simp)
    | ok p =>
      obtain ⟨la, v1⟩ := p
      rw [ha, ebind_ok] at h
      cases hb : parse_arith b v1 with
      | error e0 => rw [hb, ebind_error] at h; exact absurd h (by simp)
      | ok q =>
        obtain ⟨lb, v2⟩ := q
        rw [hb, ebind_ok] at h
        simp only [Except.ok.injEq, Prod.mk.injEq] at h
        obtain ⟨hle, hv⟩ := h
        subst hle hv
        obtain ⟨ext1, nd1, reg1, len1, st1⟩ := iha ha
        obtain ⟨ext2, nd2, reg2, len2, st2⟩ := ihb hb
        refine ⟨VExt_trans ext1 ext2, fun hn => nd2 (nd1 hn), ?_, ?_, ?_⟩
        · intro m hm
          rw [exprVars, List.mem_append] at hm
          rcases hm with hm | hm
          · obtain ⟨i, hi⟩ := reg1 m hm
            exact ⟨i, find_mono ext2 hi⟩
          · exact reg2 m hm
        · simp only [add_expr, addCoeffs_length]
          exact max_le (le_trans len1 (VExt_count ext2)) len2
        · intro w hw
          simp only [parse_arith]
          rw [st1 w (VExt_trans ext2 hw), ebind_ok, st2 w hw, ebind_ok]
  | sub a b iha ihb =>
    simp only [parse_arith] at h
    cases ha : parse_arith a v with
    | error e0 => rw [ha, ebind_error] at h; exact absurd h (by simp)
    | ok p =>
      obtain ⟨la, v1⟩ := p
      rw [ha, ebind_ok] at h
      cases hb : parse_arith b v1 with
      | error e0 => rw [hb, ebind_error] at h; exact absurd h (by simp)
      | ok q =>
        obtain ⟨lb, v2⟩ := q
        rw [hb, ebind_ok] at h
        simp only [Except.ok.injEq, Prod.mk.injEq] at h
        obtain ⟨hle, hv⟩ := h
        subst hle hv
        obtain ⟨ext1, nd1, reg1, len1, st1⟩ := iha ha
        obtain ⟨ext2, nd2, reg2, len2, st2⟩ := ihb hb
        refine ⟨VExt_trans ext1 ext2, fun hn => nd2 (nd1 hn), ?_, ?_, ?_⟩
        · intro m hm
          rw [exprVars, List.mem_append] at hm
          rcases hm with hm | hm
          · obtain ⟨i, hi⟩ := reg1 m hm
            exact ⟨i, find_mono ext2 hi⟩
          · exact reg2 m hm
        · simp only [sub_expr, add_expr, negate_expr, addCoeffs_length,
            List.length_map]
          exact max_le (le_trans len1 (VExt_count ext2)) len2
        · intro w hw
          simp only [parse_arith]
          rw [st1 w (VExt_trans ext2 hw), ebind_ok, st2 w hw, ebind_ok]
  | neg a iha =>
    simp only [parse_arith] at h
    cases ha : parse_arith a v with
    | error e0 => rw [ha, ebind_error] at h; exact absurd h (by simp)
    | ok p =>
      obtain ⟨la, v1⟩ := p
      rw [ha, ebind_ok] at h
      simp only [Except.ok.injEq, Prod.mk.injEq] at h
      obtain ⟨hle, hv⟩ := h
      subst hle hv
      obtain ⟨ext1, nd1, reg1, len1, st1⟩ := iha ha
      refine ⟨ext1, nd1, reg1, ?_, ?_⟩
      · simpa [negate_expr] using len1
      · intro w hw
        simp only [parse_arith]
        rw [st1 w hw, ebind_ok]
  | mul a b iha ihb =>
    simp only [parse_arith] at h
    cases ha : parse_arith a v with
    | error e0 => rw [ha, ebind_error] at h; exact absurd h (by simp)
    | ok p =>
      obtain ⟨la, v1⟩ := p
      rw [ha, ebind_ok] at h
      cases hb : parse_arith b v1 with
      | error e0 => rw [hb, ebind_error] at h; exact absurd h (by simp)
      | ok q =>
        obtain ⟨lb, v2⟩ := q
        rw [hb, ebind_ok] at h
        obtain ⟨ext1, nd1, reg1, len1, st1⟩ := iha ha
        obtain ⟨ext2, nd2, reg2, len2, st2⟩ := ihb hb
        have regs : ∀ n ∈ exprVars (Expr.mul a b), ∃ i, v2.find n = some i := by
          intro m hm
          rw [exprVars, List.mem_append] at hm
          rcases hm with hm | hm
          · obtain ⟨i, hi⟩ := reg1 m hm
            exact ⟨i, find_mono ext2 hi⟩
          · exact reg2 m hm
        by_cases hca : is_constant_expr la = true
        · rw [if_pos hca] at h
          simp only [Except.ok.injEq, Prod.mk.injEq] at h
          obtain ⟨hle, hv⟩ := h
          subst hle hv
          refine ⟨VExt_trans ext1 ext2, fun hn => nd2 (nd1 hn), regs, ?_, ?_⟩
          · simpa [scale_expr] using len2
          · intro w hw
            simp only [parse_arith]
            rw [st1 w (VExt_trans ext2 hw), ebind_ok, st2 w hw, ebind_ok,
              if_pos hca]
        · rw [if_neg hca] at h
          by_cases hcb : is_constant_expr lb = true
          · rw [if_pos hcb] at h
            simp only [Except.ok.injEq, Prod.mk.injEq] at h
            obtain ⟨hle, hv⟩ := h
            subst hle hv
            refine ⟨VExt_trans ext1 ext2, fun hn => nd2 (nd1 hn), regs, ?_, ?_⟩
            · simpa [scale_expr] using le_trans len1 (VExt_count ext2)
            · intro w hw
              simp only [parse_arith]
              rw [st1 w (VExt_trans ext2 hw), ebind_ok, st2 w hw, ebind_ok,
                if_neg hca, if_pos hcb]
          · rw [if_neg hcb] at h
            exact absurd h (by simp)
  | div a b iha ihb =>
    simp only [parse_arith] at h
    cases ha : parse_arith a v with
    | error e0 => rw [ha, ebind_error] at h; exact absurd h (by simp)
    | ok p =>
      obtain ⟨la, v1⟩ := p
      rw [ha, ebind_ok] at h
      cases hb : parse_arith b v1 with
      | error e0 => rw [hb, ebind_error] at h; exact absurd h (by simp)
      | ok q =>
        obtain ⟨lb, v2⟩ := q
        rw [hb, ebind_ok] at h
        obtain ⟨ext1, nd1, reg1, len1, st1⟩ := iha ha
        obtain ⟨ext2, nd2, reg2, len2, st2⟩ := ihb hb
        have regs : ∀ n ∈ exprVars (Expr.div a b), ∃ i, v2.find n = some i := by
          intro m hm
          rw [exprVars, List.mem_append] at hm
          rcases hm with hm | hm
          · obtain ⟨i, hi⟩ := reg1 m hm
            exact ⟨i, find_mono ext2 hi⟩
          · exact reg2 m hm
        by_cases hcb : is_constant_expr lb = true
        · rw [if_neg (by simp [hcb])] at h
          by_cases hz : lb.constant = 0
          · rw [if_pos hz] at h
            exact absurd h (by simp)
          · rw [if_neg hz] at h
            simp only [Except.ok.injEq, Prod.mk.injEq] at h
            obtain ⟨hle, hv⟩ := h
            subst hle hv
            refine ⟨VExt_trans ext1 ext2, fun hn => nd2 (nd1 hn), regs, ?_, ?_⟩
            · simpa [scale_expr] using le_trans len1 (VExt_count ext2)
            · intro w hw
              simp only [parse_arith]
              rw [st1 w (VExt_trans ext2 hw), ebind_ok, st2 w hw, ebind_ok,
                if_neg (by simp [hcb]), if_neg hz]
        · rw [if_pos (by simp [hcb])] at h
          exact absurd h (by simp)
  | eq a b _ _ => simp [parse_arith] at h
  | lt a b _ _ => simp [parse_arith] at h
  | gt a b _ _ => simp [parse_arith] at h
  | le a b _ _ => simp [parse_arith] at h
  | ge a b _ _ => simp [parse_arith] at h
  | land a b _ _ => simp [parse_arith] at h
  | lor a b _ _ => simp [parse_arith] at h
  | lnot a _ => simp [parse_arith] at h

theorem wfIneq_mono {n m : Nat} {i : LinearInequality} (h : wfIneq n i)
    (hnm : n ≤ m) : wfIneq m i := by
  obtain ⟨hnd, hb⟩ := h
  exact ⟨hnd, fun t ht => ⟨lt_of_lt_of_le (hb t ht).1 hnm, (hb t ht).2⟩⟩

theorem coeffsToTerms_bounds (xs : List ℚ) (k : Nat) :
    ∀ t ∈ coeffsToTerms xs k,
      k ≤ t.var_id ∧ t.var_id < k + xs.length ∧ t.coeff ≠ 0 := by
  induction xs generalizing k with
  | nil => simp [coeffsToTerms]
  | cons c rest ih =>
    intro t ht
    rw [coeffsToTerms] at ht
    by_cases hc : c ≠ 0
    · rw [if_pos hc] at ht
      rcases List.mem_cons.mp ht with h1 | h2
      · subst h1
        simp only [List.length_cons]
        exact ⟨le_refl k, by omega, hc⟩
      · have := ih (k + 1) t h2
        simp only [List.length_cons]
        exact ⟨by omega, by omega, this.2.2⟩
    · rw [if_neg hc] at ht
      have := ih (k + 1) t ht
      simp only [List.length_cons]
      exact ⟨by omega, by omega, this.2.2⟩

theorem coeffsToTerms_nodup (xs : List ℚ) (k : Nat) :
    ((coeffsToTerms xs k).map (fun t => t.var_id)).Nodup := by
  induction xs generalizing k with
  | nil => simp [coeffsToTerms]
  | cons c rest ih =>
    rw [coeffsToTerms]
    by_cases hc : c ≠ 0
    · rw [if_pos hc]
      simp only [List.map_cons, List.nodup_cons]
      refine ⟨?_, ih (k + 1)⟩
      intro hmem
      obtain ⟨t, ht, hid⟩ := List.mem_map.mp hmem
      have := (coeffsToTerms_bounds rest (k + 1) t ht).1
      omega
    · rw [if_neg hc]
      exact ih (k + 1)

theorem to_inequality_wf {lhs rhs : LinearExpr} {s : Bool} {n : Nat}
    (hl : lhs.coeffs.length ≤ n) (hr : rhs.coeffs.length ≤ n) :
    wfIneq n (to_inequality lhs rhs s) := by
  constructor
  · exact coeffsToTerms_nodup _ 0
  · intro t ht
    have hb := coeffsToTerms_bounds _ 0 t ht
    have hlen : (sub_expr lhs rhs).coeffs.length ≤ n := by
      simp only [sub_expr, add_expr, negate_expr, addCoeffs_length,
        List.length_map]
      exact max_le hl hr
    exact ⟨by omega, hb.2.2⟩

theorem clauseShapes_conjoin (x y : ParseResult) :
    clauseShapes (conjoin x y) =
      (clauseShapes x).flatMap (fun u => (clauseShapes y).map (fun z => u ++ z)) := by
  simp [clauseShapes, conjoin, merge_systems, List.map_flatMap,
    List.flatMap_map, List.map_map]
  rfl

theorem clauseShapes_disjoin (x y : ParseResult) :
    clauseShapes (disjoin x y) = clauseShapes x ++ clauseShapes y := by
  simp [clauseShapes, disjoin]

theorem mem_conjoin {C : InequalitySystem} {x y : ParseResult} :
    C ∈ (conjoin x y).clauses ↔
      ∃ a ∈ x.clauses, ∃ b ∈ y.clauses, C = merge_systems a b := by
  simp only [conjoin, List.mem_flatMap, List.mem_map]
  constructor
  · rintro ⟨a, ha, b, hb, rfl⟩
    exact ⟨a, ha, b, hb, rfl⟩
  · rintro ⟨a, ha, b, hb, rfl⟩
    exact ⟨a, ha, b, hb, rfl⟩

theorem conjoin_ne_nil {x y : ParseResult} (hx : x.clauses ≠ [])
    (hy : y.clauses ≠ []) : (conjoin x y).clauses ≠ [] := by
  obtain ⟨a, ha⟩ := List.exists_mem_of_ne_nil _ hx
  obtain ⟨b, hb⟩ := List.exists_mem_of_ne_nil _ hy
  intro hnil
  have : merge_systems a b ∈ (conjoin x y).clauses :=
    mem_conjoin.mpr ⟨a, ha, b, hb, rfl⟩
  rw [hnil] at this
  exact absurd this (List.not_mem_nil _)

theorem disjoin_ne_nil {x y : ParseResult} (hx : x.clauses ≠ []) :
    (disjoin x y).clauses ≠ [] := by
  simp only [disjoin]
  intro hnil
  exact hx (List.append_eq_nil.mp hnil).1

theorem parse_comparison_inv {t : CmpKind} {l r : Expr} {v : VarInfo}
    {neg : Bool} {res : ParseResult} {v' : VarInfo}
    (h : parse_comparison t l r v neg = .ok (res, v')) :
    VExt v v' ∧
    (nodupNames v → nodupNames v') ∧
    (∀ n ∈ exprVars l ++ exprVars r, ∃ i, v'.find n = some i) ∧
    (∀ C ∈ res.clauses, ∀ iq ∈ C.ineqs, wfIneq v'.count iq) ∧
    res.clauses ≠ [] ∧
    (∀ w, VExt v' w → ∃ res2, parse_comparison t l r w neg = .ok (res2, w) ∧
      clauseShapes res2 = clauseShapes res) := by
  simp only [parse_comparison] at h
  cases ha : parse_arith l v with
  | error e0 => rw [ha, ebind_error] at h; exact absurd h (by simp)
  | ok p =>
    obtain ⟨lhs, v1⟩ := p
    rw [ha, ebind_ok] at h
    cases hb : parse_arith r v1 with
    | error e0 => rw [hb, ebind_error] at h; exact absurd h (by simp)
    | ok q =>
      obtain ⟨rhs, v2⟩ := q
      rw [hb, ebind_ok] at h
      obtain ⟨ext1, nd1, reg1, len1, st1⟩ := parse_arith_inv ha
      obtain ⟨ext2, nd2, reg2, len2, st2⟩ := parse_arith_inv hb
      have hext := VExt_trans ext1 ext2
      have hnd : nodupNames v → nodupNames v2 := fun hn => nd2 (nd1 hn)
      have hreg : ∀ n ∈ exprVars l ++ exprVars r, ∃ i, v2.find n = some i := by
        intro m hm
        rcases List.mem_append.mp hm with hm | hm
        · obtain ⟨i, hi⟩ := reg1 m hm
          exact ⟨i, find_mono ext2 hi⟩
        · exact reg2 m hm
      have hlen1 : lhs.coeffs.length ≤ v2.count :=
        le_trans len1 (VExt_count ext2)
      split at h
      · simp only [Except.ok.injEq, Prod.mk.injEq] at h
        obtain ⟨hres, hv⟩ := h
        subst hres hv
        refine ⟨hext, hnd, hreg, ?_, by simp [single_clause], ?_⟩
        · intro C hC iq hiq
          simp only [single_clause, List.mem_singleton] at hC
          subst hC
          simp only [List.mem_cons, List.mem_singleton, List.not_mem_nil] at hiq
          rcases hiq with h1 | h1 | h1
          · subst h1; exact to_inequality_wf hlen1 len2
          · subst h1; exact to_inequality_wf len2 hlen1
          · exact absurd h1 (by simp)
        · intro w hw
          have hcomp : parse_comparison t l r w neg =
              .ok (single_clause ⟨[to_inequality lhs rhs false,
                to_inequality rhs lhs false], w⟩, w) := by
            simp only [parse_comparison]
            rw [st1 w (VExt_trans ext2 hw), ebind_ok, st2 w hw, ebind_ok]
            rw [if_pos (by assumption)]
          exact ⟨_, hcomp, rfl⟩
      · split at h
        · simp only [Except.ok.injEq, Prod.mk.injEq] at h
          obtain ⟨hres, hv⟩ := h
          subst hres hv
          refine ⟨hext, hnd, hreg, ?_, by simp, ?_⟩
          · intro C hC iq hiq
            simp only [List.mem_cons, List.mem_singleton, List.not_mem_nil] at hC
            rcases hC with h1 | h1 | h1
            · subst h1
              simp only [List.mem_singleton] at hiq
              subst hiq
              exact to_inequality_wf len2 hlen1
            · subst h1
              simp only [List.mem_singleton] at hiq
              subst hiq
              exact to_inequality_wf hlen1 len2
            · exact absurd h1 (by simp)
          · intro w hw
            have hcomp : parse_comparison t l r w neg =
                .ok (⟨[⟨[to_inequality rhs lhs true], w⟩,
                  ⟨[to_inequality lhs rhs true], w⟩]⟩, w) := by
              simp only [parse_comparison]
              rw [st1 w (VExt_trans ext2 hw), ebind_ok, st2 w hw, ebind_ok]
              rw [if_neg (by assumption), if_pos (by assumption)]
            exact ⟨_, hcomp, rfl⟩
        · simp only [Except.ok.injEq, Prod.mk.injEq] at h
          obtain ⟨hres, hv⟩ := h
          subst hres hv
          refine ⟨hext, hnd, hreg, ?_, by simp [single_clause], ?_⟩
          · intro C hC iq hiq
            simp only [single_clause, List.mem_singleton] at hC
            subst hC
            simp only [List.mem_singleton] at hiq
            subst hiq
            split
            · exact to_inequality_wf hlen1 len2
            · split
              · exact to_inequality_wf hlen1 len2
              · split
                · exact to_inequality_wf len2 hlen1
                · exact to_inequality_wf len2 hlen1
          · intro w hw
            have hcomp : parse_comparison t l r w neg =
                .ok (single_clause ⟨[
                  if (t = CmpKind.cgt ∧ (!neg) = true) ∨
                      (t = CmpKind.cle ∧ neg = true) then
                    to_inequality lhs rhs true
                  else if (t = CmpKind.cge ∧ (!neg) = true) ∨
                      (t = CmpKind.clt ∧ neg = true) then
                    to_inequality lhs rhs false
                  else if (t = CmpKind.clt ∧ (!neg) = true) ∨
                      (t = CmpKind.cge ∧ neg = true) then
                    to_inequality rhs lhs true
                  else to_inequality rhs lhs false], w⟩, w) := by
              simp only [parse_comparison]
              rw [st1 w (VExt_trans ext2 hw), ebind_ok, st2 w hw, ebind_ok]
              rw [if_neg (by assumption), if_neg (by assumption)]
            exact ⟨_, hcomp, rfl⟩

theorem ParseInv_congr {f g : VarInfo → Except String (ParseResult × VarInfo)}
    (hfg : ∀ v, f v = g v) {names : List String} (h : ParseInv f names) :
    ParseInv g names := by
  intro v r v' hg
  have hf : f v = Except.ok (r, v') := by rw [hfg v]; exact hg
  obtain ⟨ext, nd, reg, wf, ne, st⟩ := h v r v' hf
  refine ⟨ext, nd, reg, wf, ne, ?_⟩
  intro w hw
  obtain ⟨r2, hr2, hsh⟩ := st w hw
  refine ⟨r2, ?_, hsh⟩
  rw [← hfg w]
  exact hr2

theorem parse_comparison_ParseInv (t : CmpKind) (l r : Expr) (neg : Bool) :
    ParseInv (fun v => parse_comparison t l r v neg)
      (exprVars l ++ exprVars r) := by
  intro v res v' h
  exact parse_comparison_inv h

theorem ParseInv_names_sub {f : VarInfo → Except String (ParseResult × VarInfo)}
    {n1 n2 : List String} (hsub : ∀ n ∈ n2, n ∈ n1) (h : ParseInv f n1) :
    ParseInv f n2 := by
  intro v r v' hf
  obtain ⟨ext, nd, reg, wf, ne, st⟩ := h v r v' hf
  exact ⟨ext, nd, fun n hn => reg n (hsub n hn), wf, ne, st⟩

theorem ParseInv_conjoin
    {fa fb : VarInfo → Except String (ParseResult × VarInfo)}
    {na nb : List String} (ha : ParseInv fa na) (hb : ParseInv fb nb) :
    ParseInv
      (fun v => do
        let (l, v1) ← fa v
        let (r, v2) ← fb v1
        Except.ok (conjoin l r, v2))
      (na ++ nb) := by
  intro v res v' h
  simp only at h
  cases hfa : fa v with
  | error e0 => rw [hfa, ebind_error] at h; exact absurd h (by simp)
  | ok p =>
    obtain ⟨l, v1⟩ := p
    rw [hfa, ebind_ok] at h
    cases hfb : fb v1 with
    | error e0 => rw [hfb, ebind_error] at h; exact absurd h (by simp)
    | ok q =>
      obtain ⟨rr, v2⟩ := q
      rw [hfb, ebind_ok] at h
      simp only [Except.ok.injEq, Prod.mk.injEq] at h
      obtain ⟨hres, hv⟩ := h
      subst hres hv
      obtain ⟨ext1, nd1, reg1, wf1, ne1, st1⟩ := ha v l v1 hfa
      obtain ⟨ext2, nd2, reg2, wf2, ne2, st2⟩ := hb v1 rr v2 hfb
      refine ⟨VExt_trans ext1 ext2, fun hn => nd2 (nd1 hn), ?_, ?_,
        conjoin_ne_nil ne1 ne2, ?_⟩
      · intro n hn
        rcases List.mem_append.mp hn with hn | hn
        · obtain ⟨i, hi⟩ := reg1 n hn
          exact ⟨i, find_mono ext2 hi⟩
        · exact reg2 n hn
      · intro C hC iq hiq
        obtain ⟨a, haa, b, hbb, rfl⟩ := mem_conjoin.mp hC
        simp only [merge_systems, List.mem_append] at hiq
        rcases hiq with hiq | hiq
        · exact wfIneq_mono (wf1 a haa iq hiq) (VExt_count ext2)
        · exact wf2 b hbb iq hiq
      · intro w hw
        obtain ⟨l2, hl2, hshl⟩ := st1 w (VExt_trans ext2 hw)
        obtain ⟨r2, hr2, hshr⟩ := st2 w hw
        refine ⟨conjoin l2 r2, ?_, ?_⟩
        · simp only
          rw [hl2, ebind_ok, hr2, ebind_ok]
        · rw [clauseShapes_conjoin, clauseShapes_conjoin, hshl, hshr]

theorem ParseInv_disjoin
    {fa fb : VarInfo → Except String (ParseResult × VarInfo)}
    {na nb : List String} (ha : ParseInv fa na) (hb : ParseInv fb nb) :
    ParseInv
      (fun v => do
        let (l, v1) ← fa v
        let (r, v2) ← fb v1
        Except.ok (disjoin l r, v2))
      (na ++ nb) := by
  intro v res v' h
  simp only at h
  cases hfa : fa v with
  | error e0 => rw [hfa, ebind_error] at h; exact absurd h (by simp)
  | ok p =>
    obtain ⟨l, v1⟩ := p
    rw [hfa, ebind_ok] at h
    cases hfb : fb v1 with
    | error e0 => rw [hfb, ebind_error] at h; exact absurd h (by simp)
    | ok q =>
      obtain ⟨rr, v2⟩ := q
      rw [hfb, ebind_ok] at h
      simp only [Except.ok.injEq, Prod.mk.injEq] at h
      obtain ⟨hres, hv⟩ := h
      subst hres hv
      obtain ⟨ext1, nd1, reg1, wf1, ne1, st1⟩ := ha v l v1 hfa
      obtain ⟨ext2, nd2, reg2, wf2, ne2, st2⟩ := hb v1 rr v2 hfb
      refine ⟨VExt_trans ext1 ext2, fun hn => nd2 (nd1 hn), ?_, ?_,
        disjoin_ne_nil ne1, ?_⟩
      · intro n hn
        rcases List.mem_append.mp hn with hn | hn
        · obtain ⟨i, hi⟩ := reg1 n hn
          exact ⟨i, find_mono ext2 hi⟩
        · exact reg2 n hn
      · intro C hC iq hiq
        simp only [disjoin, List.mem_append] at hC
        rcases hC with hC | hC
        · exact wfIneq_mono (wf1 C hC iq hiq) (VExt_count ext2)
        · exact wf2 C hC iq hiq
      · intro w hw
        obtain ⟨l2, hl2, hshl⟩ := st1 w (VExt_trans ext2 hw)
        obtain ⟨r2, hr2, hshr⟩ := st2 w hw
        refine ⟨disjoin l2 r2, ?_, ?_⟩
        · simp only
          rw [hl2, ebind_ok, hr2, ebind_ok]
        · rw [clauseShapes_disjoin, clauseShapes_disjoin, hshl, hshr]

theorem parse_inv (e : Expr) :
    ParseInv (parse_formula e) (exprVars e) ∧
    ParseInv (parse_negated e) (exprVars e) := by
  induction e with
  | lit c =>
    constructor
    · intro v r v' h; simp [parse_formula] at h
    · intro v r v' h; simp [parse_negated] at h
  | var n =>
    constructor
    · intro v r v' h; simp [parse_formula] at h
    · intro v r v' h; simp [parse_negated] at h
  | add a b _ _ =>
    constructor
    · intro v r v' h; simp [parse_formula] at h
    · intro v r v' h; simp [parse_negated] at h
  | sub a b _ _ =>
    constructor
    · intro v r v' h; simp [parse_formula] at h
    · intro v r v' h; simp [parse_negated] at h
  | neg a _ =>
    constructor
    · intro v r v' h; simp [parse_formula] at h
    · intro v r v' h; simp [parse_negated] at h
  | mul a b _ _ =>
    constructor
    · intro v r v' h; simp [parse_formula] at h
    · intro v r v' h; simp [parse_negated] at h
  | div a b _ _ =>
    constructor
    · intro v r v' h; simp [parse_formula] at h
    · intro v r v' h; simp [parse_negated] at h
  | eq a b _ _ =>
    constructor
    · exact ParseInv_congr (fun v => by simp only [parse_formula])
        (parse_comparison_ParseInv .ceq a b false)
    · exact ParseInv_congr (fun v => by simp only [parse_negated])
        (parse_comparison_ParseInv .ceq a b true)
  | lt a b _ _ =>
    constructor
    · exact ParseInv_congr (fun v => by simp only [parse_formula])
        (parse_comparison_ParseInv .clt a b false)
    · exact ParseInv_congr (fun v => by simp only [parse_negated])
        (parse_comparison_ParseInv .clt a b true)
  | gt a b _ _ =>
    constructor
    · exact ParseInv_congr (fun v => by simp only [parse_formula])
        (parse_comparison_ParseInv .cgt a b false)
    · exact ParseInv_congr (fun v => by simp only [parse_negated])
        (parse_comparison_ParseInv .cgt a b true)
  | le a b _ _ =>
    constructor
    · exact ParseInv_congr (fun v => by simp only [parse_formula])
        (parse_comparison_ParseInv .cle a b false)
    · exact ParseInv_congr (fun v => by simp only [parse_negated])
        (parse_comparison_ParseInv .cle a b true)
  | ge a b _ _ =>
    constructor
    · exact ParseInv_congr (fun v => by simp only [parse_formula])
        (parse_comparison_ParseInv .cge a b false)
    · exact ParseInv_congr (fun v => by simp only [parse_negated])
        (parse_comparison_ParseInv .cge a b true)
  | land a b iha ihb =>
    constructor
    · exact ParseInv_congr (fun v => by simp only [parse_formula])
        (ParseInv_conjoin iha.1 ihb.1)
    · exact ParseInv_congr (fun v => by simp only [parse_negated])
        (ParseInv_disjoin iha.2 ihb.2)
  | lor a b iha ihb =>
    constructor
    · exact ParseInv_congr (fun v => by simp only [parse_formula])
        (ParseInv_disjoin iha.1 ihb.1)
    · exact ParseInv_congr (fun v => by simp only [parse_negated])
        (ParseInv_conjoin iha.2 ihb.2)
  | lnot a iha =>
    constructor
    · exact ParseInv_congr (fun v => by simp only [parse_formula]) iha.2
    · exact ParseInv_congr (fun v => by simp only [parse_negated]) iha.1

/-! ## C7: final registry back-propagation in `parse_to_system` -/

/-- C7: whenever `parse_to_system` succeeds, every clause of the returned DNF
carries one identical final `VarInfo` — even clauses that were built before a
later-discovered variable was registered — and that registry contains every
variable discovered anywhere in the formula. -/
theorem parse_to_system_final_vars (e : Expr) (r : ParseResult)
    (h : parse_to_system e = .ok r) :
    ∃ vfin, (∀ C ∈ r.clauses, C.vars = vfin) ∧
      (∀ n ∈ exprVars e, ∃ i, vfin.find n = some i) := by
  rw [parse_to_system] at h
  cases hp : parse_formula e ⟨[]⟩ with
  | error e0 => rw [hp, ebind_error] at h; exact absurd h (by simp)
  | ok p =>
    obtain ⟨r0, vfin⟩ := p
    rw [hp, ebind_ok] at h
    simp only [Except.ok.injEq] at h
    subst h
    obtain ⟨_, _, reg, _, _, _⟩ := (parse_inv e).1 ⟨[]⟩ r0 vfin hp
    refine ⟨vfin, ?_, reg⟩
    intro C hC
    obtain ⟨c0, _, rfl⟩ := List.mem_map.mp hC
    rfl

theorem parse_to_system_final_vars_witness :
    parse_to_system (.land (.ge (.var "x") (.lit 0)) (.ge (.var "y") (.lit 0)))
        = .ok ⟨[⟨[⟨[⟨0, 1⟩], 0, false⟩, ⟨[⟨1, 1⟩], 0, false⟩],
            ⟨[("x", true), ("y", true)]⟩⟩]⟩ ∧
      ∃ vfin,
        (∀ C ∈ (⟨[⟨[⟨[⟨0, 1⟩], 0, false⟩, ⟨[⟨1, 1⟩], 0, false⟩],
            ⟨[("x", true), ("y", true)]⟩⟩]⟩ : ParseResult).clauses,
          C.vars = vfin) ∧
        (∀ n ∈ exprVars
            (.land (.ge (.var "x") (.lit 0)) (.ge (.var "y") (.lit 0))),
          ∃ i, vfin.find n = some i) :=
  ⟨by decide,
    parse_to_system_final_vars
      (.land (.ge (.var "x") (.lit 0)) (.ge (.var "y") (.lit 0))) _
      (by decide)⟩

/-! ## Evaluation algebra for the FM core -/

theorem coeffOf_eq_coeffOfT (i : LinearInequality) (x : Nat) :
    coeffOf i x = coeffOfT i.terms x := rfl

theorem evalTerms_nil (ρ : Nat → ℚ) : evalTerms [] ρ = 0 := rfl

theorem evalTerms_cons (t : LinearTerm) (ts : List LinearTerm) (ρ : Nat → ℚ) :
    evalTerms (t :: ts) ρ = t.coeff * ρ t.var_id + evalTerms ts ρ := by
  simp [evalTerms]

theorem evalTerms_append (ts1 ts2 : List LinearTerm) (ρ : Nat → ℚ) :
    evalTerms (ts1 ++ ts2) ρ = evalTerms ts1 ρ + evalTerms ts2 ρ := by
  simp [evalTerms]

theorem evalTerms_addScaledTerm (ts : List LinearTerm) (v : Nat) (c : ℚ)
    (ρ : Nat → ℚ) :
    evalTerms (addScaledTerm ts v c) ρ = evalTerms ts ρ + c * ρ v := by
  induction ts with
  | nil => simp [addScaledTerm, evalTerms]
  | cons t rest ih =>
    rw [addScaledTerm]
    by_cases ht : t.var_id = v
    · rw [if_pos ht]
      rw [evalTerms_cons, evalTerms_cons]
      simp only [ht]
      ring
    · rw [if_neg ht]
      rw [evalTerms_cons, evalTerms_cons, ih]
      ring

theorem evalTerms_fold_scaled (ts : List LinearTerm) (k : ℚ)
    (init : List LinearTerm) (ρ : Nat → ℚ) :
    evalTerms
      (ts.foldl (fun acc t => addScaledTerm acc t.var_id (t.coeff * k)) init) ρ
      = evalTerms init ρ + k * evalTerms ts ρ := by
  induction ts generalizing init with
  | nil => simp [evalTerms]
  | cons t rest ih =>
    rw [List.foldl_cons, ih, evalTerms_addScaledTerm, evalTerms_cons]
    ring

theorem evalTerms_filter_nonzero (ts : List LinearTerm) (ρ : Nat → ℚ) :
    evalTerms (ts.filter (fun t => t.coeff ≠ 0)) ρ = evalTerms ts ρ := by
  induction ts with
  | nil => rfl
  | cons t rest ih =>
    rw [List.filter_cons]
    by_cases ht : t.coeff ≠ 0
    · rw [if_pos (by simpa using ht), evalTerms_cons, evalTerms_cons, ih]
    · rw [if_neg (by simpa using ht), evalTerms_cons, ih]
      push_neg at ht
      rw [ht]
      ring

theorem evalIneq_combine (l : LinearInequality) (a : ℚ)
    (u : LinearInequality) (b : ℚ) (x : Nat) (ρ : Nat → ℚ) :
    evalIneq ρ (combine_bounds l a u b x) =
      b * xfree l x ρ + a * xfree u x ρ := by
  rw [evalIneq, combine_bounds]
  simp only
  rw [evalTerms_filter_nonzero, evalTerms_fold_scaled, evalTerms_fold_scaled,
    evalTerms_nil, xfree, xfree]
  ring

theorem evalIneq_negate (i : LinearInequality) (ρ : Nat → ℚ) :
    evalIneq ρ (negate_inequality i) = -evalIneq ρ i := by
  rw [evalIneq, evalIneq, negate_inequality]
  simp only
  have : evalTerms (i.terms.map fun t => { t with coeff := -t.coeff }) ρ
      = -evalTerms i.terms ρ := by
    induction i.terms with
    | nil => simp [evalTerms]
    | cons t rest ih =>
      rw [List.map_cons, evalTerms_cons, evalTerms_cons, ih]
      simp only
      ring
  rw [this]
  ring

theorem holds_negate_contra {ρ : Nat → ℚ} {i : LinearInequality}
    (h1 : holds ρ i) (h2 : holds ρ (negate_inequality i)) : False := by
  rw [holds] at h1 h2
  rw [evalIneq_negate] at h2
  simp only [negate_inequality] at h2
  cases hs : i.strict with
  | true =>
    simp [hs] at h1 h2
    linarith
  | false =>
    simp [hs] at h1 h2
    linarith

theorem evalTerms_update_no_x {ts : List LinearTerm} {x : Nat}
    (h : ∀ t ∈ ts, t.var_id ≠ x) (ρ : Nat → ℚ) (c : ℚ) :
    evalTerms ts (Function.update ρ x c) = evalTerms ts ρ := by
  induction ts with
  | nil => rfl
  | cons t rest ih =>
    rw [evalTerms_cons, evalTerms_cons]
    rw [Function.update_noteq (h t (by simp)) c ρ]
    rw [ih (fun t' ht' => h t' (List.mem_cons_of_mem _ ht'))]

theorem coeffOfT_eq_zero_no_x {ts : List LinearTerm} {x : Nat}
    (hz : coeffOfT ts x = 0) (hnz : ∀ t ∈ ts, t.coeff ≠ 0) :
    ∀ t ∈ ts, t.var_id ≠ x := by
  intro t ht hx
  rw [coeffOfT] at hz
  cases hf : ts.find? (fun t => t.var_id = x) with
  | some t' =>
    rw [hf] at hz
    exact hnz t' (List.mem_of_find?_eq_some hf) hz
  | none =>
    have := List.find?_eq_none.mp hf t ht
    simp [hx] at this

theorem evalTerms_update_split {ts : List LinearTerm} {x : Nat}
    (hnd : (ts.map (fun t => t.var_id)).Nodup) (ρ : Nat → ℚ) (c : ℚ) :
    evalTerms ts (Function.update ρ x c) =
      coeffOfT ts x * c +
        evalTerms (ts.filter (fun t => t.var_id ≠ x)) ρ := by
  induction ts with
  | nil => simp [evalTerms, coeffOfT]
  | cons t rest ih =>
    simp only [List.map_cons, List.nodup_cons] at hnd
    rw [evalTerms_cons, List.filter_cons]
    by_cases ht : t.var_id = x
    · rw [coeffOfT]
      rw [List.find?_cons_of_pos _ (by simpa using ht)]
      rw [if_neg (by simpa using ht)]
      have hrest : ∀ t' ∈ rest, t'.var_id ≠ x := by
        intro t' ht' hx
        exact hnd.1 (by rw [← ht] at hx; exact hx ▸ List.mem_map.mpr ⟨t', ht', hx.symm ▸ rfl⟩)
      rw [evalTerms_update_no_x hrest]
      have hfilter : rest.filter (fun t' => t'.var_id ≠ x) = rest :=
        List.filter_eq_self.mpr (fun t' ht' => by simpa using hrest t' ht')
      rw [hfilter, ht, Function.update_same]
    · rw [coeffOfT]
      rw [List.find?_cons_of_neg _ (by simpa using ht)]
      rw [if_pos (by simpa using ht)]
      rw [evalTerms_cons]
      rw [Function.update_noteq ht c ρ]
      have := ih hnd.2
      rw [coeffOfT] at this
      rw [this]
      ring

/-! ## Pointwise soundness of integer rounding (over `ℚ`) -/

theorem round_integer_bound_terms (i : LinearInequality) (isl : Bool)
    (tc : ℚ) : (round_integer_bound i isl tc).terms = i.terms := by
  rw [round_integer_bound]
  split
  · rfl
  · split <;> split <;> (dsimp only; split <;> rfl)

theorem floor_lt_of_not_integer {q : ℚ} (h : ¬is_integer_val q = true) :
    (⌊q⌋ : ℚ) < q := by
  have hne : (⌊q⌋ : ℚ) ≠ q := by simpa [is_integer_val] using h
  exact lt_of_le_of_ne (Int.floor_le q) hne

theorem lt_ceil_of_not_integer {q : ℚ} (h : ¬is_integer_val q = true) :
    q < (⌈q⌉ : ℚ) := by
  have hne : (⌊q⌋ : ℚ) ≠ q := by simpa [is_integer_val] using h
  rcases lt_or_eq_of_le (Int.le_ceil q) with hlt | heq
  · exact hlt
  · exfalso
    apply hne
    rw [heq]
    rw [show ⌊(⌈q⌉ : ℚ)⌋ = ⌈q⌉ from Int.floor_intCast _]

theorem round_integer_bound_constant_le {i : LinearInequality} {isl : Bool}
    {tc : ℚ}
    (hguard : ¬(i.terms.length > 1 ∧
      (i.terms.any fun t => !is_integer_val t.coeff) = true))
    (hCpos : 0 < (if i.terms.length = 1 then tc else (1:ℚ))) :
    (round_integer_bound i isl tc).constant ≤ i.constant ∧
      (i.strict = true →
        (round_integer_bound i isl tc).constant < i.constant) := by
  rw [round_integer_bound, if_neg hguard]
  dsimp only
  set C : ℚ := if i.terms.length = 1 then tc else (1:ℚ) with hCdef
  have hCne : C ≠ 0 := ne_of_gt hCpos
  cases isl with
  | true =>
    rw [if_pos rfl]
    by_cases hsi : (i.strict = true ∧ is_integer_val (-i.constant / C) = true)
    · rw [if_pos hsi]
      have hval : -(-i.constant / C + 1) * C = i.constant - C :=
        calc -(-i.constant / C + 1) * C = (i.constant / C) * C - C := by ring
          _ = i.constant - C := by rw [div_mul_cancel₀ _ hCne]
      constructor
      · show -(-i.constant / C + 1) * C ≤ i.constant
        rw [hval]; linarith
      · intro _
        show -(-i.constant / C + 1) * C < i.constant
        rw [hval]; linarith
    · rw [if_neg hsi]
      have h1 : -i.constant / C ≤ ceil_val (-i.constant / C) := by
        rw [ceil_val]; exact Int.le_ceil _
      have hkey : -ceil_val (-i.constant / C) ≤ i.constant / C :=
        calc -ceil_val (-i.constant / C) ≤ -(-i.constant / C) := neg_le_neg h1
          _ = i.constant / C := by ring
      have hle : -ceil_val (-i.constant / C) * C ≤ i.constant :=
        calc -ceil_val (-i.constant / C) * C ≤ (i.constant / C) * C :=
              mul_le_mul_of_nonneg_right hkey (le_of_lt hCpos)
          _ = i.constant := div_mul_cancel₀ _ hCne
      refine ⟨hle, ?_⟩
      intro hstrict
      have hni : ¬is_integer_val (-i.constant / C) = true :=
        fun hint => hsi ⟨hstrict, hint⟩
      have h2 : -i.constant / C < ceil_val (-i.constant / C) := by
        rw [ceil_val]; exact lt_ceil_of_not_integer hni
      have h3 : -ceil_val (-i.constant / C) < i.constant / C :=
        calc -ceil_val (-i.constant / C) < -(-i.constant / C) := neg_lt_neg h2
          _ = i.constant / C := by ring
      show -ceil_val (-i.constant / C) * C < i.constant
      calc -ceil_val (-i.constant / C) * C < (i.constant / C) * C :=
            mul_lt_mul_of_pos_right h3 hCpos
        _ = i.constant := div_mul_cancel₀ _ hCne
  | false =>
    rw [if_neg (by simp : ¬(false = true))]
    by_cases hsi : (i.strict = true ∧ is_integer_val (i.constant / C) = true)
    · rw [if_pos hsi]
      have hval : (i.constant / C - 1) * C = i.constant - C :=
        calc (i.constant / C - 1) * C = (i.constant / C) * C - C := by ring
          _ = i.constant - C := by rw [div_mul_cancel₀ _ hCne]
      constructor
      · show (i.constant / C - 1) * C ≤ i.constant
        rw [hval]; linarith
      · intro _
        show (i.constant / C - 1) * C < i.constant
        rw [hval]; linarith
    · rw [if_neg hsi]
      have h1 : floor_val (i.constant / C) ≤ i.constant / C := by
        rw [floor_val]; exact Int.floor_le _
      have hle : floor_val (i.constant / C) * C ≤ i.constant :=
        calc floor_val (i.constant / C) * C ≤ (i.constant / C) * C :=
              mul_le_mul_of_nonneg_right h1 (le_of_lt hCpos)
          _ = i.constant := div_mul_cancel₀ _ hCne
      refine ⟨hle, ?_⟩
      intro hstrict
      have hni : ¬is_integer_val (i.constant / C) = true :=
        fun hint => hsi ⟨hstrict, hint⟩
      have h2 : floor_val (i.constant / C) < i.constant / C := by
        rw [floor_val]; exact floor_lt_of_not_integer hni
      show floor_val (i.constant / C) * C < i.constant
      calc floor_val (i.constant / C) * C < (i.constant / C) * C :=
            mul_lt_mul_of_pos_right h2 hCpos
        _ = i.constant := div_mul_cancel₀ _ hCne

theorem round_integer_bound_sound {i : LinearInequality} {isl : Bool}
    {tc : ℚ} (hc : i.terms.length = 1 → 0 < tc) (ρ : Nat → ℚ)
    (h : holds ρ (round_integer_bound i isl tc)) : holds ρ i := by
  by_cases hguard : (i.terms.length > 1 ∧
      (i.terms.any fun t => !is_integer_val t.coeff) = true)
  · rw [round_integer_bound, if_pos hguard] at h
    exact h
  · have hCpos : 0 < (if i.terms.length = 1 then tc else (1:ℚ)) := by
      split
      · exact hc (by assumption)
      · norm_num
    have hstrict : (round_integer_bound i isl tc).strict = false := by
      apply round_integer_bound_strict_false
      rw [not_and_or] at hguard
      rcases hguard with hg | hg
      · left; omega
      · right
        intro t ht
        by_contra hnt
        apply hg
        exact List.any_eq_true.mpr ⟨t, ht, by simpa using hnt⟩
    obtain ⟨hle, hlt⟩ :=
      @round_integer_bound_constant_le i isl tc hguard hCpos
    rw [holds] at h ⊢
    rw [hstrict] at h
    simp only [if_neg (by simp : ¬(false = true))] at h
    rw [evalIneq, round_integer_bound_terms] at h
    rw [evalIneq]
    by_cases hs : i.strict = true
    · rw [if_pos hs]
      have := hlt hs
      linarith
    · rw [if_neg hs]
      linarith

/-! ## Choosing a value between bounds (the FM backward argument) -/

theorem exists_lt_all (l : List ℚ) : ∃ c : ℚ, ∀ a ∈ l, c < a := by
  induction l with
  | nil => exact ⟨0, by simp⟩
  | cons a t ih =>
    obtain ⟨c, hc⟩ := ih
    refine ⟨min c a - 1, ?_⟩
    intro b hb
    rcases List.mem_cons.mp hb with heq | hb
    · rw [heq]
      have : min c a ≤ a := min_le_right c a
      linarith
    · have h1 : min c a ≤ c := min_le_left c a
      have := hc b hb
      linarith

theorem exists_gt_all (l : List ℚ) : ∃ c : ℚ, ∀ a ∈ l, a < c := by
  obtain ⟨c, hc⟩ := exists_lt_all (l.map (fun a => -a))
  refine ⟨-c, ?_⟩
  intro a ha
  have := hc (-a) (List.mem_map.mpr ⟨a, ha, rfl⟩)
  linarith

theorem exists_mem_max (l : List ℚ) (hne : l ≠ []) :
    ∃ m ∈ l, ∀ a ∈ l, a ≤ m := by
  induction l with
  | nil => exact absurd rfl hne
  | cons a t ih =>
    cases t with
    | nil => exact ⟨a, by simp, by simp⟩
    | cons b t' =>
      obtain ⟨m, hm, hall⟩ := ih (by simp)
      by_cases hle : a ≤ m
      · refine ⟨m, List.mem_cons_of_mem _ hm, ?_⟩
        intro x hx
        rcases List.mem_cons.mp hx with rfl | hx
        · exact hle
        · exact hall x hx
      · refine ⟨a, by simp, ?_⟩
        intro x hx
        rcases List.mem_cons.mp hx with rfl | hx
        · exact le_refl x
        · exact le_trans (hall x hx) (le_of_not_le hle)

theorem exists_mem_min (l : List ℚ) (hne : l ≠ []) :
    ∃ m ∈ l, ∀ a ∈ l, m ≤ a := by
  obtain ⟨m, hm, hall⟩ := exists_mem_max (l.map (fun a => -a))
    (by simpa using hne)
  obtain ⟨m0, hm0, rfl⟩ := List.mem_map.mp hm
  refine ⟨m0, hm0, ?_⟩
  intro a ha
  have := hall (-a) (List.mem_map.mpr ⟨a, ha, rfl⟩)
  linarith

theorem exists_between_bounds (LB UB : List (ℚ × Bool))
    (h : ∀ p ∈ LB, ∀ q ∈ UB,
      if p.2 || q.2 then p.1 < q.1 else p.1 ≤ q.1) :
    ∃ c : ℚ, (∀ p ∈ LB, if p.2 then p.1 < c else p.1 ≤ c) ∧
      (∀ q ∈ UB, if q.2 then c < q.1 else c ≤ q.1) := by
  have h' : ∀ p ∈ LB, ∀ q ∈ UB,
      p.1 ≤ q.1 ∧ ((p.2 = true ∨ q.2 = true) → p.1 < q.1) := by
    intro p hp q hq
    have hh := h p hp q hq
    by_cases hb : (p.2 || q.2) = true
    · rw [if_pos hb] at hh
      exact ⟨le_of_lt hh, fun _ => hh⟩
    · rw [if_neg hb] at hh
      refine ⟨hh, ?_⟩
      intro hor
      rcases hor with h1 | h1 <;> simp [h1] at hb
  by_cases hLB : LB = []
  · subst hLB
    obtain ⟨c, hc⟩ := exists_lt_all (UB.map Prod.fst)
    refine ⟨c, by simp, ?_⟩
    intro q hq
    have := hc q.1 (List.mem_map.mpr ⟨q, hq, rfl⟩)
    split
    · exact this
    · exact le_of_lt this
  · by_cases hUB : UB = []
    · subst hUB
      obtain ⟨c, hc⟩ := exists_gt_all (LB.map Prod.fst)
      refine ⟨c, ?_, by simp⟩
      intro p hp
      have := hc p.1 (List.mem_map.mpr ⟨p, hp, rfl⟩)
      split
      · exact this
      · exact le_of_lt this
    · obtain ⟨M, hMmem, hMmax⟩ := exists_mem_max (LB.map Prod.fst)
        (by simpa using hLB)
      obtain ⟨m, hmmem, hmmin⟩ := exists_mem_min (UB.map Prod.fst)
        (by simpa using hUB)
      obtain ⟨pM, hpM, hpMe⟩ := List.mem_map.mp hMmem
      obtain ⟨qm, hqm, hqme⟩ := List.mem_map.mp hmmem
      have hMm : M ≤ m := by
        have := (h' pM hpM qm hqm).1
        rw [hpMe, hqme] at this
        exact this
      rcases lt_or_eq_of_le hMm with hlt | heq
      · refine ⟨(M + m) / 2, ?_, ?_⟩
        · intro p hp
          have hple : p.1 ≤ M := hMmax p.1 (List.mem_map.mpr ⟨p, hp, rfl⟩)
          have : p.1 < (M + m) / 2 := by linarith
          split
          · exact this
          · exact le_of_lt this
        · intro q hq
          have hqge : m ≤ q.1 := hmmin q.1 (List.mem_map.mpr ⟨q, hq, rfl⟩)
          have : (M + m) / 2 < q.1 := by linarith
          split
          · exact this
          · exact le_of_lt this
      · refine ⟨M, ?_, ?_⟩
        · intro p hp
          have hple : p.1 ≤ M := hMmax p.1 (List.mem_map.mpr ⟨p, hp, rfl⟩)
          split
          · have := (h' p hp qm hqm).2 (Or.inl (by assumption))
            rw [hqme] at this
            rw [heq]
            exact this
          · exact hple
        · intro q hq
          have hqge : m ≤ q.1 := hmmin q.1 (List.mem_map.mpr ⟨q, hq, rfl⟩)
          split
          · have := (h' pM hpM q hq).2 (Or.inr (by assumption))
            rw [hpMe] at this
            exact this
          · rw [heq]
            exact hqge

theorem holds_update_lower {i : LinearInequality} {x : Nat} {a : ℚ}
    (hnd : (i.terms.map (fun t => t.var_id)).Nodup)
    (ha : coeffOfT i.terms x = a) (hapos : 0 < a) (ρ : Nat → ℚ) (c : ℚ) :
    holds (Function.update ρ x c) i ↔
      (if i.strict then -(xfree i x ρ) / a < c else -(xfree i x ρ) / a ≤ c) := by
  rw [holds, evalIneq, evalTerms_update_split hnd, ha, xfree]
  by_cases hs : i.strict = true
  · rw [if_pos hs, if_pos hs]
    rw [div_lt_iff₀ hapos]
    constructor
    · intro h; nlinarith
    · intro h; nlinarith
  · rw [if_neg hs, if_neg hs]
    rw [div_le_iff₀ hapos]
    constructor
    · intro h; nlinarith
    · intro h; nlinarith

theorem holds_update_upper {i : LinearInequality} {x : Nat} {b : ℚ}
    (hnd : (i.terms.map (fun t => t.var_id)).Nodup)
    (hb : coeffOfT i.terms x = -b) (hbpos : 0 < b) (ρ : Nat → ℚ) (c : ℚ) :
    holds (Function.update ρ x c) i ↔
      (if i.strict then c < xfree i x ρ / b else c ≤ xfree i x ρ / b) := by
  rw [holds, evalIneq, evalTerms_update_split hnd, hb, xfree]
  by_cases hs : i.strict = true
  · rw [if_pos hs, if_pos hs]
    rw [lt_div_iff₀ hbpos]
    constructor
    · intro h; nlinarith
    · intro h; nlinarith
  · rw [if_neg hs, if_neg hs]
    rw [le_div_iff₀ hbpos]
    constructor
    · intro h; nlinarith
    · intro h; nlinarith

theorem holds_combine_iff {l u : LinearInequality} {a b : ℚ} {x : Nat}
    (hapos : 0 < a) (hbpos : 0 < b) (ρ : Nat → ℚ) :
    holds ρ (combine_bounds l a u b x) ↔
      (if l.strict || u.strict then
        -(xfree l x ρ) / a < xfree u x ρ / b
      else -(xfree l x ρ) / a ≤ xfree u x ρ / b) := by
  rw [holds, evalIneq_combine]
  rw [show (combine_bounds l a u b x).strict = (l.strict || u.strict) from rfl]
  by_cases hs : (l.strict || u.strict) = true
  · rw [if_pos hs, if_pos hs]
    rw [div_lt_div_iff₀ hapos hbpos]
    constructor
    · intro h; nlinarith
    · intro h; nlinarith
  · rw [if_neg hs, if_neg hs]
    rw [div_le_div_iff₀ hapos hbpos]
    constructor
    · intro h; nlinarith
    · intro h; nlinarith

/-! ## The backward (exactness) direction of one elimination step -/

theorem fmLowers_mem {sys : InequalitySystem} {x : Nat}
    {p : LinearInequality × ℚ} (hp : p ∈ fmLowers sys x) :
    p.1 ∈ sys.ineqs ∧ coeffOf p.1 x = p.2 ∧ 0 < p.2 := by
  rw [fmLowers] at hp
  obtain ⟨i, hi, hfi⟩ := List.mem_filterMap.mp hp
  dsimp only at hfi
  by_cases h0 : 0 < coeffOf i x
  · rw [if_pos h0] at hfi
    obtain rfl : (i, coeffOf i x) = p := by
      injection hfi
    exact ⟨hi, rfl, h0⟩
  · rw [if_neg h0] at hfi
    exact absurd hfi (by simp)

theorem fmUppers_mem {sys : InequalitySystem} {x : Nat}
    {p : LinearInequality × ℚ} (hp : p ∈ fmUppers sys x) :
    p.1 ∈ sys.ineqs ∧ coeffOf p.1 x = -p.2 ∧ 0 < p.2 := by
  rw [fmUppers] at hp
  obtain ⟨i, hi, hfi⟩ := List.mem_filterMap.mp hp
  dsimp only at hfi
  by_cases h0 : coeffOf i x < 0
  · rw [if_pos h0] at hfi
    obtain rfl : (i, -coeffOf i x) = p := by
      injection hfi
    refine ⟨hi, by simp, by simpa using h0⟩
  · rw [if_neg h0] at hfi
    exact absurd hfi (by simp)

theorem mem_fmLowers_of {sys : InequalitySystem} {x : Nat}
    {i : LinearInequality} (hi : i ∈ sys.ineqs) (h0 : 0 < coeffOf i x) :
    (i, coeffOf i x) ∈ fmLowers sys x := by
  rw [fmLowers]
  refine List.mem_filterMap.mpr ⟨i, hi, ?_⟩
  dsimp only
  rw [if_pos h0]

theorem mem_fmUppers_of {sys : InequalitySystem} {x : Nat}
    {i : LinearInequality} (hi : i ∈ sys.ineqs) (h0 : coeffOf i x < 0) :
    (i, -coeffOf i x) ∈ fmUppers sys x := by
  rw [fmUppers]
  refine List.mem_filterMap.mpr ⟨i, hi, ?_⟩
  dsimp only
  rw [if_pos h0]

theorem roundedLowers_pos {sys : InequalitySystem} {x : Nat}
    {p : LinearInequality × ℚ} (hp : p ∈ roundedLowers sys x) : 0 < p.2 := by
  rw [roundedLowers] at hp
  split at hp
  · obtain ⟨q, hq, rfl⟩ := List.mem_map.mp hp
    exact (fmLowers_mem hq).2.2
  · exact (fmLowers_mem hp).2.2

theorem roundedUppers_pos {sys : InequalitySystem} {x : Nat}
    {p : LinearInequality × ℚ} (hp : p ∈ roundedUppers sys x) : 0 < p.2 := by
  rw [roundedUppers] at hp
  split at hp
  · obtain ⟨q, hq, rfl⟩ := List.mem_map.mp hp
    exact (fmUppers_mem hq).2.2
  · exact (fmUppers_mem hp).2.2

theorem roundedLowers_surj {sys : InequalitySystem} {x : Nat}
    {q : LinearInequality × ℚ} (hq : q ∈ fmLowers sys x) :
    ∃ p ∈ roundedLowers sys x, p.2 = q.2 ∧ p.1.terms = q.1.terms ∧
      (∀ w, holds w p.1 → holds w q.1) := by
  have hpos : 0 < q.2 := (fmLowers_mem hq).2.2
  rw [roundedLowers]
  split
  · refine ⟨(round_integer_bound q.1 true q.2, q.2),
      List.mem_map.mpr ⟨q, hq, rfl⟩, rfl,
      round_integer_bound_terms _ _ _, ?_⟩
    intro w hw
    exact round_integer_bound_sound (fun _ => hpos) w hw
  · exact ⟨q, hq, rfl, rfl, fun _ h => h⟩

theorem roundedUppers_surj {sys : InequalitySystem} {x : Nat}
    {q : LinearInequality × ℚ} (hq : q ∈ fmUppers sys x) :
    ∃ p ∈ roundedUppers sys x, p.2 = q.2 ∧ p.1.terms = q.1.terms ∧
      (∀ w, holds w p.1 → holds w q.1) := by
  have hpos : 0 < q.2 := (fmUppers_mem hq).2.2
  rw [roundedUppers]
  split
  · refine ⟨(round_integer_bound q.1 false q.2, q.2),
      List.mem_map.mpr ⟨q, hq, rfl⟩, rfl,
      round_integer_bound_terms _ _ _, ?_⟩
    intro w hw
    exact round_integer_bound_sound (fun _ => hpos) w hw
  · exact ⟨q, hq, rfl, rfl, fun _ h => h⟩

theorem eliminate_backward (sys : InequalitySystem) (x : Nat)
    (hwf : ∀ i ∈ sys.ineqs, (i.terms.map (fun t => t.var_id)).Nodup ∧
      ∀ t ∈ i.terms, t.coeff ≠ 0)
    (ρ : Nat → ℚ)
    (hsat : satList ρ (eliminate_variable sys x).ineqs) :
    ∃ c : ℚ, satList (Function.update ρ x c) sys.ineqs := by
  classical
  have hsatU : ∀ i ∈ sys.ineqs.filter (fun i => coeffOf i x = 0),
      holds ρ i := by
    intro i hi
    exact hsat i (by rw [eliminate_variable]; exact List.mem_append_left _ hi)
  have hsatC : ∀ l ∈ roundedLowers sys x, ∀ u ∈ roundedUppers sys x,
      holds ρ (combine_bounds l.1 l.2 u.1 u.2 x) := by
    intro l hl u hu
    apply hsat
    rw [eliminate_variable]
    exact List.mem_append_right _
      (List.mem_flatMap.mpr ⟨l, hl, List.mem_map.mpr ⟨u, hu, rfl⟩⟩)
  have hpair : ∀ pb ∈ (roundedLowers sys x).map
        (fun p => (-(xfree p.1 x ρ) / p.2, p.1.strict)),
      ∀ qb ∈ (roundedUppers sys x).map
        (fun p => (xfree p.1 x ρ / p.2, p.1.strict)),
      if pb.2 || qb.2 then pb.1 < qb.1 else pb.1 ≤ qb.1 := by
    intro pb hpb qb hqb
    obtain ⟨l, hl, rfl⟩ := List.mem_map.mp hpb
    obtain ⟨u, hu, rfl⟩ := List.mem_map.mp hqb
    have hlpos : 0 < l.2 := roundedLowers_pos hl
    have hupos : 0 < u.2 := roundedUppers_pos hu
    have hc := hsatC l hl u hu
    rw [holds_combine_iff hlpos hupos] at hc
    exact hc
  obtain ⟨c, hcl, hcu⟩ := exists_between_bounds _ _ hpair
  refine ⟨c, ?_⟩
  intro i hi
  rcases lt_trichotomy (coeffOf i x) 0 with hneg | hzero | hpos
  · have hmm : (i, -coeffOf i x) ∈ fmUppers sys x := mem_fmUppers_of hi hneg
    obtain ⟨p, hp, he2, hterms, hsound⟩ := roundedUppers_surj hmm
    have hupos : 0 < p.2 := roundedUppers_pos hp
    have hub := hcu (xfree p.1 x ρ / p.2, p.1.strict)
      (List.mem_map.mpr ⟨p, hp, rfl⟩)
    have hnd : (p.1.terms.map (fun t => t.var_id)).Nodup := by
      rw [hterms]
      exact (hwf i hi).1
    have hco : coeffOfT p.1.terms x = -(p.2) := by
      rw [hterms]
      rw [show ((i, -coeffOf i x) : LinearInequality × ℚ).1.terms = i.terms
        from rfl]
      rw [← coeffOf_eq_coeffOfT, he2]
      rw [show ((i, -coeffOf i x) : LinearInequality × ℚ).2 = -coeffOf i x
        from rfl]
      ring
    have hholds : holds (Function.update ρ x c) p.1 :=
      (holds_update_upper hnd hco hupos ρ c).mpr (by simpa using hub)
    exact hsound _ hholds
  · have hmem : i ∈ sys.ineqs.filter (fun i => coeffOf i x = 0) :=
      List.mem_filter.mpr ⟨hi, by simpa using hzero⟩
    have h0 := hsatU i hmem
    have hnx : ∀ t ∈ i.terms, t.var_id ≠ x :=
      coeffOfT_eq_zero_no_x (by rw [← coeffOf_eq_coeffOfT]; exact hzero)
        (fun t ht => (hwf i hi).2 t ht)
    rw [holds, evalIneq, evalTerms_update_no_x hnx]
    rw [holds, evalIneq] at h0
    exact h0
  · have hmm : (i, coeffOf i x) ∈ fmLowers sys x := mem_fmLowers_of hi hpos
    obtain ⟨p, hp, he2, hterms, hsound⟩ := roundedLowers_surj hmm
    have hlpos : 0 < p.2 := roundedLowers_pos hp
    have hlb := hcl (-(xfree p.1 x ρ) / p.2, p.1.strict)
      (List.mem_map.mpr ⟨p, hp, rfl⟩)
    have hnd : (p.1.terms.map (fun t => t.var_id)).Nodup := by
      rw [hterms]
      exact (hwf i hi).1
    have hco : coeffOfT p.1.terms x = p.2 := by
      rw [hterms]
      rw [show ((i, coeffOf i x) : LinearInequality × ℚ).1.terms = i.terms
        from rfl]
      rw [← coeffOf_eq_coeffOfT, he2]
    have hholds : holds (Function.update ρ x c) p.1 :=
      (holds_update_lower hnd hco hlpos ρ c).mpr (by simpa using hlb)
    exact hsound _ hholds

/-! ## Structural preservation through elimination -/

theorem addScaledTerm_pred (P : Nat → Prop) {ts : List LinearTerm} {v : Nat}
    {c : ℚ} (hts : ∀ t ∈ ts, P t.var_id) (hv : P v) :
    ∀ t ∈ addScaledTerm ts v c, P t.var_id := by
  induction ts with
  | nil =>
    intro t ht
    simp only [addScaledTerm, List.mem_singleton] at ht
    subst ht
    exact hv
  | cons s rest ih =>
    intro t ht
    rw [addScaledTerm] at ht
    by_cases hs : s.var_id = v
    · rw [if_pos hs] at ht
      rcases List.mem_cons.mp ht with rfl | ht
      · exact hts s (by simp)
      · exact hts t (List.mem_cons_of_mem _ ht)
    · rw [if_neg hs] at ht
      rcases List.mem_cons.mp ht with rfl | ht
      · exact hts t (by simp)
      · exact ih (fun t' ht' => hts t' (List.mem_cons_of_mem _ ht')) t ht

theorem addScaledTerm_nodup {ts : List LinearTerm} {v : Nat} {c : ℚ}
    (h : (ts.map (fun t => t.var_id)).Nodup) :
    ((addScaledTerm ts v c).map (fun t => t.var_id)).Nodup := by
  induction ts with
  | nil => simp [addScaledTerm]
  | cons s rest ih =>
    rw [addScaledTerm]
    by_cases hs : s.var_id = v
    · rw [if_pos hs]
      simpa using h
    · rw [if_neg hs]
      simp only [List.map_cons, List.nodup_cons] at h ⊢
      constructor
      · intro hmem
        obtain ⟨t, ht, hid⟩ := List.mem_map.mp hmem
        have := addScaledTerm_pred
          (fun m => m ∈ rest.map (fun t => t.var_id) ∨ m = v)
          (fun t' ht' => Or.inl (List.mem_map.mpr ⟨t', ht', rfl⟩))
          (Or.inr rfl) t ht
        rcases this with hmem2 | hveq
        · exact h.1 (hid ▸ hmem2)
        · exact hs (hid ▸ hveq)
      · exact ih h.2

theorem foldl_addScaled_pred (P : Nat → Prop) {ts : List LinearTerm} {k : ℚ}
    {init : List LinearTerm} (hinit : ∀ t ∈ init, P t.var_id)
    (hts : ∀ s ∈ ts, P s.var_id) :
    ∀ t ∈ ts.foldl
      (fun acc t => addScaledTerm acc t.var_id (t.coeff * k)) init,
      P t.var_id := by
  induction ts generalizing init with
  | nil => exact hinit
  | cons s rest ih =>
    rw [List.foldl_cons]
    exact ih
      (addScaledTerm_pred P hinit (hts s (by simp)))
      (fun s' hs' => hts s' (List.mem_cons_of_mem _ hs'))

theorem foldl_addScaled_nodup {ts : List LinearTerm} {k : ℚ}
    {init : List LinearTerm}
    (h : (init.map (fun t => t.var_id)).Nodup) :
    ((ts.foldl (fun acc t => addScaledTerm acc t.var_id (t.coeff * k))
        init).map (fun t => t.var_id)).Nodup := by
  induction ts generalizing init with
  | nil => exact h
  | cons s rest ih =>
    rw [List.foldl_cons]
    exact ih (addScaledTerm_nodup h)

theorem combine_bounds_nodup (l : LinearInequality) (a : ℚ)
    (u : LinearInequality) (b : ℚ) (x : Nat) :
    ((combine_bounds l a u b x).terms.map (fun t => t.var_id)).Nodup := by
  rw [combine_bounds]
  dsimp only
  have h2 := @foldl_addScaled_nodup
    (u.terms.filter (fun t => t.var_id ≠ x)) a _
    (@foldl_addScaled_nodup
      (l.terms.filter (fun t => t.var_id ≠ x)) b [] (by simp))
  exact List.Nodup.sublist
    (List.Sublist.map _ (List.filter_sublist _)) h2

theorem combine_bounds_pred (P : Nat → Prop) {l : LinearInequality} {a : ℚ}
    {u : LinearInequality} {b : ℚ} {x : Nat}
    (hl : ∀ t ∈ l.terms, t.var_id ≠ x → P t.var_id)
    (hu : ∀ t ∈ u.terms, t.var_id ≠ x → P t.var_id) :
    ∀ t ∈ (combine_bounds l a u b x).terms, P t.var_id := by
  rw [combine_bounds]
  dsimp only
  intro t ht
  have ht2 := List.mem_of_mem_filter ht
  refine foldl_addScaled_pred P ?_ ?_ t ht2
  · refine foldl_addScaled_pred P ?_ ?_
    · simp
    · intro s hs
      have := List.mem_filter.mp hs
      exact hl s this.1 (by simpa using this.2)
  · intro s hs
    have := List.mem_filter.mp hs
    exact hu s this.1 (by simpa using this.2)

theorem combine_bounds_no_x (l : LinearInequality) (a : ℚ)
    (u : LinearInequality) (b : ℚ) (x : Nat) :
    ∀ t ∈ (combine_bounds l a u b x).terms, t.var_id ≠ x :=
  combine_bounds_pred (fun m => m ≠ x) (fun _ _ h => h) (fun _ _ h => h)

theorem combine_bounds_nonzero (l : LinearInequality) (a : ℚ)
    (u : LinearInequality) (b : ℚ) (x : Nat) :
    ∀ t ∈ (combine_bounds l a u b x).terms, t.coeff ≠ 0 := by
  rw [combine_bounds]
  dsimp only
  intro t ht
  simpa using (List.mem_filter.mp ht).2

theorem roundedLowers_terms_mem {sys : InequalitySystem} {x : Nat}
    {p : LinearInequality × ℚ} (hp : p ∈ roundedLowers sys x) :
    ∃ i ∈ sys.ineqs, p.1.terms = i.terms := by
  rw [roundedLowers] at hp
  split at hp
  · obtain ⟨q, hq, rfl⟩ := List.mem_map.mp hp
    exact ⟨q.1, (fmLowers_mem hq).1, round_integer_bound_terms _ _ _⟩
  · exact ⟨p.1, (fmLowers_mem hp).1, rfl⟩

theorem roundedUppers_terms_mem {sys : InequalitySystem} {x : Nat}
    {p : LinearInequality × ℚ} (hp : p ∈ roundedUppers sys x) :
    ∃ i ∈ sys.ineqs, p.1.terms = i.terms := by
  rw [roundedUppers] at hp
  split at hp
  · obtain ⟨q, hq, rfl⟩ := List.mem_map.mp hp
    exact ⟨q.1, (fmUppers_mem hq).1, round_integer_bound_terms _ _ _⟩
  · exact ⟨p.1, (fmUppers_mem hp).1, rfl⟩

theorem mem_eliminate_cases {sys : InequalitySystem} {x : Nat}
    {j : LinearInequality} (hj : j ∈ (eliminate_variable sys x).ineqs) :
    (j ∈ sys.ineqs ∧ coeffOf j x = 0) ∨
    ∃ l ∈ roundedLowers sys x, ∃ u ∈ roundedUppers sys x,
      j = combine_bounds l.1 l.2 u.1 u.2 x := by
  rw [eliminate_variable] at hj
  rcases List.mem_append.mp hj with hj | hj
  · have := List.mem_filter.mp hj
    exact Or.inl ⟨this.1, by simpa using this.2⟩
  · obtain ⟨l, hl, hj2⟩ := List.mem_flatMap.mp hj
    obtain ⟨u, hu, rfl⟩ := List.mem_map.mp hj2
    exact Or.inr ⟨l, hl, u, hu, rfl⟩

theorem eliminate_wfLite {sys : InequalitySystem} {x : Nat}
    (h : ∀ i ∈ sys.ineqs, (i.terms.map (fun t => t.var_id)).Nodup ∧
      ∀ t ∈ i.terms, t.coeff ≠ 0) :
    ∀ j ∈ (eliminate_variable sys x).ineqs,
      (j.terms.map (fun t => t.var_id)).Nodup ∧
      ∀ t ∈ j.terms, t.coeff ≠ 0 := by
  intro j hj
  rcases mem_eliminate_cases hj with ⟨hj2, _⟩ | ⟨l, hl, u, hu, rfl⟩
  · exact h j hj2
  · exact ⟨combine_bounds_nodup _ _ _ _ _, combine_bounds_nonzero _ _ _ _ _⟩

theorem eliminate_id_pred (P : Nat → Prop) {sys : InequalitySystem} {x : Nat}
    (h : ∀ i ∈ sys.ineqs, ∀ t ∈ i.terms, P t.var_id) :
    ∀ j ∈ (eliminate_variable sys x).ineqs, ∀ t ∈ j.terms, P t.var_id := by
  intro j hj
  rcases mem_eliminate_cases hj with ⟨hj2, _⟩ | ⟨l, hl, u, hu, rfl⟩
  · exact h j hj2
  · obtain ⟨il, hil, hterml⟩ := roundedLowers_terms_mem hl
    obtain ⟨iu, hiu, htermu⟩ := roundedUppers_terms_mem hu
    refine combine_bounds_pred P ?_ ?_
    · intro t ht _
      exact h il hil t (hterml ▸ ht)
    · intro t ht _
      exact h iu hiu t (htermu ▸ ht)

theorem coeffOf_eq_zero_of_absent {i : LinearInequality} {x : Nat}
    (h : ∀ t ∈ i.terms, t.var_id ≠ x) : coeffOf i x = 0 := by
  rw [coeffOf]
  cases hf : i.terms.find? (fun t => t.var_id = x) with
  | none => rfl
  | some t =>
    exfalso
    have hmem := List.mem_of_find?_eq_some hf
    have := List.find?_some hf
    exact h t hmem (by simpa using this)

theorem eliminate_no_x {sys : InequalitySystem} {x : Nat}
    (hnz : ∀ i ∈ sys.ineqs, ∀ t ∈ i.terms, t.coeff ≠ 0) :
    ∀ j ∈ (eliminate_variable sys x).ineqs, ∀ t ∈ j.terms, t.var_id ≠ x := by
  intro j hj
  rcases mem_eliminate_cases hj with ⟨hj2, hz⟩ | ⟨l, hl, u, hu, rfl⟩
  · exact coeffOfT_eq_zero_no_x (by rw [← coeffOf_eq_coeffOfT]; exact hz)
      (hnz j hj2)
  · exact combine_bounds_no_x _ _ _ _ _

/-! ## Full elimination: termination at a constant system, and completeness -/

theorem elimUpTo_vars (sys : InequalitySystem) (n : Nat) :
    (elimUpTo sys n).vars = sys.vars := by
  induction n with
  | zero => rfl
  | succ n ih =>
    rw [elimUpTo]
    rw [show (eliminate_variable (elimUpTo sys n) n).vars
      = (elimUpTo sys n).vars from rfl]
    exact ih

theorem elimUpTo_wfLite {sys : InequalitySystem}
    (h : ∀ i ∈ sys.ineqs, (i.terms.map (fun t => t.var_id)).Nodup ∧
      ∀ t ∈ i.terms, t.coeff ≠ 0) (n : Nat) :
    ∀ j ∈ (elimUpTo sys n).ineqs,
      (j.terms.map (fun t => t.var_id)).Nodup ∧
      ∀ t ∈ j.terms, t.coeff ≠ 0 := by
  induction n with
  | zero => exact h
  | succ n ih => exact eliminate_wfLite ih

theorem elimUpTo_id_pred (P : Nat → Prop) {sys : InequalitySystem}
    (h : ∀ i ∈ sys.ineqs, ∀ t ∈ i.terms, P t.var_id) (n : Nat) :
    ∀ j ∈ (elimUpTo sys n).ineqs, ∀ t ∈ j.terms, P t.var_id := by
  induction n with
  | zero => exact h
  | succ n ih => exact eliminate_id_pred P ih

theorem elimUpTo_no_small_id {sys : InequalitySystem}
    (h : ∀ i ∈ sys.ineqs, (i.terms.map (fun t => t.var_id)).Nodup ∧
      ∀ t ∈ i.terms, t.coeff ≠ 0) (n : Nat) :
    ∀ j ∈ (elimUpTo sys n).ineqs, ∀ t ∈ j.terms, n ≤ t.var_id := by
  induction n with
  | zero => intro j hj t ht; omega
  | succ n ih =>
    rw [elimUpTo]
    have hLite := elimUpTo_wfLite h n
    have hne := @eliminate_no_x (elimUpTo sys n) n
      (fun i hi t ht => (hLite i hi).2 t ht)
    have hge := eliminate_id_pred (fun m => n ≤ m) (x := n) ih
    intro j hj t ht
    have h1 := hne j hj t ht
    have h2 := hge j hj t ht
    omega

theorem elimUpTo_terms_nil {sys : InequalitySystem}
    (hid : ∀ i ∈ sys.ineqs, ∀ t ∈ i.terms, t.var_id < sys.vars.count)
    (hlite : ∀ i ∈ sys.ineqs, (i.terms.map (fun t => t.var_id)).Nodup ∧
      ∀ t ∈ i.terms, t.coeff ≠ 0) :
    ∀ j ∈ (elimUpTo sys sys.vars.count).ineqs, j.terms = [] := by
  intro j hj
  have h1 := elimUpTo_id_pred (fun m => m < sys.vars.count) hid
    sys.vars.count j hj
  have h2 := elimUpTo_no_small_id hlite sys.vars.count j hj
  rcases hterms : j.terms with _ | ⟨t, rest⟩
  · rfl
  · exfalso
    have ht : t ∈ j.terms := by rw [hterms]; simp
    have := h1 t ht
    have := h2 t ht
    omega

theorem has_contradiction_term_free {l : List LinearInequality}
    (h : ∀ i ∈ l, i.terms = []) :
    has_contradiction l = .ok (l.any contradictoryConst) := by
  induction l with
  | nil => rfl
  | cons i rest ih =>
    rw [has_contradiction]
    rw [if_neg (by simpa using h i (by simp))]
    by_cases hc : contradictoryConst i = true
    · rw [if_pos hc, List.any_cons, hc]
      rfl
    · rw [if_neg hc, ih (fun j hj => h j (List.mem_cons_of_mem _ hj))]
      rw [List.any_cons]
      rw [show contradictoryConst i = false by simpa using hc]
      rfl

theorem has_contradiction_ok_true_mem {l : List LinearInequality}
    (h : has_contradiction l = .ok true) :
    ∃ i ∈ l, i.terms = [] ∧ contradictoryConst i = true := by
  induction l with
  | nil => simp [has_contradiction] at h
  | cons i rest ih =>
    rw [has_contradiction] at h
    by_cases hterm : i.terms ≠ []
    · rw [if_pos hterm] at h
      exact absurd h (by simp)
    · rw [if_neg hterm] at h
      push_neg at hterm
      by_cases hc : contradictoryConst i = true
      · exact ⟨i, by simp, hterm, hc⟩
      · rw [if_neg hc] at h
        obtain ⟨j, hj, hj2⟩ := ih h
        exact ⟨j, List.mem_cons_of_mem _ hj, hj2⟩

theorem satList_of_no_contradiction {l : List LinearInequality}
    (hfree : ∀ i ∈ l, i.terms = [])
    (hany : l.any contradictoryConst = false) (ρ : Nat → ℚ) :
    satList ρ l := by
  intro i hi
  have hc : contradictoryConst i = false := by
    rcases hany2 : contradictoryConst i with _ | _
    · rfl
    · exfalso
      have : l.any contradictoryConst = true :=
        List.any_eq_true.mpr ⟨i, hi, hany2⟩
      rw [this] at hany
      exact absurd hany (by simp)
  rw [holds, evalIneq, hfree i hi, evalTerms_nil]
  rw [contradictoryConst] at hc
  by_cases hs : i.strict = true
  · rw [if_pos hs]
    rw [hs] at hc
    simp only [Bool.true_and, Bool.not_true, Bool.false_and, Bool.or_false] at hc
    have : ¬(i.constant ≤ 0) := by simpa using hc
    linarith
  · rw [if_neg hs]
    have hs' : i.strict = false := by simpa using hs
    rw [hs'] at hc
    simp only [Bool.false_and, Bool.not_false, Bool.true_and,
      Bool.false_or] at hc
    have : ¬(i.constant < 0) := by simpa using hc
    linarith

theorem elimUpTo_sat_backward {sys : InequalitySystem}
    (hlite : ∀ i ∈ sys.ineqs, (i.terms.map (fun t => t.var_id)).Nodup ∧
      ∀ t ∈ i.terms, t.coeff ≠ 0) (n : Nat)
    (h : ∃ ρ, satList ρ (elimUpTo sys n).ineqs) :
    ∃ ρ, satList ρ sys.ineqs := by
  induction n with
  | zero => exact h
  | succ n ih =>
    obtain ⟨ρ, hρ⟩ := h
    rw [elimUpTo] at hρ
    obtain ⟨c, hc⟩ :=
      eliminate_backward (elimUpTo sys n) n (elimUpTo_wfLite hlite n) ρ hρ
    exact ih ⟨Function.update ρ n c, hc⟩

/-- Completeness of the embedded FM procedure over `ℚ`: a well-formed
conjunctive system with no rational solution is reported UNSAT (the
integer-domain tightening steps only ever shrink the feasible set, so they
cannot mask the contradiction). -/
theorem fm_is_unsat_complete {sys : InequalitySystem}
    (hid : ∀ i ∈ sys.ineqs, ∀ t ∈ i.terms, t.var_id < sys.vars.count)
    (hlite : ∀ i ∈ sys.ineqs, (i.terms.map (fun t => t.var_id)).Nodup ∧
      ∀ t ∈ i.terms, t.coeff ≠ 0)
    (hunsat : ¬∃ ρ, satList ρ sys.ineqs) :
    fm_is_unsat sys = .ok true := by
  have hfree := elimUpTo_terms_nil hid hlite
  rw [fm_is_unsat, has_contradiction_term_free hfree]
  rcases hany : (elimUpTo sys sys.vars.count).ineqs.any contradictoryConst with
    _ | _
  · exfalso
    apply hunsat
    exact elimUpTo_sat_backward hlite sys.vars.count
      ⟨fun _ => 0, satList_of_no_contradiction hfree hany (fun _ => 0)⟩
  · rfl

/-! ## Monotonicity of `fm_is_unsat` under extra inequalities and registry
extension -/

theorem sublist_flatMap_product {α β γ : Type} {l1 l2 : List α}
    {u1 u2 : List β} (f : α → β → γ) (hl : l1.Sublist l2)
    (hu : u1.Sublist u2) :
    (l1.flatMap fun a => u1.map (f a)).Sublist
      (l2.flatMap fun a => u2.map (f a)) := by
  induction hl with
  | slnil => simp
  | cons a hsub ih =>
    rw [List.flatMap_cons]
    exact ih.trans (List.sublist_append_right _ _)
  | cons₂ a hsub ih =>
    rw [List.flatMap_cons, List.flatMap_cons]
    exact List.Sublist.append (List.Sublist.map _ hu) ih

theorem eliminate_sublist {s1 s2 : InequalitySystem} (hv : s1.vars = s2.vars)
    (h : s1.ineqs.Sublist s2.ineqs) (x : Nat) :
    (eliminate_variable s1 x).ineqs.Sublist
      (eliminate_variable s2 x).ineqs := by
  rw [eliminate_variable, eliminate_variable]
  dsimp only
  refine List.Sublist.append (h.filter _) ?_
  have hlow : (roundedLowers s1 x).Sublist (roundedLowers s2 x) := by
    rw [roundedLowers, roundedLowers, fmLowers, fmLowers, hv]
    split
    · exact List.Sublist.map _ (h.filterMap _)
    · exact h.filterMap _
  have hupp : (roundedUppers s1 x).Sublist (roundedUppers s2 x) := by
    rw [roundedUppers, roundedUppers, fmUppers, fmUppers, hv]
    split
    · exact List.Sublist.map _ (h.filterMap _)
    · exact h.filterMap _
  exact sublist_flatMap_product _ hlow hupp

theorem elimUpTo_ineqs_sublist {l1 l2 : List LinearInequality} {V : VarInfo}
    (h : l1.Sublist l2) (n : Nat) :
    (elimUpTo ⟨l1, V⟩ n).ineqs.Sublist (elimUpTo ⟨l2, V⟩ n).ineqs := by
  induction n with
  | zero => exact h
  | succ n ih =>
    rw [elimUpTo, elimUpTo]
    refine eliminate_sublist ?_ ih n
    rw [elimUpTo_vars, elimUpTo_vars]

theorem fm_is_unsat_mono {l1 l2 : List LinearInequality} {V : VarInfo}
    (h : l1.Sublist l2) (hwf : ∀ i ∈ l2, wfIneq V.count i)
    (h1 : fm_is_unsat ⟨l1, V⟩ = .ok true) :
    fm_is_unsat ⟨l2, V⟩ = .ok true := by
  rw [fm_is_unsat] at h1 ⊢
  have hsub := elimUpTo_ineqs_sublist (V := V) h V.count
  obtain ⟨i, hi, hfree_i, hci⟩ := has_contradiction_ok_true_mem h1
  have hfree2 : ∀ j ∈ (elimUpTo ⟨l2, V⟩ V.count).ineqs, j.terms = [] := by
    apply elimUpTo_terms_nil
    · exact fun i hi t ht => ((hwf i hi).2 t ht).1
    · exact fun i hi => ⟨(hwf i hi).1, fun t ht => ((hwf i hi).2 t ht).2⟩
  rw [show (⟨l2, V⟩ : InequalitySystem).vars.count = V.count from rfl]
  rw [has_contradiction_term_free hfree2]
  have hmem2 : i ∈ (elimUpTo ⟨l2, V⟩ V.count).ineqs := hsub.subset hi
  rw [List.any_eq_true.mpr ⟨i, hmem2, hci⟩]

theorem intFlag_ext {V V' : VarInfo} (h : VExt V V') {m : Nat}
    (hm : m < V.count) : V'.intFlag m = V.intFlag m := by
  obtain ⟨t, ht⟩ := h
  rw [VarInfo.intFlag, VarInfo.intFlag, ht]
  rw [show (V.entries ++ t).get? m = V.entries.get? m from by
    rw [List.get?_eq_getElem?, List.get?_eq_getElem?]
    exact List.getElem?_append_left hm]

theorem eliminate_ineqs_congr {s1 s2 : InequalitySystem} {x : Nat}
    (hi : s1.ineqs = s2.ineqs)
    (hf : s1.vars.intFlag x = s2.vars.intFlag x) :
    (eliminate_variable s1 x).ineqs = (eliminate_variable s2 x).ineqs := by
  rw [eliminate_variable, eliminate_variable]
  dsimp only
  rw [roundedLowers, roundedLowers, roundedUppers, roundedUppers,
    fmLowers, fmLowers, fmUppers, fmUppers, hi, hf]

theorem elimUpTo_ineqs_ext {l : List LinearInequality} {V V' : VarInfo}
    (hext : VExt V V') (n : Nat) (hn : n ≤ V.count) :
    (elimUpTo ⟨l, V'⟩ n).ineqs = (elimUpTo ⟨l, V⟩ n).ineqs := by
  induction n with
  | zero => rfl
  | succ n ih =>
    rw [elimUpTo, elimUpTo]
    refine eliminate_ineqs_congr (ih (by omega)) ?_
    rw [elimUpTo_vars, elimUpTo_vars]
    exact intFlag_ext hext (by omega)

theorem eliminate_ineqs_id {sys : InequalitySystem} {x : Nat}
    (h : ∀ i ∈ sys.ineqs, coeffOf i x = 0) :
    (eliminate_variable sys x).ineqs = sys.ineqs := by
  rw [eliminate_variable]
  dsimp only
  have hlow : fmLowers sys x = [] := by
    rw [fmLowers]
    apply List.filterMap_eq_nil_iff.mpr
    intro i hi
    dsimp only
    rw [h i hi]
    rw [if_neg (lt_irrefl 0)]
  have hupp : fmUppers sys x = [] := by
    rw [fmUppers]
    apply List.filterMap_eq_nil_iff.mpr
    intro i hi
    dsimp only
    rw [h i hi]
    rw [if_neg (lt_irrefl 0)]
  have hrl : roundedLowers sys x = [] := by
    rw [roundedLowers, hlow]
    split <;> simp
  rw [hrl]
  simp only [List.flatMap_nil, List.append_nil]
  apply List.filter_eq_self.mpr
  intro i hi
  simpa using h i hi

theorem elimUpTo_plus_id {l : List LinearInequality} {V' : VarInfo} {k : Nat}
    (hno : ∀ i ∈ (elimUpTo ⟨l, V'⟩ k).ineqs, ∀ t ∈ i.terms, t.var_id < k) :
    ∀ j, (elimUpTo ⟨l, V'⟩ (k + j)).ineqs = (elimUpTo ⟨l, V'⟩ k).ineqs := by
  intro j
  induction j with
  | zero => rfl
  | succ j ih =>
    rw [show k + (j + 1) = (k + j) + 1 from rfl, elimUpTo]
    rw [eliminate_ineqs_id, ih]
    intro i hi
    rw [ih] at hi
    apply coeffOf_eq_zero_of_absent
    intro t ht
    have := hno i hi t ht
    omega

theorem fm_is_unsat_vars_ext {l : List LinearInequality} {V V' : VarInfo}
    (hext : VExt V V')
    (hid : ∀ i ∈ l, ∀ t ∈ i.terms, t.var_id < V.count)
    (h : fm_is_unsat ⟨l, V⟩ = .ok true) :
    fm_is_unsat ⟨l, V'⟩ = .ok true := by
  rw [fm_is_unsat] at h ⊢
  obtain ⟨t, ht⟩ := hext
  have hcount : V'.count = V.count + t.length := by
    simp [VarInfo.count, ht]
  have hbase := elimUpTo_ineqs_ext (l := l) ⟨t, ht⟩ V.count (le_refl _)
  have hno : ∀ i ∈ (elimUpTo ⟨l, V'⟩ V.count).ineqs, ∀ tm ∈ i.terms,
      tm.var_id < V.count := by
    rw [hbase]
    exact elimUpTo_id_pred (fun m => m < V.count) hid V.count
  have hconst := elimUpTo_plus_id hno t.length
  rw [show (⟨l, V'⟩ : InequalitySystem).vars.count = V'.count from rfl, hcount]
  rw [hconst, hbase]
  exact h

/-! ## Solver-level helper lemmas -/

theorem wfIneq_negate {n : Nat} {i : LinearInequality} (h : wfIneq n i) :
    wfIneq n (negate_inequality i) := by
  obtain ⟨hnd, hb⟩ := h
  constructor
  · rw [negate_inequality]
    simpa [List.map_map, Function.comp] using hnd
  · intro t ht
    rw [negate_inequality] at ht
    obtain ⟨t0, ht0, rfl⟩ := List.mem_map.mp ht
    exact ⟨(hb t0 ht0).1, by simpa using (hb t0 ht0).2⟩

theorem varRegistryCompatible_self {a b : InequalitySystem}
    (hv : a.vars = b.vars) (hnd : nodupNames b.vars) :
    varRegistryCompatible a b = true := by
  rw [varRegistryCompatible, smallerVars, largerVars, hv]
  rw [if_pos (le_refl _)]
  apply List.all_eq_true.mpr
  intro p hp
  have hget := List.mem_enum_iff_getElem?.mp hp
  have := find_names_self hnd hget
  simpa using this

theorem clauseImpliesLoop_ok {a : InequalitySystem}
    {l : List LinearInequality}
    (h : ∀ bi ∈ l, fm_is_unsat (a.add (negate_inequality bi)) = .ok true) :
    clauseImpliesLoop a l = .ok true := by
  induction l with
  | nil => rfl
  | cons bi rest ih =>
    rw [clauseImpliesLoop, h bi (by simp), ebind_ok]
    exact ih (fun b hb => h b (List.mem_cons_of_mem _ hb))

theorem impliesAllLoop_ok {q : InequalitySystem} {cs : List InequalitySystem}
    (h : ∀ c ∈ cs, clause_implies c q = .ok true) :
    impliesAllLoop q cs = .ok true := by
  induction cs with
  | nil => rfl
  | cons c rest ih =>
    rw [impliesAllLoop, h c (by simp), ebind_ok]
    exact ih (fun c' hc' => h c' (List.mem_cons_of_mem _ hc'))

theorem clause_implies_ok {a b : InequalitySystem} (hv : a.vars = b.vars)
    (hnd : nodupNames b.vars)
    (h : ∀ bi ∈ b.ineqs, fm_is_unsat (a.add (negate_inequality bi)) = .ok true) :
    clause_implies a b = .ok true := by
  rw [clause_implies, if_pos (varRegistryCompatible_self hv hnd)]
  exact clauseImpliesLoop_ok h

theorem nodupNames_empty : nodupNames ⟨[]⟩ := by simp [nodupNames]

theorem parse_to_system_vars_ok {e : Expr} {v : VarInfo} {r : ParseResult}
    {v' : VarInfo} (h : parse_to_system_vars e v = .ok (r, v')) :
    ∃ r0, parse_formula e v = .ok (r0, v') ∧
      r.clauses = r0.clauses.map (fun c => { c with vars := v' }) := by
  rw [parse_to_system_vars] at h
  cases hp : parse_formula e v with
  | error e0 => rw [hp, ebind_error] at h; exact absurd h (by simp)
  | ok p =>
    obtain ⟨r0, w⟩ := p
    rw [hp, ebind_ok] at h
    simp only [Except.ok.injEq, Prod.mk.injEq] at h
    obtain ⟨hr, hv⟩ := h
    subst hv
    exact ⟨r0, rfl, by rw [← hr]⟩

theorem parse_to_system_vars_empty {e : Expr} {pd : ParseResult}
    (h : parse_to_system e = .ok pd) :
    ∃ v1, parse_to_system_vars e ⟨[]⟩ = .ok (pd, v1) := by
  rw [parse_to_system] at h
  rw [parse_to_system_vars]
  cases hp : parse_formula e ⟨[]⟩ with
  | error e0 => rw [hp, ebind_error] at h; exact absurd h (by simp)
  | ok p =>
    obtain ⟨r0, w⟩ := p
    rw [hp, ebind_ok] at h
    simp only [Except.ok.injEq] at h
    refine ⟨w, ?_⟩
    rw [ebind_ok]
    exact congrArg
      (fun x => (Except.ok (x, w) : Except String (ParseResult × VarInfo))) h

/-! ## C5: ex falso — an UNSAT premise makes any implication valid -/

/-- C5: for every pair of formulas `P` and `Q` accepted by the embedded
parser, if the DNF produced by `parse_to_system(P)` is UNSAT (spec-modelled
two-argument overload threading the registry, cf. `parse_to_system_vars`),
then whenever `is_valid_implication(P, Q)` returns a verdict, that verdict
is `true` — for arbitrary `Q`, on both the conjunctive-conclusion fast path
and the brute-force `P ∧ ¬Q` fallback. -/
theorem ex_falso_implication (P Q : Expr) (pd : ParseResult) (r : Bool)
    (hP : parse_to_system P = .ok pd)
    (hunsat : is_unsat_dnf pd.clauses = .ok true)
    (himpl : is_valid_implication P Q = .ok r) : r = true := by
  obtain ⟨v1, h1⟩ := parse_to_system_vars_empty hP
  rw [is_valid_implication, is_valid_implication_impl, h1, ebind_ok] at himpl
  have himpl2 : (do
      let (q_dnf, v2) ← parse_to_system_vars Q v1
      let pcs := pd.clauses.map
        (fun c : InequalitySystem => { c with vars := v2 })
      match q_dnf.clauses with
      | [qs] => impliesAllLoop qs pcs
      | _ => do
          let (rc, _) ← parse_to_system_vars (.land P (.lnot Q)) v2
          is_unsat_dnf rc.clauses) = .ok r := himpl
  cases h2 : parse_to_system_vars Q v1 with
  | error e0 => rw [h2, ebind_error] at himpl2; exact absurd himpl2 (by simp)
  | ok qpair =>
  obtain ⟨q_dnf, v2⟩ := qpair
  rw [h2, ebind_ok] at himpl2
  have himpl3 : (match q_dnf.clauses with
      | [qs] =>
          impliesAllLoop qs (pd.clauses.map
            (fun c : InequalitySystem => { c with vars := v2 }))
      | _ => do
          let (rc, _) ← parse_to_system_vars (.land P (.lnot Q)) v2
          is_unsat_dnf rc.clauses) = .ok r := himpl2
  obtain ⟨r0, hp0, hpd⟩ := parse_to_system_vars_ok h1
  obtain ⟨hext01, hnd01, -, hwfP, -, hstabP⟩ := (parse_inv P).1 _ _ _ hp0
  have hnd1 : nodupNames v1 := hnd01 nodupNames_empty
  obtain ⟨q0, hq0, hqd⟩ := parse_to_system_vars_ok h2
  obtain ⟨hext12, hnd12, -, hwfQ, -, -⟩ := (parse_inv Q).1 _ _ _ hq0
  have hnd2 : nodupNames v2 := hnd12 hnd1
  have hPclause : ∀ c0 ∈ r0.clauses, fm_is_unsat ⟨c0.ineqs, v1⟩ = .ok true := by
    intro c0 hc0
    have hmem : ({ c0 with vars := v1 } : InequalitySystem) ∈ pd.clauses := by
      rw [hpd]; exact List.mem_map.mpr ⟨c0, hc0, rfl⟩
    exact is_unsat_dnf_eq_ok_true.mp hunsat _ hmem
  have hidP : ∀ c0 ∈ r0.clauses, ∀ i ∈ c0.ineqs, ∀ t ∈ i.terms,
      t.var_id < v1.count :=
    fun c0 hc0 i hi t ht => ((hwfP c0 hc0 i hi).2 t ht).1
  have hbrute : ∀ (rc : ParseResult) (v3 : VarInfo),
      parse_to_system_vars (.land P (.lnot Q)) v2 = .ok (rc, v3) →
      is_unsat_dnf rc.clauses = .ok true := by
    intro rc v3 h3
    obtain ⟨rl, hl, hrc⟩ := parse_to_system_vars_ok h3
    obtain ⟨hext23, -, -, hwfL, -, -⟩ :=
      (parse_inv (.land P (.lnot Q))).1 _ _ _ hl
    obtain ⟨r2, hstabOk, hshapes⟩ := hstabP v2 hext12
    simp only [parse_formula] at hl
    rw [hstabOk, ebind_ok] at hl
    have hl2 : (do
        let (rn, vb) ← parse_negated Q v2
        Except.ok (conjoin r2 rn, vb)) = Except.ok (rl, v3) := hl
    cases hn : parse_negated Q v2 with
    | error e0 => rw [hn, ebind_error] at hl2; exact absurd hl2 (by simp)
    | ok pn =>
    obtain ⟨rn, vb⟩ := pn
    rw [hn, ebind_ok] at hl2
    have hl3 : (Except.ok (conjoin r2 rn, vb)
        : Except String (ParseResult × VarInfo)) = Except.ok (rl, v3) := hl2
    simp only [Except.ok.injEq, Prod.mk.injEq] at hl3
    obtain ⟨hrl, hvb⟩ := hl3
    apply is_unsat_dnf_eq_ok_true.mpr
    intro C' hC'
    rw [hrc] at hC'
    obtain ⟨Cm, hCm, rfl⟩ := List.mem_map.mp hC'
    have hCmrl : Cm ∈ (conjoin r2 rn).clauses := by rw [hrl]; exact hCm
    obtain ⟨a, ha, b, hb, hCme⟩ := mem_conjoin.mp hCmrl
    have hashape : a.ineqs ∈ clauseShapes r0 := by
      rw [← hshapes]
      exact List.mem_map.mpr ⟨a, ha, rfl⟩
    obtain ⟨c0, hc0, hc0e⟩ := List.mem_map.mp hashape
    have hgoal : fm_is_unsat ⟨a.ineqs ++ b.ineqs, v3⟩ = .ok true := by
      refine fm_is_unsat_mono (List.sublist_append_left _ _) ?_ ?_
      · intro i hi
        apply hwfL Cm hCm
        rw [hCme]
        exact hi
      · rw [← hc0e]
        exact fm_is_unsat_vars_ext (VExt_trans hext12 hext23) (hidP c0 hc0)
          (hPclause c0 hc0)
    rw [hCme]
    exact hgoal
  rcases hqshape : q_dnf.clauses with - | ⟨qs, - | ⟨q2, qrest⟩⟩
  · rw [hqshape] at himpl3
    have hfb : (do
        let (rc, _) ← parse_to_system_vars (.land P (.lnot Q)) v2
        is_unsat_dnf rc.clauses) = Except.ok r := himpl3
    cases h3 : parse_to_system_vars (.land P (.lnot Q)) v2 with
    | error e0 => rw [h3, ebind_error] at hfb; exact absurd hfb (by simp)
    | ok p3 =>
      obtain ⟨rc, v3⟩ := p3
      rw [h3, ebind_ok] at hfb
      have hfb2 : is_unsat_dnf rc.clauses = Except.ok r := hfb
      rw [hbrute rc v3 h3] at hfb2
      injection hfb2 with hh
      exact hh.symm
  · rw [hqshape] at himpl3
    have hloop : impliesAllLoop qs
        (pd.clauses.map (fun c => { c with vars := v2 })) = Except.ok r :=
      himpl3
    have hmap : q0.clauses.map
        (fun c => ({ c with vars := v2 } : InequalitySystem)) = [qs] := by
      rw [← hqd, hqshape]
    obtain ⟨qc, hqcmem, hqsv⟩ :
        ∃ qc, qc ∈ q0.clauses ∧ ({ qc with vars := v2 } : InequalitySystem) = qs := by
      cases hq0cl : q0.clauses with
      | nil => rw [hq0cl] at hmap; simp at hmap
      | cons qc qt =>
        rw [hq0cl] at hmap
        simp only [List.map_cons, List.cons.injEq] at hmap
        exact ⟨qc, List.mem_cons_self qc qt, hmap.1⟩
    have hall : impliesAllLoop qs
        (pd.clauses.map (fun c => { c with vars := v2 })) = .ok true := by
      apply impliesAllLoop_ok
      intro c' hc'
      obtain ⟨C, hC, rfl⟩ := List.mem_map.mp hc'
      rw [hpd] at hC
      obtain ⟨c0, hc0, rfl⟩ := List.mem_map.mp hC
      apply clause_implies_ok
      · rw [← hqsv]
      · rw [← hqsv]; exact hnd2
      · intro bi hbi
        rw [← hqsv] at hbi
        show fm_is_unsat ⟨c0.ineqs ++ [negate_inequality bi], v2⟩ = .ok true
        refine fm_is_unsat_mono (List.sublist_append_left _ _) ?_ ?_
        · intro i hi
          rcases List.mem_append.mp hi with hi' | hi'
          · exact wfIneq_mono (hwfP c0 hc0 i hi') (VExt_count hext12)
          · have hbieq : i = negate_inequality bi := by simpa using hi'
            subst hbieq
            exact wfIneq_negate (hwfQ qc hqcmem bi hbi)
        · exact fm_is_unsat_vars_ext hext12 (hidP c0 hc0) (hPclause c0 hc0)
    rw [hall] at hloop
    injection hloop with hh
    exact hh.symm
  · rw [hqshape] at himpl3
    have hfb : (do
        let (rc, _) ← parse_to_system_vars (.land P (.lnot Q)) v2
        is_unsat_dnf rc.clauses) = Except.ok r := himpl3
    cases h3 : parse_to_system_vars (.land P (.lnot Q)) v2 with
    | error e0 => rw [h3, ebind_error] at hfb; exact absurd hfb (by simp)
    | ok p3 =>
      obtain ⟨rc, v3⟩ := p3
      rw [h3, ebind_ok] at hfb
      have hfb2 : is_unsat_dnf rc.clauses = Except.ok r := hfb
      rw [hbrute rc v3 h3] at hfb2
      injection hfb2 with hh
      exact hh.symm

theorem ex_falso_implication_witness :
    parse_to_system (.land (.gt (.var "x") (.lit 0)) (.lt (.var "x") (.lit 0)))
        = .ok ⟨[⟨[⟨[⟨0, 1⟩], 0, true⟩, ⟨[⟨0, -1⟩], 0, true⟩],
            ⟨[("x", true)]⟩⟩]⟩ ∧
      is_unsat_dnf (⟨[⟨[⟨[⟨0, 1⟩], 0, true⟩, ⟨[⟨0, -1⟩], 0, true⟩],
            ⟨[("x", true)]⟩⟩]⟩ : ParseResult).clauses = .ok true ∧
      is_valid_implication
          (.land (.gt (.var "x") (.lit 0)) (.lt (.var "x") (.lit 0)))
          (.ge (.var "y") (.lit 5)) = .ok true ∧
      (true : Bool) = true :=
  ⟨by decide, by decide, by decide,
    ex_falso_implication
      (.land (.gt (.var "x") (.lit 0)) (.lt (.var "x") (.lit 0)))
      (.ge (.var "y") (.lit 5))
      ⟨[⟨[⟨[⟨0, 1⟩], 0, true⟩, ⟨[⟨0, -1⟩], 0, true⟩], ⟨[("x", true)]⟩⟩]⟩
      true (by decide) (by decide) (by decide)⟩

/-! ## Evaluation of parsed linear expressions -/

theorem coeffSum_congr (xs : List ℚ) {ρ ρ' : Nat → ℚ}
    (h : ∀ i, ρ i = ρ' i) : coeffSum xs ρ = coeffSum xs ρ' := by
  induction xs generalizing ρ ρ' with
  | nil => rfl
  | cons x rest ih =>
    rw [coeffSum, coeffSum, h 0, ih (fun i => h (i + 1))]

theorem coeffSum_addCoeffs (xs ys : List ℚ) (ρ : Nat → ℚ) :
    coeffSum (addCoeffs xs ys) ρ = coeffSum xs ρ + coeffSum ys ρ := by
  induction xs generalizing ys ρ with
  | nil => simp [addCoeffs, coeffSum]
  | cons x rest ih =>
    cases ys with
    | nil => simp [addCoeffs, coeffSum]
    | cons y ys' =>
      rw [addCoeffs, coeffSum, coeffSum, coeffSum, ih]
      ring

theorem coeffSum_map_neg (xs : List ℚ) (ρ : Nat → ℚ) :
    coeffSum (xs.map (fun c => -c)) ρ = -coeffSum xs ρ := by
  induction xs generalizing ρ with
  | nil => rw [List.map_nil]; rw [coeffSum]; ring
  | cons x rest ih =>
    rw [List.map_cons, coeffSum, coeffSum, ih]
    ring

theorem coeffSum_map_mul (xs : List ℚ) (k : ℚ) (ρ : Nat → ℚ) :
    coeffSum (xs.map (fun c => c * k)) ρ = coeffSum xs ρ * k := by
  induction xs generalizing ρ with
  | nil => rw [List.map_nil]; rw [coeffSum]; ring
  | cons x rest ih =>
    rw [List.map_cons, coeffSum, coeffSum, ih]
    ring

theorem coeffSum_single (i : Nat) (ρ : Nat → ℚ) :
    coeffSum (List.replicate i 0 ++ [1]) ρ = ρ i := by
  induction i generalizing ρ with
  | zero =>
    rw [List.replicate, List.nil_append, coeffSum, coeffSum]
    ring
  | succ n ih =>
    rw [List.replicate, List.cons_append, coeffSum, ih]
    ring

theorem coeffSum_all_zero {xs : List ℚ} (h : xs.all (fun c => c = 0) = true)
    (ρ : Nat → ℚ) : coeffSum xs ρ = 0 := by
  induction xs generalizing ρ with
  | nil => rfl
  | cons x rest ih =>
    rw [List.all_cons] at h
    obtain ⟨hx, hrest⟩ := Bool.and_eq_true_iff.mp h
    rw [coeffSum, ih hrest]
    have : x = 0 := by simpa using hx
    rw [this]
    ring

theorem evalLE_add_expr (a b : LinearExpr) (ρ : Nat → ℚ) :
    evalLE (add_expr a b) ρ = evalLE a ρ + evalLE b ρ := by
  rw [evalLE, evalLE, evalLE, add_expr]
  show coeffSum (addCoeffs a.coeffs b.coeffs) ρ + (a.constant + b.constant) = _
  rw [coeffSum_addCoeffs]
  ring

theorem evalLE_negate_expr (a : LinearExpr) (ρ : Nat → ℚ) :
    evalLE (negate_expr a) ρ = -evalLE a ρ := by
  rw [evalLE, evalLE, negate_expr]
  show coeffSum (a.coeffs.map (fun c => -c)) ρ + -a.constant = _
  rw [coeffSum_map_neg]
  ring

theorem evalLE_sub_expr (a b : LinearExpr) (ρ : Nat → ℚ) :
    evalLE (sub_expr a b) ρ = evalLE a ρ - evalLE b ρ := by
  rw [sub_expr, evalLE_add_expr, evalLE_negate_expr]
  ring

theorem evalLE_scale_expr (a : LinearExpr) (k : ℚ) (ρ : Nat → ℚ) :
    evalLE (scale_expr a k) ρ = evalLE a ρ * k := by
  rw [evalLE, evalLE, scale_expr]
  show coeffSum (a.coeffs.map (fun c => c * k)) ρ + a.constant * k = _
  rw [coeffSum_map_mul]
  ring

theorem evalLE_constant {a : LinearExpr} (h : is_constant_expr a = true)
    (ρ : Nat → ℚ) : evalLE a ρ = a.constant := by
  rw [evalLE, coeffSum_all_zero h]
  ring

theorem evalTerms_coeffsToTerms (xs : List ℚ) (k : Nat) (ρ : Nat → ℚ) :
    evalTerms (coeffsToTerms xs k) ρ = coeffSum xs (fun i => ρ (k + i)) := by
  induction xs generalizing k with
  | nil => rfl
  | cons c rest ih =>
    rw [coeffsToTerms, coeffSum]
    have hrest : coeffSum rest (fun i => ρ (k + (i + 1)))
        = coeffSum rest (fun i => ρ (k + 1 + i)) :=
      coeffSum_congr rest (fun i => by
        have : k + (i + 1) = k + 1 + i := by omega
        rw [this])
    by_cases hc : c = 0
    · rw [if_neg (by simpa using hc), ih, hc]
      rw [hrest]
      ring
    · rw [if_pos (by simpa using hc), evalTerms_cons, ih]
      rw [hrest]
      ring

theorem evalIneq_to_inequality (lhs rhs : LinearExpr) (s : Bool)
    (ρ : Nat → ℚ) :
    evalIneq ρ (to_inequality lhs rhs s) = evalLE lhs ρ - evalLE rhs ρ := by
  rw [evalIneq, to_inequality]
  show evalTerms (coeffsToTerms (sub_expr lhs rhs).coeffs 0) ρ
      + (sub_expr lhs rhs).constant = _
  rw [evalTerms_coeffsToTerms]
  have : coeffSum (sub_expr lhs rhs).coeffs (fun i => ρ (0 + i))
      = coeffSum (sub_expr lhs rhs).coeffs ρ :=
    coeffSum_congr _ (fun i => by rw [Nat.zero_add])
  rw [this]
  show evalLE (sub_expr lhs rhs) ρ = _
  rw [evalLE_sub_expr]

theorem to_inequality_strict (lhs rhs : LinearExpr) (s : Bool) :
    (to_inequality lhs rhs s).strict = s := rfl

theorem holds_to_inequality (lhs rhs : LinearExpr) (s : Bool) (ρ : Nat → ℚ) :
    holds ρ (to_inequality lhs rhs s) ↔
      (if s then evalLE rhs ρ < evalLE lhs ρ
       else evalLE rhs ρ ≤ evalLE lhs ρ) := by
  rw [holds, to_inequality_strict, evalIneq_to_inequality]
  cases s with
  | true => rw [if_pos rfl, if_pos rfl]; exact sub_pos
  | false => rw [if_neg (by simp), if_neg (by simp)]; exact sub_nonneg

/-! ## Stability of the reference semantics under registry extension -/

theorem aval_ext {e : Expr} {v w : VarInfo} (hext : VExt v w)
    (hreg : ∀ n ∈ exprVars e, ∃ i, v.find n = some i) (ρ : Nat → ℚ) :
    aval e v ρ = aval e w ρ := by
  induction e with
  | lit c => rfl
  | var n =>
    obtain ⟨i, hi⟩ := hreg n (by simp [exprVars])
    rw [aval, aval, hi, find_mono hext hi]
  | add a b iha ihb =>
    rw [aval, aval,
      iha (fun n hn => hreg n (by simp [exprVars, hn])),
      ihb (fun n hn => hreg n (by simp [exprVars, hn]))]
  | sub a b iha ihb =>
    rw [aval, aval,
      iha (fun n hn => hreg n (by simp [exprVars, hn])),
      ihb (fun n hn => hreg n (by simp [exprVars, hn]))]
  | mul a b iha ihb =>
    rw [aval, aval,
      iha (fun n hn => hreg n (by simp [exprVars, hn])),
      ihb (fun n hn => hreg n (by simp [exprVars, hn]))]
  | div a b iha ihb =>
    rw [aval, aval,
      iha (fun n hn => hreg n (by simp [exprVars, hn])),
      ihb (fun n hn => hreg n (by simp [exprVars, hn]))]
  | neg a iha =>
    rw [aval, aval, iha (fun n hn => hreg n (by simp [exprVars, hn]))]
  | eq a b _ _ => rfl
  | lt a b _ _ => rfl
  | gt a b _ _ => rfl
  | le a b _ _ => rfl
  | ge a b _ _ => rfl
  | land a b _ _ => rfl
  | lor a b _ _ => rfl
  | lnot a _ => rfl

theorem semF_ext {e : Expr} {v w : VarInfo} (hext : VExt v w)
    (hreg : ∀ n ∈ exprVars e, ∃ i, v.find n = some i) (ρ : Nat → ℚ) :
    semF e v ρ ↔ semF e w ρ := by
  induction e with
  | lit c => exact Iff.rfl
  | var n => exact Iff.rfl
  | add a b _ _ => exact Iff.rfl
  | sub a b _ _ => exact Iff.rfl
  | mul a b _ _ => exact Iff.rfl
  | div a b _ _ => exact Iff.rfl
  | neg a _ => exact Iff.rfl
  | eq a b _ _ =>
    rw [semF, semF,
      aval_ext hext (fun n hn => hreg n (by simp [exprVars, hn])) ρ
        (e := a),
      aval_ext hext (fun n hn => hreg n (by simp [exprVars, hn])) ρ
        (e := b)]
  | lt a b _ _ =>
    rw [semF, semF,
      aval_ext hext (fun n hn => hreg n (by simp [exprVars, hn])) ρ
        (e := a),
      aval_ext hext (fun n hn => hreg n (by simp [exprVars, hn])) ρ
        (e := b)]
  | gt a b _ _ =>
    rw [semF, semF,
      aval_ext hext (fun n hn => hreg n (by simp [exprVars, hn])) ρ
        (e := a),
      aval_ext hext (fun n hn => hreg n (by simp [exprVars, hn])) ρ
        (e := b)]
  | le a b _ _ =>
    rw [semF, semF,
      aval_ext hext (fun n hn => hreg n (by simp [exprVars, hn])) ρ
        (e := a),
      aval_ext hext (fun n hn => hreg n (by simp [exprVars, hn])) ρ
        (e := b)]
  | ge a b _ _ =>
    rw [semF, semF,
      aval_ext hext (fun n hn => hreg n (by simp [exprVars, hn])) ρ
        (e := a),
      aval_ext hext (fun n hn => hreg n (by simp [exprVars, hn])) ρ
        (e := b)]
  | land a b iha ihb =>
    rw [semF, semF]
    exact and_congr (iha (fun n hn => hreg n (by simp [exprVars, hn])))
      (ihb (fun n hn => hreg n (by simp [exprVars, hn])))
  | lor a b iha ihb =>
    rw [semF, semF]
    exact or_congr (iha (fun n hn => hreg n (by simp [exprVars, hn])))
      (ihb (fun n hn => hreg n (by simp [exprVars, hn])))
  | lnot a iha =>
    rw [semF, semF]
    exact not_congr (iha (fun n hn => hreg n (by simp [exprVars, hn])))

/-! ## Semantic soundness of the arithmetic parser -/

theorem parse_arith_eval {e : Expr} {v : VarInfo} {le : LinearExpr}
    {v' : VarInfo} (h : parse_arith e v = .ok (le, v')) (ρ : Nat → ℚ) :
    evalLE le ρ = aval e v' ρ := by
  induction e generalizing v le v' with
  | lit c =>
    simp only [parse_arith, Except.ok.injEq, Prod.mk.injEq] at h
    obtain ⟨hle, hv⟩ := h
    subst hle hv
    rw [aval, evalLE]
    show coeffSum [] ρ + c = c
    rw [coeffSum]
    ring
  | var n =>
    simp only [parse_arith, Except.ok.injEq, Prod.mk.injEq] at h
    obtain ⟨hle, hv⟩ := h
    subst hle hv
    rw [aval, find_or_add_find, evalLE]
    show coeffSum (List.replicate (v.find_or_add n true).1 0 ++ [1]) ρ + 0
        = ρ (v.find_or_add n true).1
    rw [coeffSum_single, add_zero]
  | add a b iha ihb =>
    simp only [parse_arith] at h
    cases ha : parse_arith a v with
    | error e0 => rw [ha, ebind_error] at h; exact absurd h (by simp)
    | ok p =>
      obtain ⟨la, v1⟩ := p
      rw [ha, ebind_ok] at h
      cases hb : parse_arith b v1 with
      | error e0 => rw [hb, ebind_error] at h; exact absurd h (by simp)
      | ok q =>
        obtain ⟨lb, v2⟩ := q
        rw [hb, ebind_ok] at h
        simp only [Except.ok.injEq, Prod.mk.injEq] at h
        obtain ⟨hle, hv⟩ := h
        subst hle hv
        obtain ⟨-, -, reg1, -, -⟩ := parse_arith_inv ha
        obtain ⟨ext2, -, -, -, -⟩ := parse_arith_inv hb
        rw [evalLE_add_expr, iha ha, ihb hb, aval,
          aval_ext ext2 reg1 ρ]
  | sub a b iha ihb =>
    simp only [parse_arith] at h
    cases ha : parse_arith a v with
    | error e0 => rw [ha, ebind_error] at h; exact absurd h (by simp)
    | ok p =>
      obtain ⟨la, v1⟩ := p
      rw [ha, ebind_ok] at h
      cases hb : parse_arith b v1 with
      | error e0 => rw [hb, ebind_error] at h; exact absurd h (by simp)
      | ok q =>
        obtain ⟨lb, v2⟩ := q
        rw [hb, ebind_ok] at h
        simp only [Except.ok.injEq, Prod.mk.injEq] at h
        obtain ⟨hle, hv⟩ := h
        subst hle hv
        obtain ⟨-, -, reg1, -, -⟩ := parse_arith_inv ha
        obtain ⟨ext2, -, -, -, -⟩ := parse_arith_inv hb
        rw [evalLE_sub_expr, iha ha, ihb hb, aval,
          aval_ext ext2 reg1 ρ]
  | neg a iha =>
    simp only [parse_arith] at h
    cases ha : parse_arith a v with
    | error e0 => rw [ha, ebind_error] at h; exact absurd h (by simp)
    | ok p =>
      obtain ⟨la, v1⟩ := p
      rw [ha, ebind_ok] at h
      simp only [Except.ok.injEq, Prod.mk.injEq] at h
      obtain ⟨hle, hv⟩ := h
      subst hle hv
      rw [evalLE_negate_expr, iha ha, aval]
  | mul a b iha ihb =>
    simp only [parse_arith] at h
    cases ha : parse_arith a v with
    | error e0 => rw [ha, ebind_error] at h; exact absurd h (by simp)
    | ok p =>
      obtain ⟨la, v1⟩ := p
      rw [ha, ebind_ok] at h
      cases hb : parse_arith b v1 with
      | error e0 => rw [hb, ebind_error] at h; exact absurd h (by simp)
      | ok q =>
        obtain ⟨lb, v2⟩ := q
        rw [hb, ebind_ok] at h
        obtain ⟨-, -, reg1, -, -⟩ := parse_arith_inv ha
        obtain ⟨ext2, -, -, -, -⟩ := parse_arith_inv hb
        by_cases hca : is_constant_expr la = true
        · rw [if_pos hca] at h
          simp only [Except.ok.injEq, Prod.mk.injEq] at h
          obtain ⟨hle, hv⟩ := h
          subst hle hv
          rw [evalLE_scale_expr, ihb hb, aval, ← aval_ext ext2 reg1 ρ,
            ← iha ha, evalLE_constant hca]
          ring
        · rw [if_neg hca] at h
          by_cases hcb : is_constant_expr lb = true
          · rw [if_pos hcb] at h
            simp only [Except.ok.injEq, Prod.mk.injEq] at h
            obtain ⟨hle, hv⟩ := h
            subst hle hv
            rw [evalLE_scale_expr, iha ha, aval, ← aval_ext ext2 reg1 ρ,
              ← ihb hb, evalLE_constant hcb]
          · rw [if_neg hcb] at h
            exact absurd h (by simp)
  | div a b iha ihb =>
    simp only [parse_arith] at h
    cases ha : parse_arith a v with
    | error e0 => rw [ha, ebind_error] at h; exact absurd h (by simp)
    | ok p =>
      obtain ⟨la, v1⟩ := p
      rw [ha, ebind_ok] at h
      cases hb : parse_arith b v1 with
      | error e0 => rw [hb, ebind_error] at h; exact absurd h (by simp)
      | ok q =>
        obtain ⟨lb, v2⟩ := q
        rw [hb, ebind_ok] at h
        obtain ⟨-, -, reg1, -, -⟩ := parse_arith_inv ha
        obtain ⟨ext2, -, -, -, -⟩ := parse_arith_inv hb
        by_cases hcb : is_constant_expr lb = true
        · rw [if_neg (by simp [hcb])] at h
          by_cases h0 : lb.constant = 0
          · rw [if_pos h0] at h
            exact absurd h (by simp)
          · rw [if_neg h0] at h
            simp only [Except.ok.injEq, Prod.mk.injEq] at h
            obtain ⟨hle, hv⟩ := h
            subst hle hv
            rw [evalLE_scale_expr, iha ha, aval, ← aval_ext ext2 reg1 ρ]
            rw [show aval b v2 ρ = lb.constant from by
              rw [← ihb hb, evalLE_constant hcb]]
            rw [mul_one_div]
        · rw [if_pos (by simp [hcb])] at h
          exact absurd h (by simp)
  | eq a b _ _ => simp [parse_arith] at h
  | lt a b _ _ => simp [parse_arith] at h
  | gt a b _ _ => simp [parse_arith] at h
  | le a b _ _ => simp [parse_arith] at h
  | ge a b _ _ => simp [parse_arith] at h
  | land a b _ _ => simp [parse_arith] at h
  | lor a b _ _ => simp [parse_arith] at h
  | lnot a _ => simp [parse_arith] at h

theorem parse_comparison_parts {t : CmpKind} {l r : Expr} {v : VarInfo}
    {neg : Bool} {res : ParseResult} {v₂ : VarInfo}
    (h : parse_comparison t l r v neg = .ok (res, v₂)) :
    ∃ lhs v1 rhs, parse_arith l v = .ok (lhs, v1) ∧
      parse_arith r v1 = .ok (rhs, v₂) ∧
      res = (if t = .ceq ∧ !neg then
               single_clause ⟨[to_inequality lhs rhs false,
                 to_inequality rhs lhs false], v₂⟩
             else if t = .ceq ∧ neg then
               ⟨[⟨[to_inequality rhs lhs true], v₂⟩,
                 ⟨[to_inequality lhs rhs true], v₂⟩]⟩
             else
               single_clause ⟨[if (t = .cgt ∧ !neg) ∨ (t = .cle ∧ neg) then
                   to_inequality lhs rhs true
                 else if (t = .cge ∧ !neg) ∨ (t = .clt ∧ neg) then
                   to_inequality lhs rhs false
                 else if (t = .clt ∧ !neg) ∨ (t = .cge ∧ neg) then
                   to_inequality rhs lhs true
                 else to_inequality rhs lhs false], v₂⟩) := by
  simp only [parse_comparison] at h
  cases ha : parse_arith l v with
  | error e0 => rw [ha, ebind_error] at h; exact absurd h (by simp)
  | ok p =>
  obtain ⟨lhs, v1⟩ := p
  rw [ha, ebind_ok] at h
  cases hb : parse_arith r v1 with
  | error e0 => rw [hb, ebind_error] at h; exact absurd h (by simp)
  | ok q =>
  obtain ⟨rhs, v2m⟩ := q
  rw [hb, ebind_ok] at h
  by_cases hA : t = CmpKind.ceq ∧ !neg
  · rw [if_pos hA] at h
    simp only [Except.ok.injEq, Prod.mk.injEq] at h
    obtain ⟨hres, hv⟩ := h
    subst hv
    exact ⟨lhs, v1, rhs, rfl, hb, by rw [if_pos hA, ← hres]⟩
  · rw [if_neg hA] at h
    by_cases hB : t = CmpKind.ceq ∧ neg
    · rw [if_pos hB] at h
      simp only [Except.ok.injEq, Prod.mk.injEq] at h
      obtain ⟨hres, hv⟩ := h
      subst hv
      exact ⟨lhs, v1, rhs, rfl, hb, by rw [if_neg hA, if_pos hB, ← hres]⟩
    · rw [if_neg hB] at h
      simp only [Except.ok.injEq, Prod.mk.injEq] at h
      obtain ⟨hres, hv⟩ := h
      subst hv
      exact ⟨lhs, v1, rhs, rfl, hb, by rw [if_neg hA, if_neg hB, ← hres]⟩

theorem parse_comparison_sound_pos {t : CmpKind} {l r : Expr} {v : VarInfo}
    {res : ParseResult} {v₂ : VarInfo}
    (h : parse_comparison t l r v false = .ok (res, v₂))
    {C : InequalitySystem} (hC : C ∈ res.clauses) {ρ : Nat → ℚ}
    (hsat : satList ρ C.ineqs) :
    match t with
    | .ceq => aval l v₂ ρ = aval r v₂ ρ
    | .clt => aval l v₂ ρ < aval r v₂ ρ
    | .cgt => aval r v₂ ρ < aval l v₂ ρ
    | .cle => aval l v₂ ρ ≤ aval r v₂ ρ
    | .cge => aval r v₂ ρ ≤ aval l v₂ ρ := by
  obtain ⟨lhs, v1, rhs, ha, hb, hres⟩ := parse_comparison_parts h
  obtain ⟨-, -, regL, -, -⟩ := parse_arith_inv ha
  obtain ⟨extR, -, -, -, -⟩ := parse_arith_inv hb
  have hL : evalLE lhs ρ = aval l v₂ ρ := by
    rw [parse_arith_eval ha ρ, aval_ext extR regL ρ]
  have hR : evalLE rhs ρ = aval r v₂ ρ := parse_arith_eval hb ρ
  cases t with
  | ceq =>
    rw [if_pos (by decide)] at hres
    subst hres
    simp only [single_clause, List.mem_singleton] at hC
    subst hC
    have hh1 : holds ρ (to_inequality lhs rhs false) := hsat _ (by simp)
    have hh2 : holds ρ (to_inequality rhs lhs false) := hsat _ (by simp)
    rw [holds_to_inequality, if_neg (by simp)] at hh1 hh2
    show aval l v₂ ρ = aval r v₂ ρ
    rw [← hL, ← hR]
    exact le_antisymm hh2 hh1
  | clt =>
    rw [if_neg (by decide), if_neg (by decide)] at hres
    subst hres
    simp only [single_clause, List.mem_singleton] at hC
    subst hC
    have hh : holds ρ (to_inequality rhs lhs true) := by
      have := hsat _ (List.mem_singleton_self _)
      rwa [if_neg (by decide), if_neg (by decide), if_pos (by decide)] at this
    rw [holds_to_inequality, if_pos rfl] at hh
    show aval l v₂ ρ < aval r v₂ ρ
    rw [← hL, ← hR]
    exact hh
  | cgt =>
    rw [if_neg (by decide), if_neg (by decide)] at hres
    subst hres
    simp only [single_clause, List.mem_singleton] at hC
    subst hC
    have hh : holds ρ (to_inequality lhs rhs true) := by
      have := hsat _ (List.mem_singleton_self _)
      rwa [if_pos (by decide)] at this
    rw [holds_to_inequality, if_pos rfl] at hh
    show aval r v₂ ρ < aval l v₂ ρ
    rw [← hL, ← hR]
    exact hh
  | cle =>
    rw [if_neg (by decide), if_neg (by decide)] at hres
    subst hres
    simp only [single_clause, List.mem_singleton] at hC
    subst hC
    have hh : holds ρ (to_inequality rhs lhs false) := by
      have := hsat _ (List.mem_singleton_self _)
      rwa [if_neg (by decide), if_neg (by decide), if_neg (by decide)] at this
    rw [holds_to_inequality, if_neg (by simp)] at hh
    show aval l v₂ ρ ≤ aval r v₂ ρ
    rw [← hL, ← hR]
    exact hh
  | cge =>
    rw [if_neg (by decide), if_neg (by decide)] at hres
    subst hres
    simp only [single_clause, List.mem_singleton] at hC
    subst hC
    have hh : holds ρ (to_inequality lhs rhs false) := by
      have := hsat _ (List.mem_singleton_self _)
      rwa [if_neg (by decide), if_pos (by decide)] at this
    rw [holds_to_inequality, if_neg (by simp)] at hh
    show aval r v₂ ρ ≤ aval l v₂ ρ
    rw [← hL, ← hR]
    exact hh

theorem parse_comparison_sound_neg {t : CmpKind} {l r : Expr} {v : VarInfo}
    {res : ParseResult} {v₂ : VarInfo}
    (h : parse_comparison t l r v true = .ok (res, v₂))
    {C : InequalitySystem} (hC : C ∈ res.clauses) {ρ : Nat → ℚ}
    (hsat : satList ρ C.ineqs) :
    match t with
    | .ceq => ¬ aval l v₂ ρ = aval r v₂ ρ
    | .clt => ¬ aval l v₂ ρ < aval r v₂ ρ
    | .cgt => ¬ aval r v₂ ρ < aval l v₂ ρ
    | .cle => ¬ aval l v₂ ρ ≤ aval r v₂ ρ
    | .cge => ¬ aval r v₂ ρ ≤ aval l v₂ ρ := by
  obtain ⟨lhs, v1, rhs, ha, hb, hres⟩ := parse_comparison_parts h
  obtain ⟨-, -, regL, -, -⟩ := parse_arith_inv ha
  obtain ⟨extR, -, -, -, -⟩ := parse_arith_inv hb
  have hL : evalLE lhs ρ = aval l v₂ ρ := by
    rw [parse_arith_eval ha ρ, aval_ext extR regL ρ]
  have hR : evalLE rhs ρ = aval r v₂ ρ := parse_arith_eval hb ρ
  cases t with
  | ceq =>
    rw [if_neg (by decide), if_pos (by decide)] at hres
    subst hres
    simp only [List.mem_cons, List.mem_singleton, List.not_mem_nil,
      or_false] at hC
    show ¬ aval l v₂ ρ = aval r v₂ ρ
    rcases hC with hC | hC
    · subst hC
      have hh : holds ρ (to_inequality rhs lhs true) := hsat _ (by simp)
      rw [holds_to_inequality, if_pos rfl] at hh
      rw [← hL, ← hR]
      exact ne_of_lt hh
    · subst hC
      have hh : holds ρ (to_inequality lhs rhs true) := hsat _ (by simp)
      rw [holds_to_inequality, if_pos rfl] at hh
      rw [← hL, ← hR]
      exact ne_of_gt hh
  | clt =>
    rw [if_neg (by decide), if_neg (by decide)] at hres
    subst hres
    simp only [single_clause, List.mem_singleton] at hC
    subst hC
    have hh : holds ρ (to_inequality lhs rhs false) := by
      have := hsat _ (List.mem_singleton_self _)
      rwa [if_neg (by decide), if_pos (by decide)] at this
    rw [holds_to_inequality, if_neg (by simp)] at hh
    show ¬ aval l v₂ ρ < aval r v₂ ρ
    rw [← hL, ← hR]
    exact not_lt.mpr hh
  | cgt =>
    rw [if_neg (by decide), if_neg (by decide)] at hres
    subst hres
    simp only [single_clause, List.mem_singleton] at hC
    subst hC
    have hh : holds ρ (to_inequality rhs lhs false) := by
      have := hsat _ (List.mem_singleton_self _)
      rwa [if_neg (by decide), if_neg (by decide), if_neg (by decide)] at this
    rw [holds_to_inequality, if_neg (by simp)] at hh
    show ¬ aval r v₂ ρ < aval l v₂ ρ
    rw [← hL, ← hR]
    exact not_lt.mpr hh
  | cle =>
    rw [if_neg (by decide), if_neg (by decide)] at hres
    subst hres
    simp only [single_clause, List.mem_singleton] at hC
    subst hC
    have hh : holds ρ (to_inequality lhs rhs true) := by
      have := hsat _ (List.mem_singleton_self _)
      rwa [if_pos (by decide)] at this
    rw [holds_to_inequality, if_pos rfl] at hh
    show ¬ aval l v₂ ρ ≤ aval r v₂ ρ
    rw [← hL, ← hR]
    exact not_le.mpr hh
  | cge =>
    rw [if_neg (by decide), if_neg (by decide)] at hres
    subst hres
    simp only [single_clause, List.mem_singleton] at hC
    subst hC
    have hh : holds ρ (to_inequality rhs lhs true) := by
      have := hsat _ (List.mem_singleton_self _)
      rwa [if_neg (by decide), if_neg (by decide), if_pos (by decide)] at this
    rw [holds_to_inequality, if_pos rfl] at hh
    show ¬ aval r v₂ ρ ≤ aval l v₂ ρ
    rw [← hL, ← hR]
    exact not_le.mpr hh

theorem parse_comparison_total {t : CmpKind} {l r : Expr} {v : VarInfo}
    (neg : Bool) {lhs : LinearExpr} {v1 : VarInfo} {rhs : LinearExpr}
    {v₂ : VarInfo} (ha : parse_arith l v = .ok (lhs, v1))
    (hb : parse_arith r v1 = .ok (rhs, v₂)) :
    ∃ res, parse_comparison t l r v neg = .ok (res, v₂) := by
  simp only [parse_comparison, ha, ebind_ok, hb]
  by_cases hA : t = CmpKind.ceq ∧ !neg
  · rw [if_pos hA]; exact ⟨_, rfl⟩
  · rw [if_neg hA]
    by_cases hB : t = CmpKind.ceq ∧ neg
    · rw [if_pos hB]; exact ⟨_, rfl⟩
    · rw [if_neg hB]; exact ⟨_, rfl⟩

theorem parse_formula_negated_total (e : Expr) :
    (∀ v r v', parse_formula e v = .ok (r, v') →
      ∃ rn, parse_negated e v = .ok (rn, v')) ∧
    (∀ v r v', parse_negated e v = .ok (r, v') →
      ∃ rf, parse_formula e v = .ok (rf, v')) := by
  induction e with
  | lit c =>
    exact ⟨fun v r v' h => by simp [parse_formula] at h,
      fun v r v' h => by simp [parse_negated] at h⟩
  | var n =>
    exact ⟨fun v r v' h => by simp [parse_formula] at h,
      fun v r v' h => by simp [parse_negated] at h⟩
  | add a b _ _ =>
    exact ⟨fun v r v' h => by simp [parse_formula] at h,
      fun v r v' h => by simp [parse_negated] at h⟩
  | sub a b _ _ =>
    exact ⟨fun v r v' h => by simp [parse_formula] at h,
      fun v r v' h => by simp [parse_negated] at h⟩
  | neg a _ =>
    exact ⟨fun v r v' h => by simp [parse_formula] at h,
      fun v r v' h => by simp [parse_negated] at h⟩
  | mul a b _ _ =>
    exact ⟨fun v r v' h => by simp [parse_formula] at h,
      fun v r v' h => by simp [parse_negated] at h⟩
  | div a b _ _ =>
    exact ⟨fun v r v' h => by simp [parse_formula] at h,
      fun v r v' h => by simp [parse_negated] at h⟩
  | eq a b _ _ =>
    constructor
    · intro v r v' h
      obtain ⟨lhs, v1, rhs, ha, hb, -⟩ := parse_comparison_parts h
      exact parse_comparison_total true ha hb
    · intro v r v' h
      obtain ⟨lhs, v1, rhs, ha, hb, -⟩ := parse_comparison_parts h
      exact parse_comparison_total false ha hb
  | lt a b _ _ =>
    constructor
    · intro v r v' h
      obtain ⟨lhs, v1, rhs, ha, hb, -⟩ := parse_comparison_parts h
      exact parse_comparison_total true ha hb
    · intro v r v' h
      obtain ⟨lhs, v1, rhs, ha, hb, -⟩ := parse_comparison_parts h
      exact parse_comparison_total false ha hb
  | gt a b _ _ =>
    constructor
    · intro v r v' h
      obtain ⟨lhs, v1, rhs, ha, hb, -⟩ := parse_comparison_parts h
      exact parse_comparison_total true ha hb
    · intro v r v' h
      obtain ⟨lhs, v1, rhs, ha, hb, -⟩ := parse_comparison_parts h
      exact parse_comparison_total false ha hb
  | le a b _ _ =>
    constructor
    · intro v r v' h
      obtain ⟨lhs, v1, rhs, ha, hb, -⟩ := parse_comparison_parts h
      exact parse_comparison_total true ha hb
    · intro v r v' h
      obtain ⟨lhs, v1, rhs, ha, hb, -⟩ := parse_comparison_parts h
      exact parse_comparison_total false ha hb
  | ge a b _ _ =>
    constructor
    · intro v r v' h
      obtain ⟨lhs, v1, rhs, ha, hb, -⟩ := parse_comparison_parts h
      exact parse_comparison_total true ha hb
    · intro v r v' h
      obtain ⟨lhs, v1, rhs, ha, hb, -⟩ := parse_comparison_parts h
      exact parse_comparison_total false ha hb
  | land a b iha ihb =>
    constructor
    · intro v r v' h
      simp only [parse_formula] at h
      cases hA : parse_formula a v with
      | error e0 => rw [hA, ebind_error] at h; exact absurd h (by simp)
      | ok p =>
      obtain ⟨ra, va⟩ := p
      rw [hA, ebind_ok] at h
      cases hB : parse_formula b va with
      | error e0 => rw [hB, ebind_error] at h; exact absurd h (by simp)
      | ok q =>
      obtain ⟨rb, vb⟩ := q
      rw [hB, ebind_ok] at h
      simp only [Except.ok.injEq, Prod.mk.injEq] at h
      obtain ⟨-, hv⟩ := h
      subst hv
      obtain ⟨na, hna⟩ := iha.1 v ra va hA
      obtain ⟨nb, hnb⟩ := ihb.1 va rb vb hB
      refine ⟨disjoin na nb, ?_⟩
      simp only [parse_negated, hna, ebind_ok, hnb]
    · intro v r v' h
      simp only [parse_negated] at h
      cases hA : parse_negated a v with
      | error e0 => rw [hA, ebind_error] at h; exact absurd h (by simp)
      | ok p =>
      obtain ⟨ra, va⟩ := p
      rw [hA, ebind_ok] at h
      cases hB : parse_negated b va with
      | error e0 => rw [hB, ebind_error] at h; exact absurd h (by simp)
      | ok q =>
      obtain ⟨rb, vb⟩ := q
      rw [hB, ebind_ok] at h
      simp only [Except.ok.injEq, Prod.mk.injEq] at h
      obtain ⟨-, hv⟩ := h
      subst hv
      obtain ⟨na, hna⟩ := iha.2 v ra va hA
      obtain ⟨nb, hnb⟩ := ihb.2 va rb vb hB
      refine ⟨conjoin na nb, ?_⟩
      simp only [parse_formula, hna, ebind_ok, hnb]
  | lor a b iha ihb =>
    constructor
    · intro v r v' h
      simp only [parse_formula] at h
      cases hA : parse_formula a v with
      | error e0 => rw [hA, ebind_error] at h; exact absurd h (by simp)
      | ok p =>
      obtain ⟨ra, va⟩ := p
      rw [hA, ebind_ok] at h
      cases hB : parse_formula b va with
      | error e0 => rw [hB, ebind_error] at h; exact absurd h (by simp)
      | ok q =>
      obtain ⟨rb, vb⟩ := q
      rw [hB, ebind_ok] at h
      simp only [Except.ok.injEq, Prod.mk.injEq] at h
      obtain ⟨-, hv⟩ := h
      subst hv
      obtain ⟨na, hna⟩ := iha.1 v ra va hA
      obtain ⟨nb, hnb⟩ := ihb.1 va rb vb hB
      refine ⟨conjoin na nb, ?_⟩
      simp only [parse_negated, hna, ebind_ok, hnb]
    · intro v r v' h
      simp only [parse_negated] at h
      cases hA : parse_negated a v with
      | error e0 => rw [hA, ebind_error] at h; exact absurd h (by simp)
      | ok p =>
      obtain ⟨ra, va⟩ := p
      rw [hA, ebind_ok] at h
      cases hB : parse_negated b va with
      | error e0 => rw [hB, ebind_error] at h; exact absurd h (by simp)
      | ok q =>
      obtain ⟨rb, vb⟩ := q
      rw [hB, ebind_ok] at h
      simp only [Except.ok.injEq, Prod.mk.injEq] at h
      obtain ⟨-, hv⟩ := h
      subst hv
      obtain ⟨na, hna⟩ := iha.2 v ra va hA
      obtain ⟨nb, hnb⟩ := ihb.2 va rb vb hB
      refine ⟨disjoin na nb, ?_⟩
      simp only [parse_formula, hna, ebind_ok, hnb]
  | lnot a iha =>
    constructor
    · intro v r v' h
      rw [show parse_formula (.lnot a) v = parse_negated a v from rfl] at h
      obtain ⟨rf, hrf⟩ := iha.2 v r v' h
      exact ⟨rf, by rw [show parse_negated (.lnot a) v
        = parse_formula a v from rfl, hrf]⟩
    · intro v r v' h
      rw [show parse_negated (.lnot a) v = parse_formula a v from rfl] at h
      obtain ⟨rn, hrn⟩ := iha.1 v r v' h
      exact ⟨rn, by rw [show parse_formula (.lnot a) v
        = parse_negated a v from rfl, hrn]⟩

theorem parse_sound (e : Expr) :
    (∀ v r v', parse_formula e v = .ok (r, v') →
      ∀ C ∈ r.clauses, ∀ ρ, satList ρ C.ineqs → semF e v' ρ) ∧
    (∀ v r v', parse_negated e v = .ok (r, v') →
      ∀ C ∈ r.clauses, ∀ ρ, satList ρ C.ineqs → ¬ semF e v' ρ) := by
  induction e with
  | lit c =>
    exact ⟨fun v r v' h => by simp [parse_formula] at h,
      fun v r v' h => by simp [parse_negated] at h⟩
  | var n =>
    exact ⟨fun v r v' h => by simp [parse_formula] at h,
      fun v r v' h => by simp [parse_negated] at h⟩
  | add a b _ _ =>
    exact ⟨fun v r v' h => by simp [parse_formula] at h,
      fun v r v' h => by simp [parse_negated] at h⟩
  | sub a b _ _ =>
    exact ⟨fun v r v' h => by simp [parse_formula] at h,
      fun v r v' h => by simp [parse_negated] at h⟩
  | neg a _ =>
    exact ⟨fun v r v' h => by simp [parse_formula] at h,
      fun v r v' h => by simp [parse_negated] at h⟩
  | mul a b _ _ =>
    exact ⟨fun v r v' h => by simp [parse_formula] at h,
      fun v r v' h => by simp [parse_negated] at h⟩
  | div a b _ _ =>
    exact ⟨fun v r v' h => by simp [parse_formula] at h,
      fun v r v' h => by simp [parse_negated] at h⟩
  | eq a b _ _ =>
    constructor
    · intro v r v' h C hC ρ hsat
      rw [semF]
      exact parse_comparison_sound_pos h hC hsat
    · intro v r v' h C hC ρ hsat
      rw [semF]
      exact parse_comparison_sound_neg h hC hsat
  | lt a b _ _ =>
    constructor
    · intro v r v' h C hC ρ hsat
      rw [semF]
      exact parse_comparison_sound_pos h hC hsat
    · intro v r v' h C hC ρ hsat
      rw [semF]
      exact parse_comparison_sound_neg h hC hsat
  | gt a b _ _ =>
    constructor
    · intro v r v' h C hC ρ hsat
      rw [semF]
      exact parse_comparison_sound_pos h hC hsat
    · intro v r v' h C hC ρ hsat
      rw [semF]
      exact parse_comparison_sound_neg h hC hsat
  | le a b _ _ =>
    constructor
    · intro v r v' h C hC ρ hsat
      rw [semF]
      exact parse_comparison_sound_pos h hC hsat
    · intro v r v' h C hC ρ hsat
      rw [semF]
      exact parse_comparison_sound_neg h hC hsat
  | ge a b _ _ =>
    constructor
    · intro v r v' h C hC ρ hsat
      rw [semF]
      exact parse_comparison_sound_pos h hC hsat
    · intro v r v' h C hC ρ hsat
      rw [semF]
      exact parse_comparison_sound_neg h hC hsat
  | land a b iha ihb =>
    constructor
    · intro v r v' h C hC ρ hsat
      simp only [parse_formula] at h
      cases hA : parse_formula a v with
      | error e0 => rw [hA, ebind_error] at h; exact absurd h (by simp)
      | ok p =>
      obtain ⟨ra, va⟩ := p
      rw [hA, ebind_ok] at h
      cases hB : parse_formula b va with
      | error e0 => rw [hB, ebind_error] at h; exact absurd h (by simp)
      | ok q =>
      obtain ⟨rb, vb⟩ := q
      rw [hB, ebind_ok] at h
      simp only [Except.ok.injEq, Prod.mk.injEq] at h
      obtain ⟨hr, hv⟩ := h
      subst hv
      rw [← hr] at hC
      obtain ⟨a', ha', b', hb', rfl⟩ := mem_conjoin.mp hC
      have hsata : satList ρ a'.ineqs := fun i hi =>
        hsat i (by rw [show (merge_systems a' b').ineqs
          = a'.ineqs ++ b'.ineqs from rfl]; exact List.mem_append_left _ hi)
      have hsatb : satList ρ b'.ineqs := fun i hi =>
        hsat i (by rw [show (merge_systems a' b').ineqs
          = a'.ineqs ++ b'.ineqs from rfl]; exact List.mem_append_right _ hi)
      obtain ⟨-, -, rega, -, -, -⟩ := (parse_inv a).1 _ _ _ hA
      obtain ⟨extb, -, -, -, -, -⟩ := (parse_inv b).1 _ _ _ hB
      rw [semF]
      constructor
      · rw [← semF_ext extb rega ρ]
        exact iha.1 v ra va hA a' ha' ρ hsata
      · exact ihb.1 va rb vb hB b' hb' ρ hsatb
    · intro v r v' h C hC ρ hsat
      simp only [parse_negated] at h
      cases hA : parse_negated a v with
      | error e0 => rw [hA, ebind_error] at h; exact absurd h (by simp)
      | ok p =>
      obtain ⟨ra, va⟩ := p
      rw [hA, ebind_ok] at h
      cases hB : parse_negated b va with
      | error e0 => rw [hB, ebind_error] at h; exact absurd h (by simp)
      | ok q =>
      obtain ⟨rb, vb⟩ := q
      rw [hB, ebind_ok] at h
      simp only [Except.ok.injEq, Prod.mk.injEq] at h
      obtain ⟨hr, hv⟩ := h
      subst hv
      rw [← hr] at hC
      rw [show (disjoin ra rb).clauses = ra.clauses ++ rb.clauses from rfl]
        at hC
      obtain ⟨-, -, rega, -, -, -⟩ := (parse_inv a).2 _ _ _ hA
      obtain ⟨extb, -, -, -, -, -⟩ := (parse_inv b).2 _ _ _ hB
      rw [semF]
      rcases List.mem_append.mp hC with hC' | hC'
      · intro hand
        have := iha.2 v ra va hA C hC' ρ hsat
        rw [semF_ext extb rega ρ] at this
        exact this hand.1
      · intro hand
        exact ihb.2 va rb vb hB C hC' ρ hsat hand.2
  | lor a b iha ihb =>
    constructor
    · intro v r v' h C hC ρ hsat
      simp only [parse_formula] at h
      cases hA : parse_formula a v with
      | error e0 => rw [hA, ebind_error] at h; exact absurd h (by simp)
      | ok p =>
      obtain ⟨ra, va⟩ := p
      rw [hA, ebind_ok] at h
      cases hB : parse_formula b va with
      | error e0 => rw [hB, ebind_error] at h; exact absurd h (by simp)
      | ok q =>
      obtain ⟨rb, vb⟩ := q
      rw [hB, ebind_ok] at h
      simp only [Except.ok.injEq, Prod.mk.injEq] at h
      obtain ⟨hr, hv⟩ := h
      subst hv
      rw [← hr] at hC
      rw [show (disjoin ra rb).clauses = ra.clauses ++ rb.clauses from rfl]
        at hC
      obtain ⟨-, -, rega, -, -, -⟩ := (parse_inv a).1 _ _ _ hA
      obtain ⟨extb, -, -, -, -, -⟩ := (parse_inv b).1 _ _ _ hB
      rw [semF]
      rcases List.mem_append.mp hC with hC' | hC'
      · left
        rw [← semF_ext extb rega ρ]
        exact iha.1 v ra va hA C hC' ρ hsat
      · right
        exact ihb.1 va rb vb hB C hC' ρ hsat
    · intro v r v' h C hC ρ hsat
      simp only [parse_negated] at h
      cases hA : parse_negated a v with
      | error e0 => rw [hA, ebind_error] at h; exact absurd h (by simp)
      | ok p =>
      obtain ⟨ra, va⟩ := p
      rw [hA, ebind_ok] at h
      cases hB : parse_negated b va with
      | error e0 => rw [hB, ebind_error] at h; exact absurd h (by simp)
      | ok q =>
      obtain ⟨rb, vb⟩ := q
      rw [hB, ebind_ok] at h
      simp only [Except.ok.injEq, Prod.mk.injEq] at h
      obtain ⟨hr, hv⟩ := h
      subst hv
      rw [← hr] at hC
      obtain ⟨a', ha', b', hb', rfl⟩ := mem_conjoin.mp hC
      have hsata : satList ρ a'.ineqs := fun i hi =>
        hsat i (by rw [show (merge_systems a' b').ineqs
          = a'.ineqs ++ b'.ineqs from rfl]; exact List.mem_append_left _ hi)
      have hsatb : satList ρ b'.ineqs := fun i hi =>
        hsat i (by rw [show (merge_systems a' b').ineqs
          = a'.ineqs ++ b'.ineqs from rfl]; exact List.mem_append_right _ hi)
      obtain ⟨-, -, rega, -, -, -⟩ := (parse_inv a).2 _ _ _ hA
      obtain ⟨extb, -, -, -, -, -⟩ := (parse_inv b).2 _ _ _ hB
      rw [semF]
      intro hor
      rcases hor with hsem | hsem
      · have := iha.2 v ra va hA a' ha' ρ hsata
        rw [semF_ext extb rega ρ] at this
        exact this hsem
      · exact ihb.2 va rb vb hB b' hb' ρ hsatb hsem
  | lnot a iha =>
    constructor
    · intro v r v' h C hC ρ hsat
      rw [show parse_formula (.lnot a) v = parse_negated a v from rfl] at h
      rw [semF]
      exact iha.2 v r v' h C hC ρ hsat
    · intro v r v' h C hC ρ hsat
      rw [show parse_negated (.lnot a) v = parse_formula a v from rfl] at h
      rw [semF]
      intro hn
      exact hn (iha.1 v r v' h C hC ρ hsat)

/-! ## C1: implication reflexivity -/

/-- C1: for every formula `P` accepted by the parser (within the embedding's
fragment), `is_valid_implication(P, P)` returns `true` — whether `P` is
satisfiable or not, on both the conjunctive fast path (single-clause `P`)
and the brute-force `P ∧ ¬P` fallback (multi-clause `P`). -/
theorem implication_reflexive (P : Expr) (pd : ParseResult)
    (hP : parse_to_system P = .ok pd) :
    is_valid_implication P P = .ok true := by
  obtain ⟨v1, h1⟩ := parse_to_system_vars_empty hP
  obtain ⟨r0, hp0, hpd⟩ := parse_to_system_vars_ok h1
  obtain ⟨hext01, hnd01, hregP, hwfP, hneP, hstabP⟩ :=
    (parse_inv P).1 _ _ _ hp0
  have hnd1 : nodupNames v1 := hnd01 nodupNames_empty
  obtain ⟨r2, hstabOk, hshapes⟩ := hstabP v1 (VExt_refl v1)
  have h2 : parse_to_system_vars P v1
      = .ok (⟨r2.clauses.map
          (fun c : InequalitySystem => { c with vars := v1 })⟩, v1) := by
    rw [parse_to_system_vars, hstabOk, ebind_ok]
  rw [is_valid_implication, is_valid_implication_impl, h1, ebind_ok]
  show (do
      let (q_dnf, v2) ← parse_to_system_vars P v1
      let pcs := pd.clauses.map
        (fun c : InequalitySystem => { c with vars := v2 })
      match q_dnf.clauses with
      | [qs] => impliesAllLoop qs pcs
      | _ => do
          let (rc, _) ← parse_to_system_vars (.land P (.lnot P)) v2
          is_unsat_dnf rc.clauses) = .ok true
  rw [h2, ebind_ok]
  show (match r2.clauses.map
      (fun c : InequalitySystem => { c with vars := v1 }) with
      | [qs] => impliesAllLoop qs (pd.clauses.map
          (fun c : InequalitySystem => { c with vars := v1 }))
      | _ => do
          let (rc, _) ← parse_to_system_vars (.land P (.lnot P)) v1
          is_unsat_dnf rc.clauses) = .ok true
  obtain ⟨rn, hrn⟩ := (parse_formula_negated_total P).1 v1 r2 v1 hstabOk
  have hland : parse_formula (.land P (.lnot P)) v1
      = .ok (conjoin r2 rn, v1) := by
    rw [show parse_formula (.land P (.lnot P)) v1 = (do
        let (l, va) ← parse_formula P v1
        let (rr, vb) ← parse_negated P va
        Except.ok (conjoin l rr, vb)) from rfl]
    rw [hstabOk, ebind_ok]
    show (do
        let (rr, vb) ← parse_negated P v1
        Except.ok (conjoin r2 rr, vb)) = _
    rw [hrn, ebind_ok]
  obtain ⟨-, -, -, hwfL, -, -⟩ :=
    (parse_inv (.land P (.lnot P))).1 _ _ _ hland
  have hpv : parse_to_system_vars (.land P (.lnot P)) v1
      = .ok (⟨(conjoin r2 rn).clauses.map
          (fun c : InequalitySystem => { c with vars := v1 })⟩, v1) := by
    rw [parse_to_system_vars, hland, ebind_ok]
  have hfb : (do
      let (rc, _) ← parse_to_system_vars (.land P (.lnot P)) v1
      is_unsat_dnf rc.clauses) = Except.ok true := by
    rw [hpv, ebind_ok]
    show is_unsat_dnf ((conjoin r2 rn).clauses.map
        (fun c : InequalitySystem => { c with vars := v1 })) = .ok true
    apply is_unsat_dnf_eq_ok_true.mpr
    intro C' hC'
    obtain ⟨Cm, hCm, rfl⟩ := List.mem_map.mp hC'
    obtain ⟨a', ha', b', hb', rfl⟩ := mem_conjoin.mp hCm
    show fm_is_unsat ⟨a'.ineqs ++ b'.ineqs, v1⟩ = .ok true
    have hwfm : ∀ i ∈ a'.ineqs ++ b'.ineqs, wfIneq v1.count i := by
      intro i hi
      exact hwfL (merge_systems a' b') (mem_conjoin.mpr ⟨a', ha', b', hb', rfl⟩)
        i hi
    apply fm_is_unsat_complete
    · intro i hi t ht
      exact ((hwfm i hi).2 t ht).1
    · intro i hi
      exact ⟨(hwfm i hi).1, fun t ht => ((hwfm i hi).2 t ht).2⟩
    · rintro ⟨ρ, hρ⟩
      have hsata : satList ρ a'.ineqs :=
        fun i hi => hρ i (List.mem_append_left _ hi)
      have hsatb : satList ρ b'.ineqs :=
        fun i hi => hρ i (List.mem_append_right _ hi)
      have hpos := (parse_sound P).1 v1 r2 v1 hstabOk a' ha' ρ hsata
      have hneg := (parse_sound P).2 v1 rn v1 hrn b' hb' ρ hsatb
      exact hneg hpos
  rcases hsh : r2.clauses with - | ⟨qc2, - | ⟨c2, crest⟩⟩
  · exact hfb
  · show impliesAllLoop { qc2 with vars := v1 }
        (pd.clauses.map
          (fun c : InequalitySystem => { c with vars := v1 })) = .ok true
    have hshape1 : clauseShapes r0 = [qc2.ineqs] := by
      rw [← hshapes, clauseShapes, hsh, List.map_cons, List.map_nil]
    obtain ⟨qc0, hq0mem, hq0eq, hr0⟩ :
        ∃ qc0, qc0 ∈ r0.clauses ∧ qc0.ineqs = qc2.ineqs ∧
          r0.clauses = [qc0] := by
      rw [clauseShapes] at hshape1
      cases h0 : r0.clauses with
      | nil => rw [h0] at hshape1; simp at hshape1
      | cons x t =>
        rw [h0] at hshape1
        simp only [List.map_cons, List.cons.injEq] at hshape1
        obtain ⟨hx, ht⟩ := hshape1
        cases t with
        | nil => exact ⟨x, by simp, hx, rfl⟩
        | cons y t' => simp at ht
    apply impliesAllLoop_ok
    intro c' hc'
    obtain ⟨C, hC, rfl⟩ := List.mem_map.mp hc'
    rw [hpd, hr0] at hC
    simp only [List.map_cons, List.map_nil, List.mem_singleton] at hC
    subst hC
    refine clause_implies_ok rfl hnd1 ?_
    intro bi hbi
    have hbi0 : bi ∈ qc0.ineqs := by rw [hq0eq]; exact hbi
    show fm_is_unsat ⟨qc0.ineqs ++ [negate_inequality bi], v1⟩ = .ok true
    have hwf0 : ∀ i ∈ qc0.ineqs, wfIneq v1.count i := hwfP qc0 hq0mem
    have hwfbi : wfIneq v1.count (negate_inequality bi) :=
      wfIneq_negate (hwf0 bi hbi0)
    apply fm_is_unsat_complete
    · intro i hi t ht
      rcases List.mem_append.mp hi with hi' | hi'
      · exact ((hwf0 i hi').2 t ht).1
      · have hie : i = negate_inequality bi := by simpa using hi'
        subst hie
        exact ((hwfbi).2 t ht).1
    · intro i hi
      rcases List.mem_append.mp hi with hi' | hi'
      · exact ⟨(hwf0 i hi').1, fun t ht => ((hwf0 i hi').2 t ht).2⟩
      · have hie : i = negate_inequality bi := by simpa using hi'
        subst hie
        exact ⟨hwfbi.1, fun t ht => (hwfbi.2 t ht).2⟩
    · rintro ⟨ρ, hρ⟩
      exact holds_negate_contra (hρ bi (List.mem_append_left _ hbi0))
        (hρ (negate_inequality bi)
          (List.mem_append_right _ (List.mem_singleton_self _)))
  · exact hfb

theorem implication_reflexive_witness :
    parse_to_system (.ge (.var "x") (.lit 0))
        = .ok ⟨[⟨[⟨[⟨0, 1⟩], 0, false⟩], ⟨[("x", true)]⟩⟩]⟩ ∧
      is_valid_implication (.ge (.var "x") (.lit 0)) (.ge (.var "x") (.lit 0))
        = .ok true :=
  ⟨by decide,
    implication_reflexive (.ge (.var "x") (.lit 0))
      ⟨[⟨[⟨[⟨0, 1⟩], 0, false⟩], ⟨[("x", true)]⟩⟩]⟩ (by decide)⟩
